import Mathlib

/-!
Verification of the `bool-func` library: bit-packed Boolean functions (`BF`),
bit matrices over GF(2) (`BM`), the Möbius (ANF) transform, the Walsh-Hadamard
transform, correlation immunity, Gosper combination enumeration and Gaussian
elimination, shallowly embedded from the Rust sources (`src/bf/mod.rs`,
`src/bf/utils.rs`, `src/bm/mod.rs`, non-test build where `type Value = u128`).

Machine integers are embedded as `Nat`, with explicit reduction modulo
`2 ^ 128` (the `u128` lane type `Value`) or complement at width 64 (`usize`)
exactly where overflow, truncation or bitwise complement occurs in the source.
Fallible operations return `Except`; panics are modelled explicitly.
Loops are embedded as folds over `List.range`; source recursions that are not
structural (`weight`, `log2`, the `while` loop of Gaussian elimination,
iterator draining) take explicit fuel, always instantiated large enough, with
fuel-irrelevance lemmas proved below.
-/

namespace BoolFunc

/-- Decidable equality for `Except` results (used to evaluate concrete runs). -/
instance {e a : Type} [DecidableEq e] [DecidableEq a] : DecidableEq (Except e a) := fun x y =>
  match x, y with
  | .error u, .error v =>
    if h : u = v then .isTrue (by rw [h]) else .isFalse (by intro hc; cases hc; exact h rfl)
  | .error _, .ok _ => .isFalse (by intro hc; cases hc)
  | .ok _, .error _ => .isFalse (by intro hc; cases hc)
  | .ok u, .ok v =>
    if h : u = v then .isTrue (by rw [h]) else .isFalse (by intro hc; cases hc; exact h rfl)

/-- Bit width of the lane type `Value = u128`: `WORD_SIZE = size_of::<Value>()`. -/
def WORD_SIZE : Nat := 16

/-- From `utils.rs`: `WORD_BIT_SIZE = WORD_SIZE * 8`. -/
def WORD_BIT_SIZE : Nat := WORD_SIZE * 8

/-- The size `2 ^ 128` of the `u128` value range (modeling constant for wrap/complement). -/
def W2 : Nat := 2 ^ WORD_BIT_SIZE

/-- From `utils.rs`: `is_pow2(n) = n != 0 && (n & (n - 1)) == 0`. -/
def is_pow2 (n : Nat) : Bool := n != 0 && (n &&& (n - 1)) == 0

/-- From `utils.rs`: `pow2(n) = 1 << n`. -/
def pow2 (n : Nat) : Nat := 1 <<< n

/-- The loop body of `utils.rs` `log2` (`while n > 1 { n >>= 1; result += 1 }`),
with fuel; `log2Aux fuel n` computes floor-log2 of `n` whenever `n ≤ fuel`. -/
def log2Aux : Nat → Nat → Nat
  | 0, _ => 0
  | fuel+1, n => if n ≤ 1 then 0 else log2Aux fuel (n >>> 1) + 1

/-- From `utils.rs`: `log2(n)`, floor of log base 2, `0` for `n ≤ 1`. -/
def log2 (n : Nat) : Nat := log2Aux n n

/-- From `utils.rs`: `div_ws_ceil(n) = (n + (WORD_BIT_SIZE - 1)) >> log2(WORD_BIT_SIZE)`. -/
def div_ws_ceil (n : Nat) : Nat := (n + (WORD_BIT_SIZE - 1)) >>> log2 WORD_BIT_SIZE

/-- From `utils.rs`: `div_ws(n) = n >> log2(WORD_BIT_SIZE)`. -/
def div_ws (n : Nat) : Nat := n >>> log2 WORD_BIT_SIZE

/-- From `utils.rs`: `mod_ws(n) = n & (WORD_BIT_SIZE - 1)`. -/
def mod_ws (n : Nat) : Nat := n &&& (WORD_BIT_SIZE - 1)

/-- From `utils.rs`: `halving_mask(i)`, the alternating-group mask constants used
by the intra-lane Möbius phase, truncated to the lane width
(`mask & (Value::MAX as u128)`).  The source panics for `i ≥ 7`; that arm is
never reached (all callers pass `i < log2 WORD_BIT_SIZE = 7`) and is embedded
as `0`. -/
def halving_mask (i : Nat) : Nat :=
  (match i with
    | 0 => 0xAAAAAAAAAAAAAAAAAAAAAAAAAAAAAAAA
    | 1 => 0xCCCCCCCCCCCCCCCCCCCCCCCCCCCCCCCC
    | 2 => 0xF0F0F0F0F0F0F0F0F0F0F0F0F0F0F0F0
    | 3 => 0xFF00FF00FF00FF00FF00FF00FF00FF00
    | 4 => 0xFFFF0000FFFF0000FFFF0000FFFF0000
    | 5 => 0xFFFFFFFF00000000FFFFFFFF00000000
    | 6 => 0xFFFFFFFFFFFFFFFF0000000000000000
    | _ => 0) &&& (W2 - 1)

/-- The loop of `utils.rs` `weight` (`while n != 0 { n = n & (n - 1); weight += 1 }`),
with fuel; `n` steps of fuel always suffice since `n & (n - 1) < n`. -/
def weightAux : Nat → Nat → Nat
  | 0, _ => 0
  | fuel+1, n => if n = 0 then 0 else weightAux fuel (n &&& (n - 1)) + 1

/-- From `utils.rs`: `weight(n)`, the population count via Kernighan's loop. -/
def weight (n : Nat) : Nat := weightAux n n

/-- From `utils.rs`: `comb(n, r)`, the binomial coefficient by iterated
exactly-divisible multiply/divide, after the `C(n,r) = C(n,n-r)` reduction.
The loop `for i in 1..=r` is the fold over `i+1` for `i` in `range r`. -/
def comb (n r0 : Nat) : Nat :=
  let r := if r0 > n - r0 then n - r0 else r0
  (List.range r).foldl (fun ans i => ans * (n - r + (i + 1)) / (i + 1)) 1

/-- From `utils.rs`: the `BinComb` iterator state. -/
structure BinComb where
  cur : Nat
  n : Nat
deriving DecidableEq, Repr

/-- From `utils.rs`: `BinComb::new(n, k)` starts at the lowest `k`-bit mask. -/
def BinComb.new (n k : Nat) : BinComb := { cur := (1 <<< k) - 1, n := n }

/-- Bitwise complement `!x` on `usize` (64-bit): xor with the all-ones word. -/
def usizeCompl (x : Nat) : Nat := (2 ^ 64 - 1) ^^^ x

/-- From `utils.rs`: `BinComb::next`.  For `cur = 0` (the `k = 0` start) the
source panics: in a debug build at `self.cur - 1` (underflow), in a release
build at `ones / lowbit` (division by zero, since the wrapped computation gives
`lowbit = 0`); both are modelled by the `.error` branch, which is taken exactly
when `lowbit = 0`, i.e. exactly when `cur = 0`. -/
def BinComb.next (b : BinComb) : Except String (Option (Nat × BinComb)) :=
  if b.cur ≥ 1 <<< b.n then .ok none
  else
    let old := b.cur
    let lowbit := b.cur &&& usizeCompl (b.cur - 1)
    let ones := b.cur &&& usizeCompl (b.cur + lowbit)
    if lowbit = 0 then .error "attempt to divide by zero"
    else .ok (some (old, { b with cur := b.cur + lowbit + ((ones / lowbit) >>> 1) }))

/-- Draining the `BinComb` iterator into the list of yielded masks, with fuel
(one unit per `next` call; `2 ^ n + 1` units always suffice since the state
strictly increases and only values `< 2 ^ n` are yielded). -/
def BinComb.runAux : Nat → BinComb → Except String (List Nat)
  | 0, _ => .error "out of fuel"
  | fuel+1, b =>
    match b.next with
    | .error e => .error e
    | .ok none => .ok []
    | .ok (some (old, b')) => (BinComb.runAux fuel b').map (fun l => old :: l)

/-- The full yield sequence of `BinComb::new(n, k)`. -/
def BinComb.run (n k : Nat) : Except String (List Nat) :=
  BinComb.runAux (2 ^ n + 1) (BinComb.new n k)

/-! Basic facts about the word-math helpers. -/

theorem WBS_eq : WORD_BIT_SIZE = 128 := rfl

theorem pow2_eq (n : Nat) : pow2 n = 2 ^ n := by
  simp [pow2, Nat.shiftLeft_eq]

theorem log2_WBS : log2 WORD_BIT_SIZE = 7 := rfl

theorem div_ws_eq (n : Nat) : div_ws n = n / 2 ^ 7 := by
  simp [div_ws, log2_WBS, Nat.shiftRight_eq_div_pow]

theorem mod_ws_eq (n : Nat) : mod_ws n = n % 2 ^ 7 := by
  show n &&& (WORD_BIT_SIZE - 1) = n % 2 ^ 7
  rw [show WORD_BIT_SIZE - 1 = 2 ^ 7 - 1 from rfl, Nat.and_pow_two_sub_one_eq_mod]

theorem div_ws_ceil_eq (n : Nat) : div_ws_ceil n = (n + 127) / 2 ^ 7 := by
  simp [div_ws_ceil, log2_WBS, Nat.shiftRight_eq_div_pow]
  rfl

theorem div_ws_ceil_pow2_of_ge (n : Nat) (h : 7 ≤ n) :
    div_ws_ceil (pow2 n) = 2 ^ (n - 7) := by
  rw [div_ws_ceil_eq, pow2_eq]
  have h2 : 2 ^ n = 2 ^ 7 * 2 ^ (n - 7) := by
    rw [← Nat.pow_add]
    congr 1
    omega
  rw [h2, Nat.mul_add_div (by norm_num : 0 < 2 ^ 7)]
  norm_num

theorem div_ws_ceil_pow2_of_lt (n : Nat) (h : n < 7) : div_ws_ceil (pow2 n) = 1 := by
  interval_cases n <;> rfl

theorem mod_ws_pow2_of_lt (n : Nat) (h : n < 7) : mod_ws (pow2 n) = 2 ^ n := by
  interval_cases n <;> rfl

theorem mod_ws_pow2_of_ge (n : Nat) (h : 7 ≤ n) : mod_ws (pow2 n) = 0 := by
  rw [mod_ws_eq, pow2_eq]
  exact Nat.mod_eq_zero_of_dvd (pow_dvd_pow 2 h)

/-! The `BF` data model and operations, from `src/bf/mod.rs`. -/

/-- From `bf/errors.rs`: the error kinds of `BF` operations. -/
inductive BFError where
  | NoArgs
  | InvalidString (s : List Char)
  | NotPowTwo (len : Nat)
  | ArgOutOfBounds (given : Nat) (bounds : Nat)
deriving DecidableEq, Repr

/-- From `bf/mod.rs`: a Boolean function as a bit-packed truth table.
`values` holds the lanes (least significant lane first, each a `u128` value),
`args_amount` the number of arguments. -/
structure BF where
  values : List Nat
  args_amount : Nat
deriving DecidableEq, Repr

/-- From `bf/mod.rs`: `BF::zero`. -/
def BF.zero (args_amount : Nat) : Except BFError BF :=
  if args_amount = 0 then .error .NoArgs
  else .ok { values := List.replicate (div_ws_ceil (pow2 args_amount)) 0,
             args_amount := args_amount }

/-- From `bf/mod.rs`: `BF::one`: all-ones lanes, then the bits at positions
`≥ 2^n mod WORD_BIT_SIZE` of `values[0]` are masked off when that remainder
is nonzero. -/
def BF.one (args_amount : Nat) : Except BFError BF :=
  if args_amount = 0 then .error .NoArgs
  else
    let cap := div_ws_ceil (pow2 args_amount)
    let bits_in_last_factor := mod_ws (pow2 args_amount)
    let values := List.replicate cap (W2 - 1)
    let values := if bits_in_last_factor ≠ 0
      then values.set 0 (values.getD 0 0 &&& ((1 <<< bits_in_last_factor) - 1))
      else values
    .ok { values := values, args_amount := args_amount }

/-- From `bf/mod.rs`: `BF::random`.  The RNG lane stream is modelled as the
explicit argument `rng` (the source draws `cap` uniform `u128` samples);
capping and the masking of unused bits are from the source. -/
def BF.random (rng : List Nat) (args_amount : Nat) : Except BFError BF :=
  if args_amount = 0 then .error .NoArgs
  else
    let cap := div_ws_ceil (pow2 args_amount)
    let bits_in_last_factor := mod_ws (pow2 args_amount)
    let values := rng.take cap
    let values := if bits_in_last_factor ≠ 0
      then values.set 0 (values.getD 0 0 &&& ((1 <<< bits_in_last_factor) - 1))
      else values
    .ok { values := values, args_amount := args_amount }

/-- From `bf/mod.rs`: `BF::weight`, the fold of `utils::weight` over the lanes. -/
def BF.weight (f : BF) : Nat :=
  f.values.foldl (fun acc factor => acc + BoolFunc.weight factor) 0

/-- From `bf/mod.rs`: `BF::eval`: bit `args mod WORD_BIT_SIZE` of lane
`args div WORD_BIT_SIZE` (out-of-range lane reads give `0`; the source is
documented as requiring `args < 2^n` and would panic there). -/
def BF.eval (f : BF) (args : Nat) : Nat :=
  (f.values.getD (div_ws args) 0 >>> mod_ws args) &&& 1

/-- From `bf/mod.rs`: `BF::set` (bounds-checked). -/
def BF.set (f : BF) (args : Nat) : Except BFError BF :=
  if pow2 f.args_amount ≤ args then
    .error (.ArgOutOfBounds args (pow2 f.args_amount))
  else
    let factor := div_ws args
    let mask := 1 <<< mod_ws args
    .ok { f with values := f.values.set factor (f.values.getD factor 0 ||| mask) }

/-- From `bf/mod.rs`: `BF::unset` (bounds-checked); `!mask` on `u128` is xor
with the all-ones lane. -/
def BF.unset (f : BF) (args : Nat) : Except BFError BF :=
  if pow2 f.args_amount ≤ args then
    .error (.ArgOutOfBounds args (pow2 f.args_amount))
  else
    let factor := div_ws args
    let mask := (W2 - 1) ^^^ (1 <<< mod_ws args)
    .ok { f with values := f.values.set factor (f.values.getD factor 0 &&& mask) }

/-- One intra-lane Möbius step from `BF::mobius`:
`*value ^= (*value << pow2(i)) & halving_mask(i)`, with the `u128` shift
truncation made explicit. -/
def intraLaneStep (i v : Nat) : Nat := v ^^^ ((v <<< pow2 i) % W2 &&& halving_mask i)

/-- The intra-lane phase of `BF::mobius` on one lane:
`for i in 0..log2(WORD_BIT_SIZE)`. -/
def intraLane (v : Nat) : Nat :=
  (List.range (log2 WORD_BIT_SIZE)).foldl (fun v i => intraLaneStep i v) v

/-- One inter-lane Möbius step from `BF::mobius`, block size `cs`:
`for j in (0..len/cs).step_by(2) { for k in 0..cs { v[(j+1)*cs+k] ^= v[j*cs+k] } }`
(`step_by(2)` keeps exactly the even values of the range, in order). -/
def interStep (cs : Nat) (V : List Nat) : List Nat :=
  ((List.range (V.length / cs)).filter (fun j => j % 2 = 0)).foldl
    (fun V j =>
      (List.range cs).foldl
        (fun V k => V.set ((j+1)*cs + k) (V.getD ((j+1)*cs + k) 0 ^^^ V.getD (j*cs + k) 0))
        V)
    V

/-- From `bf/mod.rs`: `BF::mobius` (in place in the source; functional here):
the intra-lane phase on every lane, then either the re-masking early return
(when `args_amount < log2 WORD_BIT_SIZE`) or the inter-lane phase. -/
def BF.mobius (f : BF) : BF :=
  let m := log2 WORD_BIT_SIZE
  let values := f.values.map intraLane
  if f.args_amount < m then
    let bits_in_last_factor := mod_ws (pow2 f.args_amount)
    { f with values := values.set 0 (values.getD 0 0 &&& ((1 <<< bits_in_last_factor) - 1)) }
  else
    { f with values := (List.range (f.args_amount - m)).foldl (fun V i => interStep (pow2 i) V) values }

/-- The monomial string `BF::anf` emits for ANF index `args`: the variables
`x{args_amount - i}` for the set bits `i` of `args` in increasing `i`,
joined by `&`. -/
def monomialString (args_amount args : Nat) : String :=
  String.join ((((List.range WORD_BIT_SIZE).filter
      (fun i => (args >>> i) &&& 1 = 1)).map
        (fun i => "x" ++ toString (args_amount - i))).intersperse "&")

/-- From `bf/mod.rs`: `BF::anf`: Möbius-transform a copy, then render monomials
for all indices in `[1, 2^n)` with coefficient `1`, joined by `" + "`, with a
leading `"1"` term if the coefficient at index `0` is `1`, and `"0"` for the
zero function. -/
def BF.anf (f : BF) : String :=
  let bf_mob := f.mobius
  if bf_mob.weight = 0 then "0"
  else
    let anf := String.join
      ((((List.range (pow2 bf_mob.args_amount)).drop 1).filter
          (fun args => bf_mob.eval args = 1)).map
            (monomialString bf_mob.args_amount) |>.intersperse " + ")
    if bf_mob.eval 0 = 1 then
      (if anf.isEmpty then "1" else "1 + ") ++ anf
    else anf

/-- One scale of the `BF::walsh_adamar` butterfly, block size `cs`: even blocks
get `a + b`, odd blocks then get `(already updated even) - 2*b`, in loop order. -/
def whStep (cs : Nat) (v : List Int) : List Int :=
  (List.range (v.length / cs)).foldl
    (fun v j =>
      if j % 2 = 0 then
        (List.range cs).foldl
          (fun v k => v.set (j*cs + k) (v.getD (j*cs + k) 0 + v.getD ((j+1)*cs + k) 0)) v
      else
        (List.range cs).foldl
          (fun v k => v.set (j*cs + k) (v.getD ((j-1)*cs + k) 0 - 2 * v.getD (j*cs + k) 0)) v)
    v

/-- From `bf/mod.rs`: `BF::walsh_adamar`: the characteristic `±1` vector
(`0 ↦ 1`, `1 ↦ -1`; `eval` only returns `0` or `1`, the source panic arm is
unreachable), then one `whStep` per scale `i in 0..args_amount`. -/
def BF.walsh_adamar (f : BF) : List Int :=
  let char_vec := (List.range (pow2 f.args_amount)).map
    (fun arg => match f.eval arg with
      | 0 => (1 : Int)
      | _ => -1)
  (List.range f.args_amount).foldl (fun v i => whStep (pow2 i) v) char_vec

/-- The `k`-loop of `BF::cor` over `k = 1..=args_amount` (as the list `ks`):
drain `BinComb::new(n, k)` and return `k - 1` on the first nonzero Walsh
coefficient (`wac[comb]`; the masks yielded are `< 2^n`, within bounds). -/
def corAux (wac : List Int) (n : Nat) : List Nat → Except String Nat
  | [] => .ok n
  | k :: ks =>
    match BinComb.run n k with
    | .error e => .error e
    | .ok combs =>
      if combs.any (fun c => wac.getD c 0 ≠ 0) then .ok (k - 1)
      else corAux wac n ks

/-- From `bf/mod.rs`: `BF::cor`, the correlation-immunity order. -/
def BF.cor (f : BF) : Except String Nat :=
  corAux f.walsh_adamar f.args_amount (List.range' 1 f.args_amount)

/-- The character loop of `BF::from_str`: `'0'` skips, `'1'` sets bit `i`,
anything else fails with `InvalidString` of the whole input. -/
def BF.parseAux (s : List Char) : BF → Nat → List Char → Except BFError BF
  | f, _, [] => .ok f
  | f, i, c :: rest =>
    if c = '0' then BF.parseAux s f (i+1) rest
    else if c = '1' then
      match f.set i with
      | .error e => .error e
      | .ok f' => BF.parseAux s f' (i+1) rest
    else .error (.InvalidString s)

/-- From `bf/mod.rs`: `BF::from_str` (the string is modelled as its character
list).  Lengths `1` and non-powers of two fail with `NotPowTwo`; the inner
`BF::zero(log2 len)` cannot fail (`len ≥ 2` gives `log2 len ≥ 1`, the source
uses `.expect`). -/
def BF.from_str (s : List Char) : Except BFError BF :=
  let len := s.length
  if len = 1 ∨ ¬ is_pow2 len then .error (.NotPowTwo len)
  else
    match BF.zero (log2 len) with
    | .error e => .error e
    | .ok bf => BF.parseAux s bf 0 s

/-- From `bf/mod.rs`: the `Display` rendering of a `BF`: the characters of
`eval(arg)` for `arg in 0..2^n` (each is `0` or `1`). -/
def BF.render (f : BF) : List Char :=
  (List.range (pow2 f.args_amount)).map (fun arg => Nat.digitChar (f.eval arg))

/-! The `BM` data model and operations, from `src/bm/mod.rs`. -/

/-- From `bm/errors.rs`: the error kinds of `BM` operations.  `InvalidDeg` is
constructed by `BM::monomial` in `bm/mod.rs` (and is part of the documented
error taxonomy); it is missing from the snapshot of `bm/errors.rs`. -/
inductive BMError where
  | ZeroDim (rows : Nat) (cols : Nat)
  | InconsistentDim
  | InvalidStr (c : Char)
  | InvalidDeg (deg : Nat)
deriving DecidableEq, Repr

/-- From `bm/mod.rs`: a bit-packed dense GF(2) matrix; linear index
`row*cols + col` maps into the lanes exactly as `BF` arguments do. -/
structure BM where
  mat : List Nat
  rows : Nat
  cols : Nat
deriving DecidableEq, Repr

/-- From `bm/mod.rs`: `BM::zero`. -/
def BM.zero (rows cols : Nat) : Except BMError BM :=
  if cols = 0 ∨ rows = 0 then .error (.ZeroDim rows cols)
  else .ok { mat := List.replicate (div_ws_ceil (rows * cols)) 0, rows := rows, cols := cols }

/-- From `bm/mod.rs`: `BM::get` (unchecked). -/
def BM.get (m : BM) (row col : Nat) : Nat :=
  (m.mat.getD (div_ws (row * m.cols + col)) 0 >>> mod_ws (row * m.cols + col)) &&& 1

/-- From `bm/mod.rs`: `BM::set` (unchecked). -/
def BM.set (m : BM) (row col : Nat) : BM :=
  let factor := div_ws (row * m.cols + col)
  let mask := 1 <<< mod_ws (row * m.cols + col)
  { m with mat := m.mat.set factor (m.mat.getD factor 0 ||| mask) }

/-- From `bm/mod.rs`: `BM::unset` (unchecked). -/
def BM.unset (m : BM) (row col : Nat) : BM :=
  let factor := div_ws (row * m.cols + col)
  let mask := (W2 - 1) ^^^ (1 <<< mod_ws (row * m.cols + col))
  { m with mat := m.mat.set factor (m.mat.getD factor 0 &&& mask) }

/-- The `match`-and-write idiom of `bm/mod.rs` (`0 => unset, 1 => set`;
`get` only returns `0` or `1`, the `unreachable` arm is not modelled). -/
def BM.putBit (m : BM) (row col b : Nat) : BM :=
  if b = 0 then m.unset row col else m.set row col

/-- The row-swap pass of `BM::gaussian_elimination` (the `for col in 0..cols`
loop that exchanges rows `cur_row` and `pivot` bit by bit). -/
def BM.swapRows (m : BM) (cur_row pivot : Nat) : BM :=
  (List.range m.cols).foldl
    (fun m col =>
      let to_pivot := m.get cur_row col
      let to_row := m.get pivot col
      (m.putBit pivot col to_pivot).putBit cur_row col to_row)
    m

/-- The inner `for col in 0..cols` loop of the elimination pass: xors row
`cur_row` into row `row`. -/
def BM.xorRow (m : BM) (cur_row row : Nat) : BM :=
  (List.range m.cols).foldl
    (fun m col => m.putBit row col (m.get cur_row col ^^^ m.get row col)) m

/-- The `for row in (cur_row+1)..rows` elimination pass: every row below
`cur_row` with a `1` in `cur_col` gets row `cur_row` xored into it. -/
def BM.elimBelow (m : BM) (cur_row cur_col : Nat) : BM :=
  (List.range' (cur_row + 1) (m.rows - (cur_row + 1))).foldl
    (fun m row => if m.get row cur_col = 0 then m else m.xorRow cur_row row) m

/-- The body of the `while` loop of `BM::gaussian_elimination`, with fuel
(`rows + cols` iterations always suffice: each iteration advances `cur_col`,
and `cur_row` never exceeds `rows`). -/
def BM.gaussAux : Nat → BM → Nat → Nat → BM
  | 0, m, _, _ => m
  | fuel+1, m, cur_row, cur_col =>
    if cur_row < m.rows ∧ cur_col < m.cols then
      let pivot := match (List.range' cur_row (m.rows - cur_row)).find?
          (fun row => m.get row cur_col = 1) with
        | some row => row
        | none => cur_row
      if m.get pivot cur_col = 0 then BM.gaussAux fuel m cur_row (cur_col + 1)
      else
        let m := m.swapRows cur_row pivot
        let m := m.elimBelow cur_row cur_col
        BM.gaussAux fuel m (cur_row + 1) (cur_col + 1)
    else m

/-- From `bm/mod.rs`: `BM::gaussian_elimination` (in place in the source;
functional here). -/
def BM.gaussian_elimination (m : BM) : BM := BM.gaussAux (m.rows + m.cols) m 0 0

/-- From `bm/mod.rs`: `BM::rank`: eliminate on a clone, scan rows bottom-up for
the first row with a nonzero entry, return its index plus one, else `0`. -/
def BM.rank (m : BM) : Nat :=
  let bm := m.gaussian_elimination
  match (List.range m.rows).reverse.find?
      (fun row => (List.range m.cols).any (fun col => bm.get row col ≠ 0)) with
  | some row => row + 1
  | none => 0

/-- The column loop of `BM::from_str` on one row string: `'1'` sets, `'0'`
skips, anything else fails with `InvalidStr` of that character.  In-range
reads (`cols` equals every row's length after the consistency check) make the
source's `.nth(col).unwrap()` total; the `getD` default is dead. -/
def bmParseCols (str_row : List Char) (row : Nat) : BM → List Nat → Except BMError BM
  | bm, [] => .ok bm
  | bm, col :: rest =>
    let bit := str_row.getD col ' '
    if bit = '1' then bmParseCols str_row row (bm.set row col) rest
    else if bit = '0' then bmParseCols str_row row bm rest
    else .error (.InvalidStr bit)

/-- The row loop of `BM::from_str`. -/
def bmParseRows : BM → Nat → List (List Char) → Except BMError BM
  | bm, _, [] => .ok bm
  | bm, row, r :: rest =>
    match bmParseCols r row bm (List.range bm.cols) with
    | .error e => .error e
    | .ok bm' => bmParseRows bm' (row + 1) rest

/-- The `windows(2).all(|w| w[0].len() == w[1].len())` consistency check of
`BM::from_str`: adjacent rows have equal lengths. -/
def bmConsistent : List (List Char) → Bool
  | a :: b :: rest => (a.length == b.length) && bmConsistent (b :: rest)
  | _ => true

/-- From `bm/mod.rs`: `BM::from_str`: split on line breaks, take the first
row's length as the column count, check emptiness and consistency, then fill
a zero matrix (that `BM::zero` cannot fail here follows from the dimension
checks; the source `unwrap`s it). -/
def BM.from_str (s : List Char) : Except BMError BM :=
  let str_rows := s.splitOn '\n'
  let rows := str_rows.length
  let cols := (str_rows.headD []).length
  if rows = 0 ∨ cols = 0 then .error (.ZeroDim rows cols)
  else if 1 < rows ∧ bmConsistent str_rows = false then .error .InconsistentDim
  else
    match BM.zero rows cols with
    | .error e => .error e
    | .ok bm => bmParseRows bm 0 str_rows

/-- Result type for `BM::monomial`: a recoverable error, a panic (`unwrap` of
`BM::zero`'s `ZeroDim` error when the function has weight `0`), or success. -/
inductive MonomialResult where
  | err (e : BMError)
  | crash
  | ok (m : BM)
deriving DecidableEq, Repr

/-- From `bm/mod.rs`: `BM::monomial(bf, deg)`: validate `deg`, compute the
column count `1 + Σ_{k=1..deg} comb(n,k)`, allocate `BM::zero(weight, cols)`
(whose failure the source `unwrap`s — a panic, `MonomialResult.crash`), set the
constant-one column, then for each row (the arguments with `eval = 1`, in
ascending order, with a per-row running column counter starting at `1`) set
the columns whose subset mask is a submask of the row's argument, draining
`BinComb::new(n, d)` for `d = 1..=deg`.  A draining failure cannot occur for
`d ≥ 1` (proved below); the embedding keeps the state unchanged on that dead
branch. -/
def BM.monomial (bf : BF) (deg : Nat) : MonomialResult :=
  if deg = 0 ∨ bf.args_amount < deg then .err (.InvalidDeg deg)
  else
    let cols := 1 + ((List.range' 1 deg).map (comb bf.args_amount)).sum
    let rows := bf.weight
    match BM.zero rows cols with
    | .error _ => .crash
    | .ok bm =>
      let bm := (List.range rows).foldl (fun bm i => bm.set i 0) bm
      let argsList := (List.range (pow2 bf.args_amount)).filter (fun args => bf.eval args = 1)
      let step := fun (bm : BM) (rowargs : Nat × Nat) =>
        let row := rowargs.1
        let args := rowargs.2
        ((List.range' 1 deg).foldl
          (fun (p : BM × Nat) d =>
            match BinComb.run bf.args_amount d with
            | .error _ => p
            | .ok combs =>
              combs.foldl (fun (p : BM × Nat) c =>
                (if c &&& args = c then p.1.set row p.2 else p.1, p.2 + 1)) p)
          (bm, 1)).1
      .ok (argsList.enum.foldl step bm)

/-! Generic list access lemmas used throughout. -/

theorem getD_set_self {α : Type} (l : List α) (i : Nat) (a d : α) (h : i < l.length) :
    (l.set i a).getD i d = a := by
  simp [List.getD_eq_getElem?_getD, List.getElem?_set_self h]

theorem getD_set_ne {α : Type} (l : List α) {i j : Nat} (a d : α) (h : i ≠ j) :
    (l.set i a).getD j d = l.getD j d := by
  simp [List.getD_eq_getElem?_getD, List.getElem?_set_ne h]

theorem getD_eq_default {α : Type} (l : List α) (d : α) {j : Nat} (h : l.length ≤ j) :
    l.getD j d = d := by
  simp [List.getD_eq_getElem?_getD, List.getElem?_eq_none h]

/-! Facts about `weight` (population count). -/

theorem and_pred_le (n : Nat) : n &&& (n - 1) ≤ n - 1 := Nat.and_le_right

theorem weightAux_congr (n : Nat) : ∀ f1 f2, n ≤ f1 → n ≤ f2 → weightAux f1 n = weightAux f2 n := by
  induction n using Nat.strong_induction_on with
  | _ n ih =>
    intro f1 f2 h1 h2
    match n, f1, f2 with
    | 0, 0, 0 => rfl
    | 0, 0, f2+1 => rfl
    | 0, f1+1, 0 => rfl
    | 0, f1+1, f2+1 => rfl
    | n+1, f1+1, f2+1 =>
      show weightAux (f1+1) (n+1) = weightAux (f2+1) (n+1)
      rw [weightAux, weightAux]
      simp only [Nat.succ_ne_zero, if_false, Nat.add_sub_cancel]
      have hlt : (n+1) &&& n < n + 1 :=
        Nat.lt_succ_of_le (le_trans (and_pred_le (n+1)) (by omega))
      have h1' : (n+1) &&& n ≤ f1 := le_trans (and_pred_le (n+1)) (by omega)
      have h2' : (n+1) &&& n ≤ f2 := le_trans (and_pred_le (n+1)) (by omega)
      rw [ih _ hlt f1 f2 h1' h2']

theorem weight_zero : weight 0 = 0 := rfl

theorem weight_step (n : Nat) (h : n ≠ 0) : weight n = weight (n &&& (n - 1)) + 1 := by
  obtain ⟨m, rfl⟩ : ∃ m, n = m + 1 := ⟨n - 1, by omega⟩
  show weightAux (m+1) (m+1) = weight ((m+1) &&& m) + 1
  rw [weightAux]
  simp only [Nat.succ_ne_zero, if_false, Nat.add_sub_cancel]
  congr 1
  exact weightAux_congr _ _ _ (le_trans (and_pred_le (m+1)) (by omega)) le_rfl

theorem weight_eq_zero_iff (n : Nat) : weight n = 0 ↔ n = 0 := by
  constructor
  · intro h
    by_contra hn
    rw [weight_step n hn] at h
    omega
  · intro h
    subst h
    rfl

theorem and_pred_of_odd (n : Nat) (h : n % 2 = 1) : n &&& (n - 1) = n - 1 := by
  apply Nat.eq_of_testBit_eq
  intro j
  cases j with
  | zero =>
    have h0 : (n - 1) % 2 = 0 := by omega
    simp [Nat.testBit_and, Nat.testBit_zero, h, h0]
  | succ j =>
    have hd : (n - 1) / 2 = n / 2 := by omega
    rw [Nat.testBit_and, Nat.testBit_add_one, Nat.testBit_add_one, hd, Bool.and_self]

theorem and_pred_two_mul (v : Nat) : (2*v) &&& (2*v - 1) = 2 * (v &&& (v - 1)) := by
  cases v with
  | zero => rfl
  | succ w =>
    simp only [Nat.add_sub_cancel]
    apply Nat.eq_of_testBit_eq
    intro j
    cases j with
    | zero =>
      simp [Nat.testBit_and, Nat.testBit_zero, Nat.mul_mod_right]
    | succ j =>
      have h1 : (2 * (w+1)) / 2 = w + 1 := by omega
      have h2 : (2 * (w+1) - 1) / 2 = w := by omega
      have h3 : (2 * ((w+1) &&& w)) / 2 = (w+1) &&& w := by omega
      rw [Nat.testBit_and, Nat.testBit_add_one, Nat.testBit_add_one, Nat.testBit_add_one,
          h1, h2, h3, Nat.testBit_and]

theorem weight_two_mul (v : Nat) : weight (2 * v) = weight v := by
  induction v using Nat.strong_induction_on with
  | _ v ih =>
    cases Nat.eq_zero_or_pos v with
    | inl h => subst h; rfl
    | inr hpos =>
      have h2v : 2 * v ≠ 0 := by omega
      rw [weight_step _ h2v, and_pred_two_mul,
          ih (v &&& (v-1)) (Nat.lt_of_le_of_lt (and_pred_le v) (by omega)),
          ← weight_step v (by omega)]

theorem weight_two_mul_add_one (v : Nat) : weight (2 * v + 1) = weight v + 1 := by
  have hodd : (2 * v + 1) % 2 = 1 := by omega
  rw [weight_step _ (by omega), and_pred_of_odd _ hodd]
  simp [weight_two_mul]

theorem weight_div2 (n : Nat) : weight n = weight (n / 2) + n % 2 := by
  rcases Nat.mod_two_eq_zero_or_one n with h2 | h2
  · have h : n = 2 * (n / 2) := by omega
    rw [h2, Nat.add_zero]
    conv_lhs => rw [h]
    exact weight_two_mul _
  · have h : n = 2 * (n / 2) + 1 := by omega
    rw [h2]
    conv_lhs => rw [h]
    exact weight_two_mul_add_one _

theorem weight_two_pow_sub_one (k : Nat) : weight (2 ^ k - 1) = k := by
  induction k with
  | zero => rfl
  | succ k ih =>
    have h : 2 ^ (k+1) - 1 = 2 * (2 ^ k - 1) + 1 := by
      have : 1 ≤ 2 ^ k := Nat.one_le_two_pow
      omega
    rw [h, weight_two_mul_add_one, ih]

theorem weight_mul_two_pow_add (a t : Nat) :
    ∀ b, b < 2 ^ t → weight (a * 2 ^ t + b) = weight a + weight b := by
  induction t generalizing a with
  | zero =>
    intro b hb
    interval_cases b
    simp [weight_zero]
  | succ t ih =>
    intro b hb
    have e1 : a * 2 ^ (t+1) = 2 * (a * 2 ^ t) := by ring
    have hb2 : b / 2 < 2 ^ t := by
      rw [Nat.pow_succ] at hb
      omega
    have hw : weight b = weight (b / 2) + b % 2 := weight_div2 b
    rcases Nat.mod_two_eq_zero_or_one b with h2 | h2
    · have hsplit : a * 2 ^ (t+1) + b = 2 * (a * 2 ^ t + b / 2) := by omega
      rw [hsplit, weight_two_mul, ih a _ hb2]
      omega
    · have hsplit : a * 2 ^ (t+1) + b = 2 * (a * 2 ^ t + b / 2) + 1 := by omega
      rw [hsplit, weight_two_mul_add_one, ih a _ hb2]
      omega

theorem weight_le_of_lt_two_pow {x k : Nat} (h : x < 2 ^ k) : weight x ≤ k := by
  induction k generalizing x with
  | zero =>
    interval_cases x
    simp [weight_zero]
  | succ k ih =>
    rcases Nat.eq_zero_or_pos x with rfl | hx
    · simp [weight_zero]
    · rw [weight_div2 x]
      have := ih (x := x / 2) (by omega)
      omega

theorem eq_two_pow_sub_one_of_weight {x k : Nat} (hlt : x < 2 ^ k) (hw : weight x = k) :
    x = 2 ^ k - 1 := by
  induction k generalizing x with
  | zero => omega
  | succ k ih =>
    have hd : x / 2 < 2 ^ k := by omega
    rcases Nat.mod_two_eq_zero_or_one x with h2 | h2
    · exfalso
      rw [weight_div2 x, h2] at hw
      have := weight_le_of_lt_two_pow hd
      omega
    · rw [weight_div2 x, h2] at hw
      have := ih hd (by omega)
      omega

theorem weight_le_of_lt_pred {x k : Nat} (h : x < 2 ^ k - 1) : weight x + 1 ≤ k := by
  have hlt : x < 2 ^ k := by omega
  have hle := weight_le_of_lt_two_pow hlt
  rcases Nat.lt_or_ge (weight x) k with hl | hg
  · omega
  · exfalso
    have : weight x = k := by omega
    have := eq_two_pow_sub_one_of_weight hlt this
    omega

theorem le_shifted_ones_of_weight {x m o : Nat} (ho : o ≤ m) (hlt : x < 2 ^ m)
    (hw : weight x = o) : x ≤ 2 ^ m - 2 ^ (m - o) := by
  induction m generalizing x o with
  | zero => omega
  | succ m ih =>
    rcases Nat.eq_zero_or_pos o with rfl | hopos
    · have : x = 0 := by
        rw [← weight_eq_zero_iff]
        exact hw
      simp [this]
    · have hd : x / 2 < 2 ^ m := by omega
      rcases Nat.mod_two_eq_zero_or_one x with h2 | h2
      · have hwd : weight (x / 2) = o := by
          rw [weight_div2 x, h2] at hw
          omega
        have hom : o ≤ m := by
          have := weight_le_of_lt_two_pow hd
          omega
        have := ih hom hd hwd
        have hx : x = 2 * (x / 2) := by omega
        have hpow : 2 ^ (m + 1 - o) = 2 * 2 ^ (m - o) := by
          rw [← Nat.pow_succ']
          congr 1
          omega
        rw [Nat.pow_succ]
        omega
      · have hwd : weight (x / 2) = o - 1 := by
          rw [weight_div2 x, h2] at hw
          omega
        have hom : o - 1 ≤ m := by omega
        have := ih hom hd hwd
        have hx : x = 2 * (x / 2) + 1 := by omega
        have hco : m + 1 - o = m - (o - 1) := by omega
        have hAB : 2 ^ (m - (o - 1)) ≤ 2 ^ m := Nat.pow_le_pow_right (by omega) (by omega)
        have h1 : 1 ≤ 2 ^ (m - (o - 1)) := Nat.one_le_two_pow
        rw [Nat.pow_succ, hco]
        omega

/-! The xor-with-a-power-of-two bridge: flipping bit `s` adds or subtracts `2^s`. -/

theorem xor_two_pow_of_testBit_false {b s : Nat} (h : b.testBit s = false) :
    b ^^^ 2 ^ s = b + 2 ^ s := by
  have hdecomp : 2 ^ (s+1) * (b / 2 ^ (s+1)) + b % 2 ^ (s+1) = b := Nat.div_add_mod b (2 ^ (s+1))
  set hi := b / 2 ^ (s+1) with hhi
  set lo := b % 2 ^ (s+1) with hlo
  have hlo_lt : lo < 2 ^ (s+1) := Nat.mod_lt _ (Nat.pos_pow_of_pos _ (by norm_num))
  have hlos : lo.testBit s = false := by
    rw [hlo, Nat.testBit_mod_two_pow]
    simp [h]
  have hlo_lt_s : lo < 2 ^ s := by
    apply Nat.lt_pow_two_of_testBit
    intro i hi_ge
    rcases Nat.eq_or_lt_of_le hi_ge with rfl | hgt
    · exact hlos
    · exact Nat.testBit_lt_two_pow (lt_of_lt_of_le hlo_lt (Nat.pow_le_pow_right (by norm_num) hgt))
  have hsum_lt : 2 ^ s + lo < 2 ^ (s+1) := by
    rw [Nat.pow_succ]
    omega
  apply Nat.eq_of_testBit_eq
  intro j
  rw [Nat.testBit_xor, Nat.testBit_two_pow]
  conv_lhs => rw [← hdecomp]
  have hadd : b + 2 ^ s = 2 ^ (s+1) * hi + (2 ^ s + lo) := by
    conv_lhs => rw [← hdecomp]
    omega
  rw [hadd, Nat.testBit_mul_pow_two_add _ hlo_lt, Nat.testBit_mul_pow_two_add _ hsum_lt]
  by_cases hj : j < s + 1
  · simp only [hj, if_true]
    rcases Nat.lt_or_ge j s with hjs | hjs
    · rw [Nat.testBit_two_pow_add_gt hjs]
      have : ¬ (s = j) := by omega
      simp [this]
    · have hjeq : j = s := by omega
      subst hjeq
      rw [Nat.testBit_two_pow_add_eq, hlos]
      simp
  · simp only [hj, if_false]
    have : ¬ (s = j) := by omega
    simp [this]

theorem xor_two_pow_of_testBit_true {b s : Nat} (h : b.testBit s = true) :
    b ^^^ 2 ^ s = b - 2 ^ s := by
  have hc : (b ^^^ 2 ^ s).testBit s = false := by
    rw [Nat.testBit_xor, h, Nat.testBit_two_pow_self]
    rfl
  have := xor_two_pow_of_testBit_false hc
  rw [Nat.xor_cancel_right] at this
  omega

theorem two_pow_le_of_testBit {b s : Nat} (h : b.testBit s = true) : 2 ^ s ≤ b :=
  Nat.testBit_implies_ge h

/-! The abstract butterfly steps on bit-indexed Boolean families.  The whole
Möbius transform, both its intra-lane and its inter-lane phase, is the
composition of these pairwise-commuting involutions. -/

/-- One binary zeta/Möbius butterfly at scale `s`: every position `p` with bit
`s` set absorbs (xor) the position with bit `s` cleared. -/
def flipStep (s : Nat) (g : Nat → Bool) : Nat → Bool :=
  fun p => if p.testBit s then xor (g p) (g (p ^^^ 2 ^ s)) else g p

/-- Composition of `flipStep t` for `t < m`, scale `0` innermost. -/
def flipFold : Nat → (Nat → Bool) → Nat → Bool
  | 0, g => g
  | m+1, g => flipStep m (flipFold m g)

theorem testBit_xor_two_pow_self {p s : Nat} :
    (p ^^^ 2 ^ s).testBit s = ! p.testBit s := by
  rw [Nat.testBit_xor, Nat.testBit_two_pow_self, Bool.xor_true]

theorem testBit_xor_two_pow_ne {p s t : Nat} (h : t ≠ s) :
    (p ^^^ 2 ^ t).testBit s = p.testBit s := by
  rw [Nat.testBit_xor, Nat.testBit_two_pow_of_ne h, Bool.xor_false]

theorem flipStep_invol (s : Nat) (g : Nat → Bool) : flipStep s (flipStep s g) = g := by
  funext p
  by_cases hp : p.testBit s
  · have hq : (p ^^^ 2 ^ s).testBit s = false := by
      rw [testBit_xor_two_pow_self, hp]
      rfl
    simp only [flipStep, hp, if_true, hq, if_false, Bool.false_eq_true, Nat.xor_cancel_right]
    cases g p <;> cases g (p ^^^ 2 ^ s) <;> rfl
  · simp [flipStep, hp]

theorem flipStep_comm {s t : Nat} (hst : s ≠ t) (g : Nat → Bool) :
    flipStep s (flipStep t g) = flipStep t (flipStep s g) := by
  funext p
  have hxc : (p ^^^ 2 ^ s) ^^^ 2 ^ t = (p ^^^ 2 ^ t) ^^^ 2 ^ s := by
    rw [Nat.xor_assoc, Nat.xor_assoc, Nat.xor_comm (2 ^ s) (2 ^ t)]
  by_cases hps : p.testBit s <;> by_cases hpt : p.testBit t
  · have h1 : (p ^^^ 2 ^ s).testBit t = p.testBit t :=
      testBit_xor_two_pow_ne (by omega)
    have h2 : (p ^^^ 2 ^ t).testBit s = p.testBit s :=
      testBit_xor_two_pow_ne (by omega)
    simp only [flipStep, hps, hpt, if_true, h1, h2, hxc]
    cases g p <;> cases g (p ^^^ 2 ^ s) <;> cases g (p ^^^ 2 ^ t) <;>
      cases g ((p ^^^ 2 ^ t) ^^^ 2 ^ s) <;> rfl
  · have h1 : (p ^^^ 2 ^ s).testBit t = p.testBit t :=
      testBit_xor_two_pow_ne (by omega)
    simp [flipStep, hps, hpt, h1]
  · have h2 : (p ^^^ 2 ^ t).testBit s = p.testBit s :=
      testBit_xor_two_pow_ne (by omega)
    simp [flipStep, hps, hpt, h2]
  · simp only [flipStep, hps, hpt, Bool.false_eq_true, if_false]

theorem flipStep_flipFold_comm (s m : Nat) (g : Nat → Bool) :
    flipStep s (flipFold m g) = flipFold m (flipStep s g) := by
  induction m generalizing g with
  | zero => rfl
  | succ m ih =>
    show flipStep s (flipStep m (flipFold m g)) = flipStep m (flipFold m (flipStep s g))
    by_cases hsm : s = m
    · subst hsm
      rw [ih]
    · rw [flipStep_comm hsm, ih]

theorem flipFold_invol (m : Nat) (g : Nat → Bool) : flipFold m (flipFold m g) = g := by
  induction m generalizing g with
  | zero => rfl
  | succ m ih =>
    show flipStep m (flipFold m (flipStep m (flipFold m g))) = g
    rw [← flipStep_flipFold_comm, flipStep_invol, ih]

theorem flipStep_eq_of_lt {s p : Nat} (g : Nat → Bool) (h : p < 2 ^ s) :
    flipStep s g p = g p := by
  simp [flipStep, Nat.testBit_lt_two_pow h]

theorem flipFold_eq_of_lt {n m p : Nat} (g : Nat → Bool) (hp : p < 2 ^ n) (hnm : n ≤ m) :
    flipFold m g p = flipFold n g p := by
  induction m with
  | zero =>
    have : n = 0 := by omega
    subst this
    rfl
  | succ m ih =>
    rcases Nat.eq_or_lt_of_le hnm with rfl | hlt
    · rfl
    · have hnm' : n ≤ m := by omega
      show flipStep m (flipFold m g) p = flipFold n g p
      rw [flipStep_eq_of_lt _ (lt_of_lt_of_le hp (Nat.pow_le_pow_right (by norm_num) hnm')),
          ih hnm']

theorem flipStep_congr_low {N s : Nat} {g g' : Nat → Bool} (hs : s < N)
    (hg : ∀ y, y < 2 ^ N → g y = g' y) :
    ∀ p, p < 2 ^ N → flipStep s g p = flipStep s g' p := by
  intro p hp
  have hx : p ^^^ 2 ^ s < 2 ^ N :=
    Nat.xor_lt_two_pow hp (Nat.pow_lt_pow_right (by norm_num) hs)
  simp only [flipStep]
  rw [hg p hp, hg _ hx]

theorem flipFold_congr_low {N m : Nat} {g g' : Nat → Bool} (hm : m ≤ N)
    (hg : ∀ y, y < 2 ^ N → g y = g' y) :
    ∀ p, p < 2 ^ N → flipFold m g p = flipFold m g' p := by
  induction m with
  | zero => exact hg
  | succ m ih =>
    intro p hp
    exact flipStep_congr_low (by omega) (ih (by omega)) p hp

/-! Characterization of the intra-lane Möbius phase via `flipStep`. -/

theorem halving_mask_lt (i : Nat) : halving_mask i < W2 := by
  have h : halving_mask i ≤ W2 - 1 := Nat.and_le_right
  have : 0 < W2 := Nat.pos_pow_of_pos _ (by norm_num)
  omega

theorem halving_mask_testBit_lt :
    ∀ i, i < 7 → ∀ b, b < 128 → (halving_mask i).testBit b = b.testBit i := by
  decide

theorem halving_mask_testBit (i : Nat) (hi : i < 7) (b : Nat) :
    (halving_mask i).testBit b = (decide (b < 128) && b.testBit i) := by
  by_cases hb : b < 128
  · simp [hb, halving_mask_testBit_lt i hi b hb]
  · have hge : (halving_mask i).testBit b = false := by
      apply Nat.testBit_lt_two_pow
      calc halving_mask i < W2 := halving_mask_lt i
        _ = 2 ^ 128 := rfl
        _ ≤ 2 ^ b := Nat.pow_le_pow_right (by norm_num) (by omega)
    simp [hge, hb]

theorem intraLaneStep_lt {i v : Nat} (hv : v < W2) : intraLaneStep i v < W2 :=
  Nat.xor_lt_two_pow hv (Nat.and_lt_two_pow _ (halving_mask_lt i))

theorem intraLaneStep_testBit {i : Nat} (hi : i < 7) (v : Nat) {b : Nat} (hb : b < 128) :
    (intraLaneStep i v).testBit b = flipStep i (v.testBit) b := by
  have hmask : ((v <<< pow2 i) % W2 &&& halving_mask i).testBit b
      = ((v <<< 2 ^ i).testBit b && b.testBit i) := by
    rw [Nat.testBit_and, pow2_eq]
    rw [show W2 = 2 ^ 128 from rfl, Nat.testBit_mod_two_pow, halving_mask_testBit i hi]
    simp [hb]
  rw [intraLaneStep, Nat.testBit_xor, hmask, Nat.testBit_shiftLeft]
  cases hbit : b.testBit i with
  | false =>
    simp [flipStep, hbit]
  | true =>
    have hge : 2 ^ i ≤ b := two_pow_le_of_testBit hbit
    have hxor : b ^^^ 2 ^ i = b - 2 ^ i := xor_two_pow_of_testBit_true hbit
    simp only [flipStep, hbit, if_true, hxor, hge, ge_iff_le, decide_eq_true_eq]
    simp [hge]

theorem intraLane_lt {v : Nat} (hv : v < W2) : intraLane v < W2 := by
  rw [intraLane, log2_WBS]
  show List.foldl (fun v i => intraLaneStep i v) v (List.range 7) < W2
  have : ∀ l : List Nat, ∀ w, w < W2 → List.foldl (fun v i => intraLaneStep i v) w l < W2 := by
    intro l
    induction l with
    | nil => intro w hw; exact hw
    | cons a l ih => intro w hw; exact ih _ (intraLaneStep_lt hw)
  exact this _ v hv

theorem intraLane_testBit (v : Nat) {b : Nat} (hb : b < 128) :
    (intraLane v).testBit b = flipFold 7 (v.testBit) b := by
  rw [intraLane, log2_WBS]
  have main : ∀ m, m ≤ 7 → ∀ b, b < 128 →
      (List.foldl (fun v i => intraLaneStep i v) v (List.range m)).testBit b
        = flipFold m (v.testBit) b := by
    intro m
    induction m with
    | zero => intro _ b hb; rfl
    | succ m ih =>
      intro hm b hb
      rw [List.range_succ, List.foldl_append, List.foldl_cons, List.foldl_nil]
      have hstep := intraLaneStep_testBit (i := m) (by omega)
        (List.foldl (fun v i => intraLaneStep i v) v (List.range m)) (b := b) hb
      rw [hstep]
      show flipStep m (Nat.testBit (List.foldl (fun v i => intraLaneStep i v) v (List.range m))) b
        = flipStep m (flipFold m (v.testBit)) b
      apply flipStep_congr_low (N := 7) (by omega) _ b (by omega)
      intro y hy
      exact ih (by omega) y (by omega)
  exact main 7 le_rfl b hb

/-! Lane-local versus global positions: scales below `7` act inside one lane. -/

theorem testBit_lane_local {q r s : Nat} (hr : r < 2 ^ 7) (hs : s < 7) :
    (2 ^ 7 * q + r).testBit s = r.testBit s := by
  rw [Nat.testBit_mul_pow_two_add _ hr]
  simp [hs]

theorem xor_lane_local {q r s : Nat} (hr : r < 2 ^ 7) (hs : s < 7) :
    (2 ^ 7 * q + r) ^^^ 2 ^ s = 2 ^ 7 * q + (r ^^^ 2 ^ s) := by
  have hslt : 2 ^ s < 2 ^ 7 := Nat.pow_lt_pow_right (by norm_num) hs
  cases hbit : r.testBit s with
  | true =>
    have hge : 2 ^ s ≤ r := two_pow_le_of_testBit hbit
    have h1 : r ^^^ 2 ^ s = r - 2 ^ s := xor_two_pow_of_testBit_true hbit
    have h2 : (2 ^ 7 * q + r).testBit s = true := by rw [testBit_lane_local hr hs, hbit]
    have h3 := xor_two_pow_of_testBit_true h2
    omega
  | false =>
    have h1 : r ^^^ 2 ^ s = r + 2 ^ s := xor_two_pow_of_testBit_false hbit
    have h2 : (2 ^ 7 * q + r).testBit s = false := by rw [testBit_lane_local hr hs, hbit]
    have h3 := xor_two_pow_of_testBit_false h2
    omega

theorem flipStep_lane {s : Nat} (hs : s < 7) (g : Nat → Bool) (q r : Nat) (hr : r < 2 ^ 7) :
    flipStep s g (2 ^ 7 * q + r) = flipStep s (fun c => g (2 ^ 7 * q + c)) r := by
  simp only [flipStep, testBit_lane_local hr hs, xor_lane_local hr hs]

theorem flipFold_lane {m : Nat} (hm : m ≤ 7) (g : Nat → Bool) (q r : Nat) (hr : r < 2 ^ 7) :
    flipFold m g (2 ^ 7 * q + r) = flipFold m (fun c => g (2 ^ 7 * q + c)) r := by
  induction m generalizing r with
  | zero => rfl
  | succ m ih =>
    show flipStep m (flipFold m g) (2 ^ 7 * q + r) = flipStep m (flipFold m fun c => g (2 ^ 7 * q + c)) r
    rw [flipStep_lane (by omega) _ q r hr]
    simp only [flipStep]
    have hxlt : r ^^^ 2 ^ m < 2 ^ 7 :=
      Nat.xor_lt_two_pow hr (Nat.pow_lt_pow_right (by norm_num) (by omega))
    rw [ih (by omega) r hr, ih (by omega) _ hxlt]

/-- The global bit view of a lane vector: bit `x mod 128` of lane `x div 128`. -/
def evalBit (V : List Nat) (x : Nat) : Bool :=
  (V.getD (x / 2 ^ 7) 0).testBit (x % 2 ^ 7)

theorem intraLane_zero : intraLane 0 = 0 := rfl

theorem evalBit_map_intraLane (V : List Nat) (x : Nat) :
    evalBit (V.map intraLane) x = (intraLane (V.getD (x / 2 ^ 7) 0)).testBit (x % 2 ^ 7) := by
  unfold evalBit
  congr 1
  rcases Nat.lt_or_ge (x / 2 ^ 7) V.length with hlt | hge
  · rw [List.getD_eq_getElem?_getD, List.getD_eq_getElem?_getD, List.getElem?_map,
        List.getElem?_eq_getElem hlt]
    rfl
  · rw [getD_eq_default _ _ (by simpa using hge), getD_eq_default _ _ hge, intraLane_zero]

theorem evalBit_intra_phase (V : List Nat) (x : Nat) :
    evalBit (V.map intraLane) x = flipFold 7 (evalBit V) x := by
  have hrlt : x % 2 ^ 7 < 2 ^ 7 := Nat.mod_lt _ (by norm_num)
  have hsplit : x = 2 ^ 7 * (x / 2 ^ 7) + x % 2 ^ 7 := (Nat.div_add_mod x (2 ^ 7)).symm
  rw [evalBit_map_intraLane, intraLane_testBit _ hrlt]
  conv_rhs => rw [hsplit, flipFold_lane le_rfl _ _ _ hrlt]
  apply flipFold_congr_low (N := 7) le_rfl
  · intro y hy
    unfold evalBit
    have h1 : (2 ^ 7 * (x / 2 ^ 7) + y) / 2 ^ 7 = x / 2 ^ 7 := by omega
    have h2 : (2 ^ 7 * (x / 2 ^ 7) + y) % 2 ^ 7 = y := by omega
    rw [h1, h2]
  · exact hrlt

/-! Characterization of the inter-lane Möbius phase. -/

theorem inner_fold_length (cs j : Nat) (V : List Nat) (c : Nat) :
    ((List.range c).foldl
      (fun V k => V.set ((j+1)*cs + k) (V.getD ((j+1)*cs + k) 0 ^^^ V.getD (j*cs + k) 0))
      V).length = V.length := by
  induction c with
  | zero => rfl
  | succ c ih =>
    rw [List.range_succ, List.foldl_append, List.foldl_cons, List.foldl_nil,
        List.length_set, ih]

theorem inner_fold_getD (cs j : Nat) (V : List Nat)
    (hbound : (j+1)*cs + cs ≤ V.length) :
    ∀ c, c ≤ cs → ∀ x,
      ((List.range c).foldl
        (fun V k => V.set ((j+1)*cs + k) (V.getD ((j+1)*cs + k) 0 ^^^ V.getD (j*cs + k) 0))
        V).getD x 0
      = if (j+1)*cs ≤ x ∧ x < (j+1)*cs + c then V.getD x 0 ^^^ V.getD (x - cs) 0
        else V.getD x 0 := by
  intro c
  induction c with
  | zero =>
    intro _ x
    rw [if_neg (by omega)]
    rfl
  | succ c ih =>
    intro hc x
    have hexp : (j+1)*cs = j*cs + cs := by ring
    rw [List.range_succ, List.foldl_append, List.foldl_cons, List.foldl_nil]
    have hW1 : ((List.range c).foldl
        (fun V k => V.set ((j+1)*cs + k) (V.getD ((j+1)*cs + k) 0 ^^^ V.getD (j*cs + k) 0))
        V).getD ((j+1)*cs + c) 0 = V.getD ((j+1)*cs + c) 0 := by
      rw [ih (by omega) _, if_neg (by omega)]
    have hW2 : ((List.range c).foldl
        (fun V k => V.set ((j+1)*cs + k) (V.getD ((j+1)*cs + k) 0 ^^^ V.getD (j*cs + k) 0))
        V).getD (j*cs + c) 0 = V.getD (j*cs + c) 0 := by
      rw [ih (by omega) _, if_neg (by omega)]
    by_cases hx : x = (j+1)*cs + c
    · subst hx
      rw [getD_set_self _ _ _ _ (by rw [inner_fold_length]; omega), hW1, hW2,
          if_pos (by omega)]
      congr 2
      omega
    · rw [getD_set_ne _ _ _ (fun h => hx h.symm), ih (by omega) x]
      by_cases hcond : (j+1)*cs ≤ x ∧ x < (j+1)*cs + c
      · rw [if_pos hcond, if_pos (by omega)]
      · rw [if_neg hcond, if_neg (by omega)]

theorem filter_even_range (T : Nat) :
    (List.range (2*T)).filter (fun j => j % 2 = 0) = (List.range T).map (fun t => 2*t) := by
  induction T with
  | zero => rfl
  | succ T ih =>
    have h1 : 2 * (T + 1) = (2 * T + 1) + 1 := by omega
    rw [h1, List.range_succ, List.range_succ, List.filter_append, List.filter_append,
        ih, List.range_succ, List.map_append]
    have he : (List.filter (fun j => decide (j % 2 = 0)) [2*T]) = [2*T] := by
      simp [List.filter, Nat.mul_mod_right]
    have ho : (List.filter (fun j => decide (j % 2 = 0)) [2*T+1]) = [] := by
      have : (2*T+1) % 2 = 1 := by omega
      simp [List.filter, this]
    rw [he, ho, List.append_nil]
    simp

theorem outer_fold_length (cs : Nat) (js : List Nat) (V : List Nat) :
    (js.foldl (fun V j => (List.range cs).foldl
      (fun V k => V.set ((j+1)*cs + k) (V.getD ((j+1)*cs + k) 0 ^^^ V.getD (j*cs + k) 0)) V)
      V).length = V.length := by
  induction js generalizing V with
  | nil => rfl
  | cons j js ih =>
    rw [List.foldl_cons, ih, inner_fold_length]

theorem interStep_length (cs : Nat) (V : List Nat) : (interStep cs V).length = V.length := by
  rw [interStep]
  exact outer_fold_length _ _ _

theorem interStep_getD (i T : Nat) (V : List Nat) (hlen : V.length = 2*T*2^i) :
    ∀ x, (interStep (2^i) V).getD x 0
      = if (x / 2^i) % 2 = 1 ∧ x < V.length then V.getD x 0 ^^^ V.getD (x - 2^i) 0
        else V.getD x 0 := by
  have hcs : 0 < 2^i := Nat.pos_pow_of_pos _ (by norm_num)
  have hdivT : V.length / 2^i = 2*T := by
    rw [hlen, Nat.mul_div_cancel _ hcs]
  rw [interStep, hdivT, filter_even_range]
  have main : ∀ t, t ≤ T → ∀ x,
      (((List.range t).map (fun t => 2*t)).foldl
        (fun V j => (List.range (2^i)).foldl
          (fun V k => V.set ((j+1)*(2^i) + k) (V.getD ((j+1)*(2^i) + k) 0 ^^^ V.getD (j*(2^i) + k) 0)) V)
        V).getD x 0
      = if (x / 2^i) % 2 = 1 ∧ x < 2*t*2^i then V.getD x 0 ^^^ V.getD (x - 2^i) 0
        else V.getD x 0 := by
    intro t
    induction t with
    | zero =>
      intro _ x
      rw [if_neg (by omega)]
      rfl
    | succ t ih =>
      intro ht x
      rw [List.range_succ, List.map_append, List.map_cons, List.map_nil, List.foldl_append,
          List.foldl_cons, List.foldl_nil]
      set W := (((List.range t).map (fun t => 2*t)).foldl
        (fun V j => (List.range (2^i)).foldl
          (fun V k => V.set ((j+1)*(2^i) + k) (V.getD ((j+1)*(2^i) + k) 0 ^^^ V.getD (j*(2^i) + k) 0)) V)
        V) with hWdef
      have hWlen : W.length = V.length := by
        rw [hWdef]
        exact outer_fold_length _ _ _
      have he1 : (2*t+1)*(2^i) = 2*t*2^i + 2^i := by ring
      have he2 : (2*t+2)*(2^i) = 2*t*2^i + 2^i + 2^i := by ring
      have he3 : 2*(t+1)*2^i = 2*t*2^i + 2^i + 2^i := by ring
      have hTb : 2*(t+1)*2^i ≤ 2*T*2^i := Nat.mul_le_mul_right _ (by omega)
      have hb : (2*t+1)*(2^i) + 2^i ≤ W.length := by
        rw [hWlen, hlen]
        omega
      rw [inner_fold_getD (2^i) (2*t) W hb (2^i) le_rfl x]
      have hIH : ∀ y, W.getD y 0
          = if (y / 2^i) % 2 = 1 ∧ y < 2*t*2^i then V.getD y 0 ^^^ V.getD (y - 2^i) 0
            else V.getD y 0 := fun y => by rw [hWdef]; exact ih (by omega) y
      by_cases hwin : (2*t+1)*(2^i) ≤ x ∧ x < (2*t+1)*(2^i) + 2^i
      · rw [if_pos hwin]
        have hxdiv : x / 2^i = 2*t+1 := by
          apply Nat.div_eq_of_lt_le
          · exact hwin.1
          · have : (2*t+1+1)*(2^i) = (2*t+1)*(2^i) + 2^i := by ring
            omega
        have hW1 : W.getD x 0 = V.getD x 0 := by
          rw [hIH x, if_neg (by omega)]
        have hW2 : W.getD (x - 2^i) 0 = V.getD (x - 2^i) 0 := by
          rw [hIH (x - 2^i), if_neg ?_]
          intro hcl
          have hsubdiv : (x - 2^i) / 2^i = 2*t := by
            apply Nat.div_eq_of_lt_le
            · omega
            · have : (2*t+1)*(2^i) = 2*t*2^i + 2^i := by ring
              omega
          rw [hsubdiv] at hcl
          omega
        rw [hW1, hW2, if_pos ?_]
        constructor
        · rw [hxdiv]
          omega
        · omega
      · rw [if_neg hwin, hIH x]
        by_cases hcond : (x / 2^i) % 2 = 1 ∧ x < 2*t*2^i
        · rw [if_pos hcond, if_pos (by exact ⟨hcond.1, by omega⟩)]
        · rw [if_neg hcond, if_neg ?_]
          intro hcl
          apply hcond
          refine ⟨hcl.1, ?_⟩
          rcases Nat.lt_or_ge x (2*t*2^i) with h | h
          · exact h
          · exfalso
            apply hwin
            have hge : 2*t ≤ x / 2^i := by
              rw [Nat.le_div_iff_mul_le hcs]
              exact h
            have hlt2 : x / 2^i < 2*(t+1) := by
              rw [Nat.div_lt_iff_lt_mul hcs]
              calc x < 2*(t+1)*2^i := hcl.2
                _ = 2*(t+1) * 2^i := rfl
            have h3 : x / 2^i = 2*t ∨ x / 2^i = 2*t+1 := by omega
            rcases h3 with h3 | h3
            · exfalso
              rw [h3] at hcl
              omega
            · have hub := Nat.div_mul_le_self x (2^i)
              rw [h3] at hub
              have hdm := Nat.div_add_mod x (2^i)
              have hmlt : x % 2^i < 2^i := Nat.mod_lt _ hcs
              rw [h3] at hdm
              have hcomm : 2^i * (2*t+1) = (2*t+1)*(2^i) := by ring
              constructor
              · exact hub
              · omega
  intro x
  rw [main T le_rfl x, hlen]

/-! Bridging the inter-lane steps to `flipStep` on the global bit view. -/

theorem getD_map_intraLane (V : List Nat) (q : Nat) :
    (V.map intraLane).getD q 0 = intraLane (V.getD q 0) := by
  rcases Nat.lt_or_ge q V.length with hlt | hge
  · rw [List.getD_eq_getElem?_getD, List.getD_eq_getElem?_getD, List.getElem?_map,
        List.getElem?_eq_getElem hlt]
    rfl
  · rw [getD_eq_default _ _ (by simpa using hge), getD_eq_default _ _ hge, intraLane_zero]

theorem evalBit_oob {V : List Nat} {x : Nat} (h : 2 ^ 7 * V.length ≤ x) :
    evalBit V x = false := by
  have hge : V.length ≤ x / 2 ^ 7 := by
    rw [Nat.le_div_iff_mul_le (by norm_num : 0 < 2 ^ 7)]
    omega
  unfold evalBit
  rw [getD_eq_default _ _ hge]
  exact Nat.zero_testBit _

theorem evalBit_interStep (i T : Nat) (V : List Nat) (hlen : V.length = 2*T*2^i)
    (x : Nat) (hx : x < 2 ^ 7 * V.length) :
    evalBit (interStep (2^i) V) x = flipStep (7+i) (evalBit V) x := by
  have hr : x / 2 ^ 7 < V.length := by
    rw [Nat.div_lt_iff_lt_mul (by norm_num : 0 < 2 ^ 7)]
    omega
  have hm : x % 2 ^ 7 < 2 ^ 7 := Nat.mod_lt _ (by norm_num)
  have hdm : 2 ^ 7 * (x / 2 ^ 7) + x % 2 ^ 7 = x := Nat.div_add_mod x (2 ^ 7)
  have htb : x.testBit (7+i) = (x / 2 ^ 7).testBit i := by
    rw [← Nat.testBit_shiftRight, Nat.shiftRight_eq_div_pow]
  have hform := interStep_getD i T V hlen (x / 2 ^ 7)
  show ((interStep (2^i) V).getD (x / 2 ^ 7) 0).testBit (x % 2 ^ 7)
      = flipStep (7+i) (evalBit V) x
  rw [hform]
  cases hbit : (x / 2 ^ 7).testBit i with
  | false =>
    have hnd : ¬ (x / 2 ^ 7 / 2^i % 2 = 1) := by
      have h0 := Nat.testBit_to_div_mod (x := x / 2 ^ 7) (i := i)
      rw [hbit] at h0
      exact of_decide_eq_false h0.symm
    rw [if_neg (fun hcl => hnd hcl.1)]
    have hx7 : x.testBit (7+i) = false := by rw [htb, hbit]
    simp [flipStep, hx7, evalBit]
  | true =>
    have hd : x / 2 ^ 7 / 2^i % 2 = 1 := by
      have h0 := Nat.testBit_to_div_mod (x := x / 2 ^ 7) (i := i)
      rw [hbit] at h0
      exact of_decide_eq_true h0.symm
    rw [if_pos (And.intro hd hr)]
    have hx7 : x.testBit (7+i) = true := by rw [htb, hbit]
    have hge : 2^i ≤ x / 2 ^ 7 := two_pow_le_of_testBit hbit
    have hxor : x ^^^ 2 ^ (7+i) = x - 2 ^ (7+i) := xor_two_pow_of_testBit_true hx7
    have hpow : 2 ^ (7+i) = 2 ^ 7 * 2 ^ i := Nat.pow_add 2 7 i
    have hdiv2 : (x - 2 ^ (7+i)) / 2 ^ 7 = x / 2 ^ 7 - 2 ^ i := by omega
    have hmod2 : (x - 2 ^ (7+i)) % 2 ^ 7 = x % 2 ^ 7 := by omega
    simp only [flipStep, hx7, if_true]
    unfold evalBit
    rw [Nat.testBit_xor, hxor, hdiv2, hmod2]

theorem inter_fold_spec (n' : Nat) (V : List Nat) (hlen : V.length = 2 ^ n')
    (hV : ∀ q, V.getD q 0 < W2) :
    ∀ m, m ≤ n' →
      ((List.range m).foldl (fun V i => interStep (pow2 i) V) V).length = V.length ∧
      (∀ q, ((List.range m).foldl (fun V i => interStep (pow2 i) V) V).getD q 0 < W2) ∧
      (∀ x, x < 2 ^ 7 * V.length →
        evalBit ((List.range m).foldl (fun V i => interStep (pow2 i) V) V) x
          = ((List.range m).foldl (fun g i => flipStep (7+i) g) (evalBit V)) x) := by
  intro m
  induction m with
  | zero => exact fun _ => ⟨rfl, hV, fun x _ => rfl⟩
  | succ m ih =>
    intro hm
    obtain ⟨ihlen, ihlt, iheq⟩ := ih (by omega)
    rw [List.range_succ, List.foldl_append, List.foldl_append, List.foldl_cons,
        List.foldl_cons, List.foldl_nil, List.foldl_nil]
    set R := (List.range m).foldl (fun V i => interStep (pow2 i) V) V with hR
    have hT : R.length = 2 * 2 ^ (n' - m - 1) * 2 ^ m := by
      rw [ihlen, hlen]
      rw [show 2 * 2 ^ (n' - m - 1) * 2 ^ m = 2 ^ (1 + (n' - m - 1) + m) by
        rw [Nat.pow_add, Nat.pow_add, Nat.pow_one]]
      congr 1
      omega
    have hstep := fun x hx => evalBit_interStep m (2 ^ (n' - m - 1)) R hT x hx
    have hlen' : (interStep (pow2 m) R).length = V.length := by
      rw [pow2_eq, interStep_length, ihlen]
    refine ⟨hlen', ?_, ?_⟩
    · intro q
      rw [pow2_eq, interStep_getD m (2 ^ (n' - m - 1)) R hT q]
      split
      · exact Nat.xor_lt_two_pow (ihlt q) (ihlt _)
      · exact ihlt q
    · intro x hx
      rw [pow2_eq, hstep x (by rw [ihlen]; exact hx)]
      have hN : 2 ^ 7 * V.length = 2 ^ (7 + n') := by
        rw [hlen, Nat.pow_add]
      apply flipStep_congr_low (N := 7 + n') (by omega)
      · intro y hy
        exact iheq y (by rw [hN]; exact hy)
      · rw [← hN]
        exact hx

theorem flipFold_shift (m : Nat) (g : Nat → Bool) :
    (List.range m).foldl (fun g i => flipStep (7+i) g) (flipFold 7 g) = flipFold (7+m) g := by
  induction m with
  | zero => rfl
  | succ m ih =>
    rw [List.range_succ, List.foldl_append, List.foldl_cons, List.foldl_nil, ih]
    rfl

/-- The well-formedness (padding) invariant of a `BF`: at least one argument,
the exact lane capacity, `u128`-bounded lanes, and all bits at positions
`≥ 2^n` zero. -/
def Wf (f : BF) : Prop :=
  1 ≤ f.args_amount ∧
  f.values.length = div_ws_ceil (pow2 f.args_amount) ∧
  (∀ v ∈ f.values, v < W2) ∧
  (∀ x, x < 2 ^ 7 * f.values.length → pow2 f.args_amount ≤ x → evalBit f.values x = false)

instance (f : BF) : Decidable (Wf f) := by
  unfold Wf
  infer_instance

theorem Wf.lanesLt {f : BF} (h : Wf f) : ∀ q, f.values.getD q 0 < W2 := by
  intro q
  rcases Nat.lt_or_ge q f.values.length with hlt | hge
  · rw [List.getD_eq_getElem?_getD, List.getElem?_eq_getElem hlt]
    exact h.2.2.1 _ (List.getElem_mem hlt)
  · rw [getD_eq_default _ _ hge]
    exact Nat.pos_pow_of_pos _ (by norm_num)

theorem Wf.padding {f : BF} (h : Wf f) : ∀ x, pow2 f.args_amount ≤ x → evalBit f.values x = false := by
  intro x hx
  rcases Nat.lt_or_ge x (2 ^ 7 * f.values.length) with hlt | hge
  · exact h.2.2.2 x hlt hx
  · exact evalBit_oob hge

theorem lanesLt_getD {V : List Nat} (h : ∀ q, V.getD q 0 < W2) (v : Nat) (hv : v ∈ V) : v < W2 := by
  obtain ⟨q, hq, rfl⟩ := List.getElem_of_mem hv
  have := h q
  rw [List.getD_eq_getElem?_getD, List.getElem?_eq_getElem hq] at this
  exact this

/-! Unfolding lemmas for `BF.mobius` and the self-inverse theorem. -/

theorem mobius_args (f : BF) : (BF.mobius f).args_amount = f.args_amount := by
  simp only [BF.mobius]
  split
  · rfl
  · rfl

theorem mobius_values_lt (f : BF) (h : f.args_amount < 7) :
    (BF.mobius f).values = (f.values.map intraLane).set 0
      ((f.values.map intraLane).getD 0 0 &&& ((1 <<< mod_ws (pow2 f.args_amount)) - 1)) := by
  simp only [BF.mobius, log2_WBS]
  rw [if_pos h]

theorem mobius_values_ge (f : BF) (h : ¬ f.args_amount < 7) :
    (BF.mobius f).values = (List.range (f.args_amount - 7)).foldl
      (fun V i => interStep (pow2 i) V) (f.values.map intraLane) := by
  simp only [BF.mobius, log2_WBS]
  rw [if_neg h]

theorem BFext (a b : BF) (h1 : a.values = b.values) (h2 : a.args_amount = b.args_amount) :
    a = b := by
  cases a
  cases b
  simp_all

theorem list_eq_of_getD {A B : List Nat} (hlen : A.length = B.length)
    (h : ∀ q, q < A.length → A.getD q 0 = B.getD q 0) : A = B := by
  apply List.ext_getElem hlen
  intro i h1 h2
  have := h i h1
  rw [List.getD_eq_getElem?_getD, List.getD_eq_getElem?_getD, List.getElem?_eq_getElem h1,
      List.getElem?_eq_getElem h2] at this
  exact this

theorem intraLane_masked_testBit (n : Nat) (hn : n < 7) (v b : Nat) :
    ((intraLane v) &&& (2 ^ 2 ^ n - 1)).testBit b
      = (decide (b < 2 ^ n) && flipFold n (v.testBit) b) := by
  rw [Nat.testBit_and, Nat.testBit_two_pow_sub_one]
  by_cases hb : b < 2 ^ n
  · have h64 : (2 : Nat) ^ n ≤ 2 ^ 6 := Nat.pow_le_pow_right (by norm_num) (by omega)
    have hb128 : b < 128 := by
      have : (2:Nat) ^ 6 = 64 := by norm_num
      omega
    rw [intraLane_testBit v hb128, flipFold_eq_of_lt _ hb (by omega : n ≤ 7)]
    simp [hb]
  · simp [hb]

theorem maskedIntra_invol (n : Nat) (hn : n < 7) (v : Nat) (hv : v < 2 ^ 2 ^ n) :
    intraLane (intraLane v &&& (2 ^ 2 ^ n - 1)) &&& (2 ^ 2 ^ n - 1) = v := by
  apply Nat.eq_of_testBit_eq
  intro b
  rw [intraLane_masked_testBit n hn _ b]
  by_cases hb : b < 2 ^ n
  · have hv'bits : ∀ y, y < 2 ^ n →
        (intraLane v &&& (2 ^ 2 ^ n - 1)).testBit y = flipFold n (v.testBit) y := by
      intro y hy
      rw [intraLane_masked_testBit n hn v y]
      simp [hy]
    rw [flipFold_congr_low le_rfl hv'bits b hb, flipFold_invol]
    simp [hb]
  · have hvb : v.testBit b = false :=
      Nat.testBit_lt_two_pow (lt_of_lt_of_le hv (Nat.pow_le_pow_right (by norm_num) (by omega)))
    simp [hb, hvb]

theorem mobius_mobius_lt (f : BF) (hwf : Wf f) (h7 : f.args_amount < 7) :
    (BF.mobius (BF.mobius f)) = f := by
  obtain ⟨hn, hlen, hltW, hpad⟩ := hwf
  have hlen1 : f.values.length = 1 := by rw [hlen, div_ws_ceil_pow2_of_lt _ h7]
  obtain ⟨v, hfv⟩ : ∃ v, f.values = [v] := by
    match hval : f.values with
    | [] => rw [hval] at hlen1; exact absurd hlen1 (by norm_num)
    | [v] => exact ⟨v, rfl⟩
    | v :: w :: rest => rw [hval] at hlen1; exact absurd hlen1 (by simp)
  have h2n : (2:Nat) ^ f.args_amount ≤ 2 ^ 6 := Nat.pow_le_pow_right (by norm_num) (by omega)
  have h64 : (2:Nat) ^ 6 = 64 := by norm_num
  have hvlt : v < 2 ^ 2 ^ f.args_amount := by
    apply Nat.lt_pow_two_of_testBit
    intro b hb
    rcases Nat.lt_or_ge b 128 with hb128 | hb128
    · have := hpad b (by rw [hlen1]; omega) (by rw [pow2_eq]; omega)
      unfold evalBit at this
      rw [hfv] at this
      have hd : b / 2 ^ 7 = 0 := Nat.div_eq_of_lt (by omega)
      have hm : b % 2 ^ 7 = b := Nat.mod_eq_of_lt (by omega)
      rw [hd, hm] at this
      exact this
    · apply Nat.testBit_lt_two_pow
      have hvW : v < W2 := hltW v (by rw [hfv]; exact List.mem_singleton_self v)
      calc v < W2 := hvW
        _ = 2 ^ 128 := rfl
        _ ≤ 2 ^ b := Nat.pow_le_pow_right (by norm_num) hb128
  have hmaskeq : (1 <<< mod_ws (pow2 f.args_amount)) - 1 = 2 ^ 2 ^ f.args_amount - 1 := by
    rw [mod_ws_pow2_of_lt _ h7, Nat.shiftLeft_eq, Nat.one_mul]
  have hstep1 : (BF.mobius f).values = [intraLane v &&& (2 ^ 2 ^ f.args_amount - 1)] := by
    rw [mobius_values_lt f h7, hfv, hmaskeq]
    rfl
  have hargs1 : (BF.mobius f).args_amount = f.args_amount := mobius_args f
  have hstep2 : (BF.mobius (BF.mobius f)).values
      = [intraLane (intraLane v &&& (2 ^ 2 ^ f.args_amount - 1)) &&& (2 ^ 2 ^ f.args_amount - 1)] := by
    rw [mobius_values_lt _ (by rw [hargs1]; exact h7), hstep1, hargs1, hmaskeq]
    rfl
  apply BFext
  · rw [hstep2, maskedIntra_invol _ h7 v hvlt, hfv]
  · rw [mobius_args, mobius_args]

theorem mobius_spec_ge (f : BF) (h7 : 7 ≤ f.args_amount)
    (hlen : f.values.length = 2 ^ (f.args_amount - 7))
    (hV : ∀ q, f.values.getD q 0 < W2) :
    (BF.mobius f).values.length = f.values.length ∧
    (∀ q, (BF.mobius f).values.getD q 0 < W2) ∧
    (∀ x, x < 2 ^ f.args_amount →
      evalBit (BF.mobius f).values x = flipFold f.args_amount (evalBit f.values) x) := by
  have hvals := mobius_values_ge f (by omega)
  have hmaplt : ∀ q, (f.values.map intraLane).getD q 0 < W2 := by
    intro q
    rw [getD_map_intraLane]
    exact intraLane_lt (hV q)
  have hmlen2 : (f.values.map intraLane).length = 2 ^ (f.args_amount - 7) := by
    rw [List.length_map, hlen]
  obtain ⟨hslen, hslt, hseq⟩ :=
    inter_fold_spec (f.args_amount - 7) (f.values.map intraLane) hmlen2 hmaplt
      (f.args_amount - 7) le_rfl
  have h27 : 2 ^ 7 * (f.values.map intraLane).length = 2 ^ f.args_amount := by
    rw [hmlen2, ← Nat.pow_add]
    congr 1
    omega
  refine ⟨?_, ?_, ?_⟩
  · rw [hvals, hslen, List.length_map]
  · intro q
    rw [hvals]
    exact hslt q
  · intro x hx
    rw [hvals, hseq x (by rw [h27]; exact hx)]
    have hfun : evalBit (f.values.map intraLane) = flipFold 7 (evalBit f.values) :=
      funext (evalBit_intra_phase f.values)
    rw [hfun, flipFold_shift]
    congr 1
    omega

theorem mobius_mobius_ge (f : BF) (hwf : Wf f) (h7 : 7 ≤ f.args_amount) :
    (BF.mobius (BF.mobius f)) = f := by
  have hlen : f.values.length = 2 ^ (f.args_amount - 7) := by
    rw [hwf.2.1, div_ws_ceil_pow2_of_ge _ h7]
  obtain ⟨h1len, h1lt, h1eq⟩ := mobius_spec_ge f h7 hlen hwf.lanesLt
  have hargs1 : (BF.mobius f).args_amount = f.args_amount := mobius_args f
  have hlen2 : (BF.mobius f).values.length = 2 ^ ((BF.mobius f).args_amount - 7) := by
    rw [h1len, hargs1, hlen]
  obtain ⟨h2len, h2lt, h2eq⟩ := mobius_spec_ge (BF.mobius f) (by omega) hlen2 h1lt
  have h27 : 2 ^ 7 * f.values.length = 2 ^ f.args_amount := by
    rw [hlen, ← Nat.pow_add]
    congr 1
    omega
  apply BFext
  · apply list_eq_of_getD
    · rw [h2len, h1len]
    · intro q hq
      rw [h2len, h1len] at hq
      apply Nat.eq_of_testBit_eq
      intro b
      rcases Nat.lt_or_ge b 128 with hb | hb
      · have hx : 2 ^ 7 * q + b < 2 ^ f.args_amount := by
          rw [← h27]
          have : q + 1 ≤ f.values.length := hq
          have h128 : (2:Nat) ^ 7 = 128 := by norm_num
          calc 2 ^ 7 * q + b < 2 ^ 7 * q + 2 ^ 7 := by omega
            _ = 2 ^ 7 * (q + 1) := by ring
            _ ≤ 2 ^ 7 * f.values.length := Nat.mul_le_mul_left _ hq
        have hdq : (2 ^ 7 * q + b) / 2 ^ 7 = q := by omega
        have hmb : (2 ^ 7 * q + b) % 2 ^ 7 = b := by omega
        have e2 := h2eq (2 ^ 7 * q + b) (by rw [hargs1]; exact hx)
        rw [hargs1] at e2
        have e1low : ∀ y, y < 2 ^ f.args_amount →
            evalBit (BF.mobius f).values y = flipFold f.args_amount (evalBit f.values) y :=
          h1eq
        have hcongr := flipFold_congr_low (N := f.args_amount) le_rfl e1low
          (2 ^ 7 * q + b) hx
        rw [hcongr, flipFold_invol] at e2
        unfold evalBit at e2
        rw [hdq, hmb] at e2
        exact e2
      · have hA : ((BF.mobius (BF.mobius f)).values.getD q 0) < 2 ^ 128 := h2lt q
        have hB : (f.values.getD q 0) < 2 ^ 128 := hwf.lanesLt q
        rw [Nat.testBit_lt_two_pow, Nat.testBit_lt_two_pow]
        · exact lt_of_lt_of_le hB (Nat.pow_le_pow_right (by norm_num) hb)
        · exact lt_of_lt_of_le hA (Nat.pow_le_pow_right (by norm_num) hb)
  · rw [mobius_args, mobius_args]

/-- C1: the Möbius transform is self-inverse: for every well-formed `BF`
(thus `args_amount ≥ 1` and the padding invariant), applying `mobius` twice
restores the function exactly, values vector and `args_amount` alike. -/
theorem C1_mobius_self_inverse (f : BF) (hwf : Wf f) :
    (BF.mobius (BF.mobius f)) = f := by
  rcases Nat.lt_or_ge f.args_amount 7 with h7 | h7
  · exact mobius_mobius_lt f hwf h7
  · exact mobius_mobius_ge f hwf h7

/-- Witness for C1 at the concrete function parsed from `0110` (lane `6`,
two arguments). -/
theorem C1_witness :
    Wf { values := [6], args_amount := 2 } ∧
      BF.mobius (BF.mobius { values := [6], args_amount := 2 })
        = { values := [6], args_amount := 2 } :=
  ⟨by decide, C1_mobius_self_inverse { values := [6], args_amount := 2 } (by decide)⟩

/-! Well-formedness of the constructors, and the weights of `one` and `zero`. -/

theorem two_pow_sub_one_mod (k m : Nat) (h : k ≤ m) : (2 ^ m - 1) % 2 ^ k = 2 ^ k - 1 := by
  have he : 2 ^ m = 2 ^ k * 2 ^ (m - k) := by
    rw [← Nat.pow_add]
    congr 1
    omega
  have h1 : 1 ≤ 2 ^ (m - k) := Nat.one_le_two_pow
  have h2 : 1 ≤ 2 ^ k := Nat.one_le_two_pow
  have hd : 2 ^ k * (2 ^ (m - k) - 1) + 2 ^ k = 2 ^ k * 2 ^ (m - k) := by
    rw [← Nat.mul_succ]
    congr 1
    omega
  have hsplit : 2 ^ m - 1 = 2 ^ k * (2 ^ (m - k) - 1) + (2 ^ k - 1) := by omega
  rw [hsplit, Nat.mul_add_mod, Nat.mod_eq_of_lt (by omega)]

theorem getD_replicate {c a q : Nat} : (List.replicate c a).getD q 0 = if q < c then a else 0 := by
  rcases Nat.lt_or_ge q c with hq | hq
  · rw [List.getD_eq_getElem?_getD, List.getElem?_replicate, if_pos hq, if_pos hq]
    rfl
  · rw [getD_eq_default _ _ (by simpa using hq), if_neg (by omega)]

theorem foldl_weight_eq_sum (l : List Nat) :
    l.foldl (fun acc factor => acc + BoolFunc.weight factor) 0 = (l.map BoolFunc.weight).sum := by
  have main : ∀ l : List Nat, ∀ a : Nat,
      l.foldl (fun acc factor => acc + BoolFunc.weight factor) a = a + (l.map BoolFunc.weight).sum := by
    intro l
    induction l with
    | nil => intro a; simp
    | cons x xs ih =>
      intro a
      rw [List.foldl_cons, ih, List.map_cons, List.sum_cons]
      omega
  have := main l 0
  omega

theorem Wf_mk {V : List Nat} {n : Nat} (h1 : 1 ≤ n) (h2 : V.length = div_ws_ceil (pow2 n))
    (h3 : ∀ v ∈ V, v < W2)
    (h4 : ∀ x, x < 2 ^ 7 * V.length → pow2 n ≤ x → evalBit V x = false) :
    Wf { values := V, args_amount := n } := ⟨h1, h2, h3, h4⟩

theorem zero_ok (n : Nat) (h : 1 ≤ n) :
    BF.zero n = .ok { values := List.replicate (div_ws_ceil (pow2 n)) 0, args_amount := n } := by
  unfold BF.zero
  rw [if_neg (by omega)]

theorem zero_Wf (n : Nat) (h : 1 ≤ n) (f : BF) (hok : BF.zero n = .ok f) : Wf f := by
  rw [zero_ok n h] at hok
  cases hok
  apply Wf_mk h (by simp)
  · intro v hv
    rw [List.eq_of_mem_replicate hv]
    exact Nat.pos_pow_of_pos _ (by norm_num)
  · intro x _ _
    unfold evalBit
    rw [getD_replicate]
    split
    · exact Nat.zero_testBit _
    · exact Nat.zero_testBit _

theorem zero_weight (n : Nat) (f : BF) (hok : BF.zero n = .ok f) : f.weight = 0 := by
  unfold BF.zero at hok
  split at hok
  · exact absurd hok (by simp)
  · cases hok
    show (List.replicate (div_ws_ceil (pow2 n)) 0).foldl
      (fun acc factor => acc + BoolFunc.weight factor) 0 = 0
    rw [foldl_weight_eq_sum, List.map_replicate]
    show (List.replicate (div_ws_ceil (pow2 n)) (BoolFunc.weight 0)).sum = 0
    rw [weight_zero]
    simp

theorem and_ones_eq (n : Nat) (h7 : n < 7) :
    (W2 - 1) &&& (1 <<< 2 ^ n - 1) = 2 ^ 2 ^ n - 1 := by
  rw [Nat.shiftLeft_eq, Nat.one_mul, Nat.and_pow_two_sub_one_eq_mod]
  show (2 ^ 128 - 1) % 2 ^ 2 ^ n = 2 ^ 2 ^ n - 1
  apply two_pow_sub_one_mod
  calc 2 ^ n ≤ 2 ^ 6 := Nat.pow_le_pow_right (by norm_num) (by omega)
    _ ≤ 128 := by norm_num

theorem one_ok_lt (n : Nat) (h1 : 1 ≤ n) (h7 : n < 7) :
    BF.one n = .ok { values := [2 ^ 2 ^ n - 1], args_amount := n } := by
  simp only [BF.one]
  rw [if_neg (by omega), div_ws_ceil_pow2_of_lt _ h7, mod_ws_pow2_of_lt _ h7,
      if_pos (Nat.pos_iff_ne_zero.mp (Nat.pos_pow_of_pos _ (by norm_num)))]
  show (Except.ok { values := [(W2 - 1) &&& (1 <<< 2 ^ n - 1)], args_amount := n }
    : Except BFError BF) = _
  rw [and_ones_eq n h7]

theorem one_ok_ge (n : Nat) (h7 : 7 ≤ n) :
    BF.one n = .ok { values := List.replicate (2 ^ (n - 7)) (W2 - 1), args_amount := n } := by
  simp only [BF.one]
  rw [if_neg (by omega), div_ws_ceil_pow2_of_ge _ h7, mod_ws_pow2_of_ge _ h7,
      if_neg (by omega)]

theorem pow_sub_seven (n : Nat) (h7 : 7 ≤ n) : 2 ^ 7 * 2 ^ (n - 7) = 2 ^ n := by
  rw [← Nat.pow_add]
  congr 1
  omega

theorem one_Wf (n : Nat) (h : 1 ≤ n) (f : BF) (hok : BF.one n = .ok f) : Wf f := by
  rcases Nat.lt_or_ge n 7 with h7 | h7
  · rw [one_ok_lt n h h7] at hok
    cases hok
    apply Wf_mk h
    · rw [div_ws_ceil_pow2_of_lt _ h7]
      rfl
    · intro v hv
      rw [List.mem_singleton.mp hv]
      have hle : (2:Nat) ^ 2 ^ n ≤ 2 ^ 128 :=
        Nat.pow_le_pow_right (by norm_num)
          (le_trans (Nat.pow_le_pow_right (by norm_num) (by omega : n ≤ 6)) (by norm_num))
      have h0 : 1 ≤ (2:Nat) ^ 2 ^ n := Nat.one_le_two_pow
      show 2 ^ 2 ^ n - 1 < W2
      have hW : W2 = 2 ^ 128 := rfl
      omega
    · intro x hxlen hxn
      unfold evalBit
      rw [pow2_eq] at hxn
      simp only [List.length_singleton] at hxlen
      have hx128 : x < 128 := by omega
      have hd : x / 2 ^ 7 = 0 := Nat.div_eq_of_lt (by omega)
      have hm : x % 2 ^ 7 = x := Nat.mod_eq_of_lt (by omega)
      rw [hd, hm]
      show ((2:Nat) ^ 2 ^ n - 1).testBit x = false
      rw [Nat.testBit_two_pow_sub_one]
      simp only [decide_eq_false_iff_not]
      omega
  · rw [one_ok_ge n h7] at hok
    cases hok
    apply Wf_mk h
    · rw [div_ws_ceil_pow2_of_ge _ h7]
      simp
    · intro v hv
      rw [List.eq_of_mem_replicate hv]
      have h0 : 1 ≤ W2 := Nat.one_le_two_pow
      omega
    · intro x hxlen hxn
      exfalso
      simp only [List.length_replicate] at hxlen
      rw [pow2_eq] at hxn
      have := pow_sub_seven n h7
      omega

theorem one_weight (n : Nat) (h : 1 ≤ n) (f : BF) (hok : BF.one n = .ok f) :
    f.weight = 2 ^ n := by
  rcases Nat.lt_or_ge n 7 with h7 | h7
  · rw [one_ok_lt n h h7] at hok
    cases hok
    show ([2 ^ 2 ^ n - 1] : List Nat).foldl (fun acc factor => acc + BoolFunc.weight factor) 0 = 2 ^ n
    rw [foldl_weight_eq_sum]
    simp only [List.map_cons, List.map_nil, List.sum_cons, List.sum_nil]
    rw [weight_two_pow_sub_one]
    omega
  · rw [one_ok_ge n h7] at hok
    cases hok
    show (List.replicate (2 ^ (n - 7)) (W2 - 1)).foldl
      (fun acc factor => acc + BoolFunc.weight factor) 0 = 2 ^ n
    rw [foldl_weight_eq_sum, List.map_replicate]
    have hw : BoolFunc.weight (W2 - 1) = 128 := by
      show BoolFunc.weight (2 ^ 128 - 1) = 128
      rw [weight_two_pow_sub_one]
    rw [hw, List.sum_replicate, smul_eq_mul]
    rw [show (128:Nat) = 2 ^ 7 from rfl, Nat.mul_comm]
    exact pow_sub_seven n h7

theorem random_Wf (rng : List Nat) (n : Nat) (h : 1 ≤ n) (hrng : ∀ v ∈ rng, v < W2)
    (hrlen : div_ws_ceil (pow2 n) ≤ rng.length)
    (f : BF) (hok : BF.random rng n = .ok f) : Wf f := by
  simp only [BF.random] at hok
  rw [if_neg (by omega)] at hok
  have htlen : (rng.take (div_ws_ceil (pow2 n))).length = div_ws_ceil (pow2 n) := by
    rw [List.length_take]
    omega
  rcases Nat.lt_or_ge n 7 with h7 | h7
  · rw [mod_ws_pow2_of_lt _ h7,
        if_pos (Nat.pos_iff_ne_zero.mp (Nat.pos_pow_of_pos _ (by norm_num)))] at hok
    have hcap1 : div_ws_ceil (pow2 n) = 1 := div_ws_ceil_pow2_of_lt _ h7
    rw [hcap1] at htlen hok
    obtain ⟨a, ha⟩ : ∃ a, rng.take 1 = [a] := by
      match hval : rng.take 1 with
      | [] => rw [hval] at htlen; exact absurd htlen (by simp)
      | [a] => exact ⟨a, rfl⟩
      | a :: b :: rest => rw [hval] at htlen; exact absurd htlen (by simp)
    rw [ha] at hok
    cases hok
    have hlane : a &&& (1 <<< 2 ^ n - 1) < 2 ^ 2 ^ n := by
      rw [Nat.shiftLeft_eq, Nat.one_mul, Nat.and_pow_two_sub_one_eq_mod]
      exact Nat.mod_lt _ (Nat.pos_pow_of_pos _ (by norm_num))
    have h2nle : (2:Nat) ^ 2 ^ n ≤ 2 ^ 128 :=
      Nat.pow_le_pow_right (by norm_num)
        (le_trans (Nat.pow_le_pow_right (by norm_num) (by omega : n ≤ 6)) (by norm_num))
    apply Wf_mk h
    · rw [hcap1]
      rfl
    · intro v hv
      have hv' := List.mem_singleton.mp hv
      subst hv'
      show a &&& (1 <<< 2 ^ n - 1) < W2
      exact lt_of_lt_of_le hlane h2nle
    · intro x hxlen hxn
      unfold evalBit
      rw [pow2_eq] at hxn
      simp only [List.length_set, List.length_singleton] at hxlen
      have hx128 : x < 128 := by omega
      have hd : x / 2 ^ 7 = 0 := Nat.div_eq_of_lt (by omega)
      have hm : x % 2 ^ 7 = x := Nat.mod_eq_of_lt (by omega)
      rw [hd, hm]
      show (a &&& (1 <<< 2 ^ n - 1)).testBit x = false
      apply Nat.testBit_lt_two_pow
      calc a &&& (1 <<< 2 ^ n - 1) < 2 ^ 2 ^ n := hlane
        _ ≤ 2 ^ x := Nat.pow_le_pow_right (by norm_num) (by omega)
  · rw [mod_ws_pow2_of_ge _ h7, if_neg (by omega)] at hok
    cases hok
    apply Wf_mk h htlen
    · intro v hv
      exact hrng v (List.mem_of_mem_take hv)
    · intro x hxlen hxn
      exfalso
      rw [htlen, div_ws_ceil_pow2_of_ge _ h7] at hxlen
      rw [pow2_eq] at hxn
      have := pow_sub_seven n h7
      omega

/-! Preservation of the padding invariant by `set`, `unset`, `from_str`, `mobius`. -/

theorem set_Wf (f : BF) (x : Nat) (f' : BF) (hwf : Wf f) (hok : BF.set f x = .ok f') :
    Wf f' := by
  have hn := hwf.1
  have hlen := hwf.2.1
  have hltW := hwf.2.2.1
  unfold BF.set at hok
  split at hok
  · exact absurd hok (by simp)
  · rename_i hxlt
    cases hok
    have hxn : x < pow2 f.args_amount := by omega
    apply Wf_mk hn
    · rw [List.length_set]
      exact hlen
    · intro v hv
      rcases List.mem_or_eq_of_mem_set hv with hmem | heq
      · exact hltW v hmem
      · subst heq
        apply Nat.or_lt_two_pow (hwf.lanesLt _)
        rw [Nat.shiftLeft_eq, Nat.one_mul]
        apply Nat.pow_lt_pow_right (by norm_num)
        rw [mod_ws_eq]
        exact Nat.mod_lt _ (by norm_num)
    · intro y hylen hyn
      unfold evalBit
      rw [List.length_set] at hylen
      by_cases hfac : div_ws x = y / 2 ^ 7
      · rcases Nat.lt_or_ge (div_ws x) f.values.length with hinb | hoob
        · rw [← hfac, getD_set_self _ _ _ _ hinb, Nat.testBit_or]
          have hold : (f.values.getD (div_ws x) 0).testBit (y % 2 ^ 7) = false := by
            have := hwf.padding y hyn
            unfold evalBit at this
            rw [← hfac] at this
            exact this
          rw [hold]
          simp only [Bool.false_or]
          rw [Nat.shiftLeft_eq, Nat.one_mul, Nat.testBit_two_pow]
          simp only [decide_eq_false_iff_not]
          intro heq
          rw [mod_ws_eq] at heq
          have hdiv : x / 2 ^ 7 = y / 2 ^ 7 := by rw [← div_ws_eq, hfac]
          have hx : x = y := by omega
      
          rw [pow2_eq] at hxn hyn
          omega
        · rw [List.set_eq_of_length_le (by omega)]
          have := hwf.padding y hyn
          unfold evalBit at this
          exact this
      · rw [getD_set_ne _ _ _ hfac]
        have := hwf.padding y hyn
        unfold evalBit at this
        exact this

theorem unset_Wf (f : BF) (x : Nat) (f' : BF) (hwf : Wf f) (hok : BF.unset f x = .ok f') :
    Wf f' := by
  have hn := hwf.1
  have hlen := hwf.2.1
  have hltW := hwf.2.2.1
  unfold BF.unset at hok
  split at hok
  · exact absurd hok (by simp)
  · cases hok
    apply Wf_mk hn
    · rw [List.length_set]
      exact hlen
    · intro v hv
      rcases List.mem_or_eq_of_mem_set hv with hmem | heq
      · exact hltW v hmem
      · subst heq
        exact lt_of_le_of_lt Nat.and_le_left (hwf.lanesLt _)
    · intro y hylen hyn
      unfold evalBit
      rw [List.length_set] at hylen
      by_cases hfac : div_ws x = y / 2 ^ 7
      · rcases Nat.lt_or_ge (div_ws x) f.values.length with hinb | hoob
        · rw [← hfac, getD_set_self _ _ _ _ hinb, Nat.testBit_and]
          have hold : (f.values.getD (div_ws x) 0).testBit (y % 2 ^ 7) = false := by
            have := hwf.padding y hyn
            unfold evalBit at this
            rw [← hfac] at this
            exact this
          rw [hold]
          rfl
        · rw [List.set_eq_of_length_le (by omega)]
          have := hwf.padding y hyn
          unfold evalBit at this
          exact this
      · rw [getD_set_ne _ _ _ hfac]
        have := hwf.padding y hyn
        unfold evalBit at this
        exact this

theorem parseAux_Wf (s : List Char) :
    ∀ (rest : List Char) (f : BF) (i : Nat) (f' : BF), Wf f →
      BF.parseAux s f i rest = .ok f' → Wf f' := by
  intro rest
  induction rest with
  | nil =>
    intro f i f' hwf hok
    cases hok
    exact hwf
  | cons c cs ih =>
    intro f i f' hwf hok
    unfold BF.parseAux at hok
    by_cases h0 : c = '0'
    · rw [if_pos h0] at hok
      exact ih f (i+1) f' hwf hok
    · rw [if_neg h0] at hok
      by_cases h1 : c = '1'
      · rw [if_pos h1] at hok
        cases hset : BF.set f i with
        | error e => rw [hset] at hok; exact absurd hok (by simp)
        | ok f2 =>
          rw [hset] at hok
          exact ih f2 (i+1) f' (set_Wf f i f2 hwf hset) hok
      · rw [if_neg h1] at hok
        exact absurd hok (by simp)

theorem log2_pos {n : Nat} (h : 2 ≤ n) : 1 ≤ log2 n := by
  match n, h with
  | k+2, _ =>
    show 1 ≤ log2Aux (k+2) (k+2)
    rw [log2Aux]
    rw [if_neg (by omega)]
    omega

theorem from_str_Wf (s : List Char) (f : BF) (hok : BF.from_str s = .ok f) : Wf f := by
  simp only [BF.from_str] at hok
  split at hok
  · exact absurd hok (by simp)
  · rename_i hcond
    push_neg at hcond
    have hlen2 : 2 ≤ s.length := by
      rcases Nat.lt_or_ge s.length 2 with hl | hl
      · interval_cases h : s.length
        · have : is_pow2 0 = false := rfl
          rw [this] at hcond
          exact absurd hcond.2 (by simp)
        · exact absurd rfl hcond.1
      · exact hl
    have hzero := zero_ok (log2 s.length) (log2_pos hlen2)
    rw [hzero] at hok
    exact parseAux_Wf s s _ 0 f
      (zero_Wf (log2 s.length) (log2_pos hlen2) _ hzero) hok

theorem mobius_Wf (f : BF) (hwf : Wf f) : Wf (BF.mobius f) := by
  have hn := hwf.1
  rcases Nat.lt_or_ge f.args_amount 7 with h7 | h7
  · have hlen1 : f.values.length = 1 := by
      rw [hwf.2.1, div_ws_ceil_pow2_of_lt _ h7]
    obtain ⟨v, hfv⟩ : ∃ v, f.values = [v] := by
      match hval : f.values with
      | [] => rw [hval] at hlen1; exact absurd hlen1 (by simp)
      | [v] => exact ⟨v, rfl⟩
      | v :: w :: rest => rw [hval] at hlen1; exact absurd hlen1 (by simp)
    have hmaskeq : (1 <<< mod_ws (pow2 f.args_amount)) - 1 = 2 ^ 2 ^ f.args_amount - 1 := by
      rw [mod_ws_pow2_of_lt _ h7, Nat.shiftLeft_eq, Nat.one_mul]
    have hvals : (BF.mobius f).values = [intraLane v &&& (2 ^ 2 ^ f.args_amount - 1)] := by
      rw [mobius_values_lt f h7, hfv, hmaskeq]
      rfl
    have hlane : intraLane v &&& (2 ^ 2 ^ f.args_amount - 1) < 2 ^ 2 ^ f.args_amount := by
      rw [Nat.and_pow_two_sub_one_eq_mod]
      exact Nat.mod_lt _ (Nat.pos_pow_of_pos _ (by norm_num))
    have h2nle : (2:Nat) ^ 2 ^ f.args_amount ≤ 2 ^ 128 :=
      Nat.pow_le_pow_right (by norm_num)
        (le_trans (Nat.pow_le_pow_right (by norm_num) (by omega : f.args_amount ≤ 6))
          (by norm_num))
    refine ⟨?_, ?_, ?_, ?_⟩
    · rw [mobius_args]
      exact hn
    · rw [hvals, mobius_args, div_ws_ceil_pow2_of_lt _ h7]
      rfl
    · intro w hw
      rw [hvals] at hw
      rw [List.mem_singleton.mp hw]
      exact lt_of_lt_of_le hlane h2nle
    · intro x hxlen hxn
      rw [mobius_args, pow2_eq] at hxn
      rw [hvals] at hxlen
      simp only [List.length_singleton] at hxlen
      unfold evalBit
      rw [hvals]
      have hx128 : x < 128 := by omega
      have hd : x / 2 ^ 7 = 0 := Nat.div_eq_of_lt (by omega)
      have hm : x % 2 ^ 7 = x := Nat.mod_eq_of_lt (by omega)
      rw [hd, hm]
      show (intraLane v &&& (2 ^ 2 ^ f.args_amount - 1)).testBit x = false
      apply Nat.testBit_lt_two_pow
      exact lt_of_lt_of_le hlane (Nat.pow_le_pow_right (by norm_num) (by omega))
  · have hlen' : f.values.length = 2 ^ (f.args_amount - 7) := by
      rw [hwf.2.1, div_ws_ceil_pow2_of_ge _ h7]
    obtain ⟨hslen, hslt, _⟩ := mobius_spec_ge f h7 hlen' hwf.lanesLt
    refine ⟨?_, ?_, ?_, ?_⟩
    · rw [mobius_args]
      exact hn
    · rw [hslen, mobius_args]
      exact hwf.2.1
    · exact lanesLt_getD hslt
    · intro x hxlen hxn
      exfalso
      rw [hslen, hlen'] at hxlen
      rw [mobius_args, pow2_eq] at hxn
      have := pow_sub_seven f.args_amount h7
      omega

/-- C9: the padding invariant: every `BF` produced by `zero`, `one`, `random`
(RNG stream modelled as an argument) or `from_str` is well-formed — in
particular all bits at positions `≥ 2^n` in its lane vector are zero — and
the mutating operations `set`, `unset` and `mobius` preserve well-formedness;
consequently `one(n)` has weight `2^n` and `zero(n)` has weight `0`. -/
theorem C9_padding_invariant :
    (∀ n f, 1 ≤ n → BF.zero n = .ok f → Wf f) ∧
    (∀ n f, 1 ≤ n → BF.one n = .ok f → Wf f) ∧
    (∀ rng n f, 1 ≤ n → (∀ v ∈ rng, v < W2) → div_ws_ceil (pow2 n) ≤ rng.length →
      BF.random rng n = .ok f → Wf f) ∧
    (∀ s f, BF.from_str s = .ok f → Wf f) ∧
    (∀ f x f', Wf f → BF.set f x = .ok f' → Wf f') ∧
    (∀ f x f', Wf f → BF.unset f x = .ok f' → Wf f') ∧
    (∀ f, Wf f → Wf (BF.mobius f)) ∧
    (∀ n f, 1 ≤ n → BF.one n = .ok f → BF.weight f = 2 ^ n) ∧
    (∀ n f, BF.zero n = .ok f → BF.weight f = 0) :=
  ⟨fun n f h hok => zero_Wf n h f hok,
   fun n f h hok => one_Wf n h f hok,
   fun rng n f h h1 h2 hok => random_Wf rng n h h1 h2 f hok,
   fun s f hok => from_str_Wf s f hok,
   fun f x f' hwf hok => set_Wf f x f' hwf hok,
   fun f x f' hwf hok => unset_Wf f x f' hwf hok,
   fun f hwf => mobius_Wf f hwf,
   fun n f h hok => one_weight n h f hok,
   fun n f hok => zero_weight n f hok⟩

/-- Witness for C9: the zero function on one argument is well-formed. -/
theorem C9_witness : Wf { values := [0], args_amount := 1 } :=
  C9_padding_invariant.1 1 { values := [0], args_amount := 1 } (by norm_num) (by decide)

/-! Characterization of the Walsh-Hadamard butterfly step `whStep`. -/

theorem wh_inner_even_length (cs j : Nat) (v : List Int) (c : Nat) :
    ((List.range c).foldl
      (fun v k => v.set (j*cs + k) (v.getD (j*cs + k) 0 + v.getD ((j+1)*cs + k) 0)) v).length
      = v.length := by
  induction c with
  | zero => rfl
  | succ c ih =>
    rw [List.range_succ, List.foldl_append, List.foldl_cons, List.foldl_nil,
        List.length_set, ih]

theorem wh_inner_odd_length (cs j : Nat) (v : List Int) (c : Nat) :
    ((List.range c).foldl
      (fun v k => v.set (j*cs + k) (v.getD ((j-1)*cs + k) 0 - 2 * v.getD (j*cs + k) 0)) v).length
      = v.length := by
  induction c with
  | zero => rfl
  | succ c ih =>
    rw [List.range_succ, List.foldl_append, List.foldl_cons, List.foldl_nil,
        List.length_set, ih]

theorem wh_inner_even (cs j : Nat) (v : List Int) (hbound : j*cs + cs ≤ v.length) :
    ∀ c, c ≤ cs → ∀ x,
      ((List.range c).foldl
        (fun v k => v.set (j*cs + k) (v.getD (j*cs + k) 0 + v.getD ((j+1)*cs + k) 0)) v).getD x 0
      = if j*cs ≤ x ∧ x < j*cs + c then v.getD x 0 + v.getD (x + cs) 0 else v.getD x 0 := by
  intro c
  induction c with
  | zero =>
    intro _ x
    rw [if_neg (by omega)]
    rfl
  | succ c ih =>
    intro hc x
    have hexp : (j+1)*cs = j*cs + cs := by ring
    rw [List.range_succ, List.foldl_append, List.foldl_cons, List.foldl_nil]
    have hW1 : ((List.range c).foldl
        (fun v k => v.set (j*cs + k) (v.getD (j*cs + k) 0 + v.getD ((j+1)*cs + k) 0)) v).getD
          (j*cs + c) 0 = v.getD (j*cs + c) 0 := by
      rw [ih (by omega) _, if_neg (by omega)]
    have hW2 : ((List.range c).foldl
        (fun v k => v.set (j*cs + k) (v.getD (j*cs + k) 0 + v.getD ((j+1)*cs + k) 0)) v).getD
          ((j+1)*cs + c) 0 = v.getD ((j+1)*cs + c) 0 := by
      rw [ih (by omega) _, if_neg (by omega)]
    by_cases hx : x = j*cs + c
    · subst hx
      rw [getD_set_self _ _ _ _ (by rw [wh_inner_even_length]; omega), hW1, hW2,
          if_pos (by omega)]
      congr 2
      omega
    · rw [getD_set_ne _ _ _ (fun h => hx h.symm), ih (by omega) x]
      by_cases hcond : j*cs ≤ x ∧ x < j*cs + c
      · rw [if_pos hcond, if_pos (by omega)]
      · rw [if_neg hcond, if_neg (by omega)]

theorem wh_inner_odd (cs j : Nat) (hj : 1 ≤ j) (v : List Int) (hbound : j*cs + cs ≤ v.length) :
    ∀ c, c ≤ cs → ∀ x,
      ((List.range c).foldl
        (fun v k => v.set (j*cs + k) (v.getD ((j-1)*cs + k) 0 - 2 * v.getD (j*cs + k) 0)) v).getD x 0
      = if j*cs ≤ x ∧ x < j*cs + c then v.getD (x - cs) 0 - 2 * v.getD x 0 else v.getD x 0 := by
  intro c
  induction c with
  | zero =>
    intro _ x
    rw [if_neg (by omega)]
    rfl
  | succ c ih =>
    intro hc x
    have hexp : j*cs = (j-1)*cs + cs := by
      obtain ⟨j0, rfl⟩ : ∃ j0, j = j0 + 1 := ⟨j - 1, by omega⟩
      simp only [Nat.add_sub_cancel]
      ring
    rw [List.range_succ, List.foldl_append, List.foldl_cons, List.foldl_nil]
    have hW1 : ((List.range c).foldl
        (fun v k => v.set (j*cs + k) (v.getD ((j-1)*cs + k) 0 - 2 * v.getD (j*cs + k) 0)) v).getD
          ((j-1)*cs + c) 0 = v.getD ((j-1)*cs + c) 0 := by
      rw [ih (by omega) _, if_neg (by omega)]
    have hW2 : ((List.range c).foldl
        (fun v k => v.set (j*cs + k) (v.getD ((j-1)*cs + k) 0 - 2 * v.getD (j*cs + k) 0)) v).getD
          (j*cs + c) 0 = v.getD (j*cs + c) 0 := by
      rw [ih (by omega) _, if_neg (by omega)]
    by_cases hx : x = j*cs + c
    · subst hx
      rw [getD_set_self _ _ _ _ (by rw [wh_inner_odd_length]; omega), hW1, hW2,
          if_pos (by omega)]
      congr 2
      omega
    · rw [getD_set_ne _ _ _ (fun h => hx h.symm), ih (by omega) x]
      by_cases hcond : j*cs ≤ x ∧ x < j*cs + c
      · rw [if_pos hcond, if_pos (by omega)]
      · rw [if_neg hcond, if_neg (by omega)]

theorem whStep_body_even (cs : Nat) (v : List Int) (j : Nat) (hj : j % 2 = 0) :
    (if j % 2 = 0 then
        (List.range cs).foldl
          (fun v k => v.set (j*cs + k) (v.getD (j*cs + k) 0 + v.getD ((j+1)*cs + k) 0)) v
      else
        (List.range cs).foldl
          (fun v k => v.set (j*cs + k) (v.getD ((j-1)*cs + k) 0 - 2 * v.getD (j*cs + k) 0)) v)
      = (List.range cs).foldl
          (fun v k => v.set (j*cs + k) (v.getD (j*cs + k) 0 + v.getD ((j+1)*cs + k) 0)) v := by
  rw [if_pos hj]

theorem wh_outer_length (cs : Nat) (js : List Nat) (v : List Int) :
    (js.foldl
      (fun v j =>
        if j % 2 = 0 then
          (List.range cs).foldl
            (fun v k => v.set (j*cs + k) (v.getD (j*cs + k) 0 + v.getD ((j+1)*cs + k) 0)) v
        else
          (List.range cs).foldl
            (fun v k => v.set (j*cs + k) (v.getD ((j-1)*cs + k) 0 - 2 * v.getD (j*cs + k) 0)) v)
      v).length = v.length := by
  induction js generalizing v with
  | nil => rfl
  | cons j js ih =>
    rw [List.foldl_cons]
    rw [ih]
    split
    · exact wh_inner_even_length cs j v cs
    · exact wh_inner_odd_length cs j v cs

theorem whStep_length (cs : Nat) (v : List Int) : (whStep cs v).length = v.length := by
  rw [whStep]
  exact wh_outer_length cs _ v

theorem whStep_getD (i n : Nat) (hi : i < n) (v : List Int) (hlen : v.length = 2^n) :
    ∀ x, x < v.length →
      (whStep (2^i) v).getD x 0 =
        if (x / 2^i) % 2 = 1 then v.getD (x - 2^i) 0 - v.getD x 0
        else v.getD x 0 + v.getD (x + 2^i) 0 := by
  have hcs : 0 < 2^i := Nat.pos_pow_of_pos _ (by norm_num)
  have hB : v.length / 2^i = 2^(n-i) := by
    rw [hlen]
    rw [show (2:Nat)^n = 2^(n-i) * 2^i by rw [← Nat.pow_add]; congr 1; omega]
    exact Nat.mul_div_cancel _ hcs
  have hBeven : 2^(n-i) % 2 = 0 := by
    have : n - i = (n - i - 1) + 1 := by omega
    rw [this, Nat.pow_succ]
    omega
  rw [whStep, hB]
  have main : ∀ t, t ≤ 2^(n-i) → ∀ x,
      ((List.range t).foldl
        (fun v j =>
          if j % 2 = 0 then
            (List.range (2^i)).foldl
              (fun v k => v.set (j*(2^i) + k) (v.getD (j*(2^i) + k) 0 + v.getD ((j+1)*(2^i) + k) 0)) v
          else
            (List.range (2^i)).foldl
              (fun v k => v.set (j*(2^i) + k) (v.getD ((j-1)*(2^i) + k) 0 - 2 * v.getD (j*(2^i) + k) 0)) v)
        v).getD x 0
      = if x < t * 2^i then
          (if (x / 2^i) % 2 = 1 then v.getD (x - 2^i) 0 - v.getD x 0
           else v.getD x 0 + v.getD (x + 2^i) 0)
        else v.getD x 0 := by
    intro t
    induction t with
    | zero =>
      intro _ x
      rw [if_neg (by omega)]
      rfl
    | succ t ih =>
      intro ht x
      rw [List.range_succ, List.foldl_append, List.foldl_cons, List.foldl_nil]
      set W := ((List.range t).foldl
        (fun v j =>
          if j % 2 = 0 then
            (List.range (2^i)).foldl
              (fun v k => v.set (j*(2^i) + k) (v.getD (j*(2^i) + k) 0 + v.getD ((j+1)*(2^i) + k) 0)) v
          else
            (List.range (2^i)).foldl
              (fun v k => v.set (j*(2^i) + k) (v.getD ((j-1)*(2^i) + k) 0 - 2 * v.getD (j*(2^i) + k) 0)) v)
        v) with hWdef
      have hWlen : W.length = v.length := by
        rw [hWdef]
        exact wh_outer_length _ _ v
      have hIH : ∀ y, W.getD y 0
          = if y < t * 2^i then
              (if (y / 2^i) % 2 = 1 then v.getD (y - 2^i) 0 - v.getD y 0
               else v.getD y 0 + v.getD (y + 2^i) 0)
            else v.getD y 0 := fun y => by rw [hWdef]; exact ih (by omega) y
      have he1 : (t+1)*(2^i) = t*2^i + 2^i := by ring
      have hdivt : ∀ z, t*2^i ≤ z → z < t*2^i + 2^i → z / 2^i = t := by
        intro z h1 h2
        apply Nat.div_eq_of_lt_le
        · exact h1
        · have : (t+1)*(2^i) = t*2^i + 2^i := by ring
          omega
      rcases Nat.even_or_odd t with ⟨t2, ht2⟩ | ⟨t2, ht2⟩
      · -- t even: t = t2 + t2
        have hteven : t % 2 = 0 := by omega
        rw [if_pos hteven]
        have hb : t*(2^i) + 2^i ≤ W.length := by
          rw [hWlen, hlen]
          have h1 : t + 1 ≤ 2^(n-i) := ht
          have h2 : t + 2 ≤ 2^(n-i) := by omega
          calc t*(2^i) + 2^i = (t+1) * 2^i := by ring
            _ ≤ 2^(n-i) * 2^i := Nat.mul_le_mul_right _ (by omega)
            _ = 2^n := by rw [← Nat.pow_add]; congr 1; omega
        rw [wh_inner_even (2^i) t W hb (2^i) le_rfl x]
        by_cases hwin : t*(2^i) ≤ x ∧ x < t*(2^i) + 2^i
        · rw [if_pos hwin]
          have hxd : x / 2^i = t := hdivt x hwin.1 (by omega)
          have hW1 : W.getD x 0 = v.getD x 0 := by
            rw [hIH x, if_neg (by omega)]
          have hW2 : W.getD (x + 2^i) 0 = v.getD (x + 2^i) 0 := by
            rw [hIH (x + 2^i), if_neg (by omega)]
          rw [hW1, hW2, if_pos (by omega), if_neg (by omega)]
        · rw [if_neg hwin, hIH x]
          by_cases hlt : x < t * 2^i
          · rw [if_pos hlt, if_pos (show x < (t+1)*2^i by omega)]
          · rw [if_neg hlt, if_neg (show ¬ x < (t+1)*2^i by omega)]
      · -- t odd: t = 2*t2 + 1
        have htodd : ¬ t % 2 = 0 := by omega
        rw [if_neg htodd]
        have hb : t*(2^i) + 2^i ≤ W.length := by
          rw [hWlen, hlen]
          calc t*(2^i) + 2^i = (t+1) * 2^i := by ring
            _ ≤ 2^(n-i) * 2^i := Nat.mul_le_mul_right _ (by omega)
            _ = 2^n := by rw [← Nat.pow_add]; congr 1; omega
        rw [wh_inner_odd (2^i) t (by omega) W hb (2^i) le_rfl x]
        by_cases hwin : t*(2^i) ≤ x ∧ x < t*(2^i) + 2^i
        · rw [if_pos hwin]
          have hxd : x / 2^i = t := hdivt x hwin.1 (by omega)
          have hsub : t*(2^i) = (t-1)*2^i + 2^i := by
            have h1 : t - 1 + 1 = t := by omega
            calc t*(2^i) = (t-1+1)*2^i := by rw [h1]
              _ = (t-1)*2^i + 2^i := by ring
          have hxsubd : (x - 2^i) / 2^i = t - 1 := by
            apply Nat.div_eq_of_lt_le
            · omega
            · have h2 : (t-1+1)*(2^i) = (t-1)*2^i + 2^i := by ring
              omega
          have hW2 : W.getD x 0 = v.getD x 0 := by
            rw [hIH x, if_neg (by omega)]
          have hW1 : W.getD (x - 2^i) 0
              = v.getD (x - 2^i) 0 + v.getD (x - 2^i + 2^i) 0 := by
            rw [hIH (x - 2^i), if_pos (by omega), if_neg (by rw [hxsubd]; omega)]
          have hxx : x - 2^i + 2^i = x := by omega
          rw [hW1, hW2, hxx, if_pos (by omega), if_pos (by rw [hxd]; omega)]
          ring
        · rw [if_neg hwin, hIH x]
          by_cases hlt : x < t * 2^i
          · rw [if_pos hlt, if_pos (show x < (t+1)*2^i by omega)]
          · rw [if_neg hlt, if_neg (show ¬ x < (t+1)*2^i by omega)]
  intro x hx
  rw [main (2^(n-i)) le_rfl x, if_pos ?_]
  rw [hlen] at hx
  calc x < 2^n := hx
    _ = 2^(n-i) * 2^i := by rw [← Nat.pow_add]; congr 1; omega

/-! ### C2: the Walsh butterfly's odd branch -/

/-- The butterfly step as the specification words it: all reads are from the
pre-step vector, the even-position entry becomes `even + odd` and the
odd-position entry becomes `even_before - 2 * odd_before`. -/
def whStepClaim (cs : Nat) (v : List Int) : List Int :=
  (List.range v.length).map (fun x =>
    if (x / cs) % 2 = 1 then v.getD (x - cs) 0 - 2 * v.getD x 0
    else v.getD x 0 + v.getD (x + cs) 0)

/-- Counterexample to C2 on the vector `[1, 1]` at scale `0` (block size `1`):
the code's odd branch reads the even slot after the same pass already
overwrote it, so it yields `0 = (1 + 1) - 2 * 1`, while the claimed
pre-step-read rule yields `-1 = 1 - 2 * 1`. -/
theorem C2_counterexample :
    whStep 1 [1, 1] = [2, 0] ∧ whStepClaim 1 [1, 1] = [2, -1] ∧
    whStep 1 [1, 1] ≠ whStepClaim 1 [1, 1] := by
  refine ⟨by rfl, by rfl, by decide⟩

/-- C2 (amended): in each butterfly step of `walsh_adamar` at scale `i` on a
vector of length `2^n` (`i < n`), the even-position entry becomes the
pre-step `even + odd`, but the odd-position entry becomes the pre-step
`even - odd` (not `even - 2 * odd`): the code computes
`updated_even - 2 * odd = (even + odd) - 2 * odd`, reading the even slot
already overwritten in the same pass. -/
theorem C2_walsh_butterfly (i n : Nat) (hi : i < n) (v : List Int)
    (hlen : v.length = 2^n) :
    (whStep (2^i) v).length = v.length ∧
    ∀ x, x < v.length →
      (whStep (2^i) v).getD x 0 =
        if (x / 2^i) % 2 = 1 then v.getD (x - 2^i) 0 - v.getD x 0
        else v.getD x 0 + v.getD (x + 2^i) 0 :=
  ⟨whStep_length _ _, whStep_getD i n hi v hlen⟩

/-- Witness for C2 at scale `0` on the concrete vector `[1, 1]`. -/
theorem C2_witness :
    (whStep (2^0) ([1, 1] : List Int)).length = ([1, 1] : List Int).length ∧
    ∀ x, x < ([1, 1] : List Int).length →
      (whStep (2^0) ([1, 1] : List Int)).getD x 0 =
        if (x / 2^0) % 2 = 1 then
          ([1, 1] : List Int).getD (x - 2^0) 0 - ([1, 1] : List Int).getD x 0
        else ([1, 1] : List Int).getD x 0 + ([1, 1] : List Int).getD (x + 2^0) 0 :=
  C2_walsh_butterfly 0 1 (by decide) [1, 1] (by decide)


/-! ### C4: the parse/render round trip -/

theorem log2Aux_two_pow : ∀ (fuel n : Nat), 2 ^ n ≤ fuel → log2Aux fuel (2 ^ n) = n := by
  intro fuel
  induction fuel with
  | zero =>
    intro n h
    have := Nat.one_le_two_pow (n := n)
    omega
  | succ fuel ih =>
    intro n h
    rw [log2Aux]
    by_cases hn : n = 0
    · subst hn
      rw [if_pos (by norm_num)]
    · rw [if_neg (by
        have h2 : 2 ^ 1 ≤ 2 ^ n := Nat.pow_le_pow_right (by norm_num) (by omega)
        omega)]
      have hmul : 2 ^ n = 2 ^ (n - 1) * 2 := by
        rw [← Nat.pow_succ]
        congr 1
        omega
      have hsh : 2 ^ n >>> 1 = 2 ^ (n - 1) := by
        rw [Nat.shiftRight_eq_div_pow, pow_one]
        omega
      rw [hsh, ih (n-1) ?_]
      · omega
      · have h1 : 2 ^ (n - 1) < 2 ^ n := Nat.pow_lt_pow_right (by norm_num) (by omega)
        omega

theorem log2_two_pow (n : Nat) : log2 (2 ^ n) = n :=
  log2Aux_two_pow (2 ^ n) n le_rfl

theorem is_pow2_two_pow (n : Nat) : is_pow2 (2 ^ n) = true := by
  have h1 : 0 < 2 ^ n := Nat.pos_pow_of_pos _ (by norm_num)
  have h2 : 2 ^ n &&& (2 ^ n - 1) = 0 := by
    rw [Nat.and_pow_two_sub_one_eq_mod]
    exact Nat.mod_self _
  simp [is_pow2, h2, h1.ne.symm]

theorem eval_eq_evalBit (f : BF) (x : Nat) :
    f.eval x = if evalBit f.values x then 1 else 0 := by
  rw [BF.eval, evalBit, div_ws_eq, mod_ws_eq, Nat.and_one_is_mod,
      Nat.shiftRight_eq_div_pow, Nat.testBit_to_div_mod]
  rcases Nat.mod_two_eq_zero_or_one (f.values.getD (x / 2 ^ 7) 0 / 2 ^ (x % 2 ^ 7)) with h | h
  · rw [h, if_neg (by simp [h])]
  · rw [h, if_pos (by simp [h])]

theorem eval_replicate_zero (n c x : Nat) :
    BF.eval { values := List.replicate c 0, args_amount := n } x = 0 := by
  rw [BF.eval]
  show ((List.replicate c 0).getD (div_ws x) 0 >>> mod_ws x) &&& 1 = 0
  rw [getD_replicate]
  split <;> simp [Nat.zero_shiftRight, Nat.zero_and]

theorem evalBit_set_or {V : List Nat} {x : Nat} (hlt : div_ws x < V.length) (y : Nat) :
    evalBit (V.set (div_ws x) (V.getD (div_ws x) 0 ||| (1 <<< mod_ws x))) y
      = (evalBit V y || decide (y = x)) := by
  simp only [evalBit, div_ws_eq, mod_ws_eq] at *
  by_cases hq : y / 2 ^ 7 = x / 2 ^ 7
  · rw [hq, getD_set_self _ _ _ _ hlt]
    rw [Nat.one_shiftLeft, Nat.testBit_or, Nat.testBit_two_pow]
    by_cases hr : y % 2 ^ 7 = x % 2 ^ 7
    · have hyx : y = x := by omega
      simp [hyx]
    · have hyx : ¬ y = x := fun hh => hr (by rw [hh])
      have hr2 : ¬ (x % 128 = y % 128) := by omega
      simp [hr2, hyx]
  · have hne : x / 2 ^ 7 ≠ y / 2 ^ 7 := fun hh => hq hh.symm
    rw [getD_set_ne _ _ _ hne]
    have hyx : ¬ y = x := fun hh => hq (by rw [hh])
    simp [hyx]

theorem set_eval {f : BF} {x : Nat} {f' : BF} (hwf : Wf f) (hx : x < pow2 f.args_amount)
    (hok : BF.set f x = .ok f') :
    f'.args_amount = f.args_amount ∧
    ∀ y, f'.eval y = if y = x then 1 else f.eval y := by
  have hlt : div_ws x < f.values.length := by
    rw [hwf.2.1, div_ws_eq, div_ws_ceil_eq, pow2_eq]
    rw [pow2_eq] at hx
    omega
  rw [BF.set, if_neg (by omega)] at hok
  cases hok
  refine ⟨rfl, ?_⟩
  intro y
  rw [eval_eq_evalBit, eval_eq_evalBit]
  show (if evalBit (f.values.set (div_ws x)
      (f.values.getD (div_ws x) 0 ||| (1 <<< mod_ws x))) y then 1 else 0) = _
  rw [evalBit_set_or hlt y]
  by_cases hyx : y = x
  · simp [hyx]
  · simp [hyx]

theorem parseAux_eval (s : List Char) : ∀ (rest : List Char) (f : BF) (i : Nat),
    Wf f → (∀ c ∈ rest, c = '0' ∨ c = '1') → i + rest.length ≤ pow2 f.args_amount →
    ∃ f', BF.parseAux s f i rest = .ok f' ∧ f'.args_amount = f.args_amount ∧ Wf f' ∧
      ∀ y, f'.eval y =
        if i ≤ y ∧ y < i + rest.length ∧ rest.getD (y - i) '0' = '1' then 1
        else f.eval y := by
  intro rest
  induction rest with
  | nil =>
    intro f i hwf _ _
    refine ⟨f, rfl, rfl, hwf, ?_⟩
    intro y
    rw [if_neg ?_]
    rintro ⟨hc1, hc2, -⟩
    rw [List.length_nil] at hc2
    omega
  | cons c cs ih =>
    intro f i hwf hchars hbound
    rw [List.length_cons] at hbound
    have hlc : (c :: cs).length = cs.length + 1 := by simp
    have hgd : ∀ y, i + 1 ≤ y → (c :: cs).getD (y - i) '0' = cs.getD (y - (i + 1)) '0' := by
      intro y hy
      rcases Nat.exists_eq_add_of_le hy with ⟨d, hd⟩
      subst hd
      have hr1 : i + 1 + d - i = d + 1 := by omega
      have hr2 : i + 1 + d - (i + 1) = d := by omega
      rw [hr1, hr2, List.getD_cons_succ]
    unfold BF.parseAux
    by_cases h0 : c = '0'
    · rw [if_pos h0]
      obtain ⟨f', hok, hargs, hwf', heval⟩ :=
        ih f (i+1) hwf (fun d hd => hchars d (List.mem_cons_of_mem c hd)) (by omega)
      refine ⟨f', hok, hargs, hwf', ?_⟩
      intro y
      rw [heval y]
      by_cases hcase : i + 1 ≤ y ∧ y < i + 1 + cs.length ∧ cs.getD (y - (i+1)) '0' = '1'
      · rw [if_pos hcase, if_pos ?_]
        refine ⟨by omega, by omega, ?_⟩
        rw [hgd y hcase.1]
        exact hcase.2.2
      · rw [if_neg hcase, if_neg ?_]
        rintro ⟨hc1, hc2, hc3⟩
        apply hcase
        have hyi : i + 1 ≤ y := by
          rcases Nat.lt_or_ge y (i+1) with hlt | hge
          · exfalso
            have hyi0 : y = i := by omega
            subst hyi0
            rw [Nat.sub_self, List.getD_cons_zero, h0] at hc3
            exact absurd hc3 (by decide)
          · exact hge
        refine ⟨hyi, by omega, ?_⟩
        rw [← hgd y hyi]
        exact hc3
    · rw [if_neg h0]
      have h1 : c = '1' := by
        rcases hchars c (List.mem_cons_self c cs) with hh | hh
        · exact absurd hh h0
        · exact hh
      rw [if_pos h1]
      have hxlt : i < pow2 f.args_amount := by omega
      cases hset : BF.set f i with
      | error e =>
        exfalso
        rw [BF.set, if_neg (by omega)] at hset
        exact absurd hset (by simp)
      | ok f1 =>
        obtain ⟨hargs1, heval1⟩ := set_eval hwf hxlt hset
        have hwf1 : Wf f1 := set_Wf f i f1 hwf hset
        obtain ⟨f', hok, hargs, hwf', heval⟩ :=
          ih f1 (i+1) hwf1 (fun d hd => hchars d (List.mem_cons_of_mem c hd))
            (by rw [hargs1]; omega)
        refine ⟨f', hok, by rw [hargs, hargs1], hwf', ?_⟩
        intro y
        rw [heval y]
        by_cases hcase : i + 1 ≤ y ∧ y < i + 1 + cs.length ∧ cs.getD (y - (i+1)) '0' = '1'
        · rw [if_pos hcase, if_pos ?_]
          refine ⟨by omega, by omega, ?_⟩
          rw [hgd y hcase.1]
          exact hcase.2.2
        · rw [if_neg hcase, heval1 y]
          by_cases hyi : y = i
          · rw [if_pos hyi, if_pos ?_]
            refine ⟨by omega, by omega, ?_⟩
            rw [hyi, Nat.sub_self, List.getD_cons_zero]
            exact h1
          · rw [if_neg hyi, if_neg ?_]
            rintro ⟨hc1, hc2, hc3⟩
            apply hcase
            have hyi1 : i + 1 ≤ y := by
              rcases Nat.lt_or_ge y (i+1) with hlt | hge
              · exact absurd (by omega : y = i) hyi
              · exact hge
            refine ⟨hyi1, by omega, ?_⟩
            rw [← hgd y hyi1]
            exact hc3


/-- C4: parsing then rendering is the identity on valid encodings: for every
list of `'0'`/`'1'` characters whose length is `2^n` with `n ≥ 1`, `from_str`
succeeds, the result has `args_amount = log2` of the length, character `i`
gives `eval i`, and rendering gives back the original characters. -/
theorem C4_parse_render_roundtrip (s : List Char) (n : Nat) (hn : 1 ≤ n)
    (hlen : s.length = 2 ^ n) (hchars : ∀ c ∈ s, c = '0' ∨ c = '1') :
    ∃ f, BF.from_str s = .ok f ∧ f.args_amount = log2 s.length ∧
      (∀ i, i < s.length → f.eval i = if s.getD i '0' = '1' then 1 else 0) ∧
      f.render = s := by
  have hlog : log2 s.length = n := by rw [hlen]; exact log2_two_pow n
  have h2n : 2 ≤ 2 ^ n := by
    calc (2:Nat) = 2 ^ 1 := by norm_num
      _ ≤ 2 ^ n := Nat.pow_le_pow_right (by norm_num) hn
  have hpow : is_pow2 s.length = true := by rw [hlen]; exact is_pow2_two_pow n
  have hcond : ¬ (s.length = 1 ∨ ¬ is_pow2 s.length = true) := by
    push_neg
    exact ⟨by omega, hpow⟩
  set Z : BF := { values := List.replicate (div_ws_ceil (pow2 (log2 s.length))) 0,
                  args_amount := log2 s.length } with hZ
  have hzero : BF.zero (log2 s.length) = .ok Z := zero_ok _ (by omega)
  have hwfZ : Wf Z := zero_Wf _ (by omega) Z hzero
  have hargsZ : Z.args_amount = n := hlog
  obtain ⟨f', hok, hargs, hwf', heval⟩ :=
    parseAux_eval s s Z 0 hwfZ hchars (by rw [pow2_eq, hargsZ]; omega)
  have hfs : BF.from_str s = .ok f' := by
    simp only [BF.from_str]
    rw [if_neg hcond, hzero]
    exact hok
  have hargs' : f'.args_amount = log2 s.length := hargs
  have hevals : ∀ i, i < s.length → f'.eval i = if s.getD i '0' = '1' then 1 else 0 := by
    intro i hi
    rw [heval i]
    by_cases hc : s.getD i '0' = '1'
    · rw [if_pos ⟨by omega, by omega, by rw [Nat.sub_zero]; exact hc⟩, if_pos hc]
    · have hcnd : ¬ (0 ≤ i ∧ i < 0 + s.length ∧ s.getD (i - 0) '0' = '1') := by
        rintro ⟨-, -, hc3⟩
        rw [Nat.sub_zero] at hc3
        exact hc hc3
      rw [if_neg hcnd, if_neg hc, hZ, eval_replicate_zero]
  refine ⟨f', hfs, hargs', hevals, ?_⟩
  rw [BF.render]
  have hlenr : pow2 f'.args_amount = s.length := by
    rw [pow2_eq, hargs', hlog, hlen]
  apply List.ext_getElem
  · rw [List.length_map, List.length_range, hlenr]
  · intro i h1 h2
    rw [List.length_map, List.length_range, hlenr] at h1
    rw [List.getElem_map, List.getElem_range]
    have hg : s.getD i '0' = s[i] := List.getD_eq_getElem s '0' h2
    rcases hchars s[i] (List.getElem_mem h2) with hc | hc
    · rw [hevals i h1, hg, hc, if_neg (by decide)]
      rfl
    · rw [hevals i h1, hg, hc, if_pos rfl]
      rfl

/-- Witness for C4 at the concrete encoding `"0110"`. -/
theorem C4_witness :
    ∃ f, BF.from_str ['0','1','1','0'] = .ok f ∧
      f.args_amount = log2 (['0','1','1','0'] : List Char).length ∧
      (∀ i, i < (['0','1','1','0'] : List Char).length →
        f.eval i = if (['0','1','1','0'] : List Char).getD i '0' = '1' then 1 else 0) ∧
      f.render = ['0','1','1','0'] :=
  C4_parse_render_roundtrip ['0','1','1','0'] 2 (by decide) (by decide) (by decide)


/-! ### C5: the Gosper combination enumerator and `comb` -/

theorem xor_ones_eq_sub : ∀ (k : Nat), ∀ x, x < 2 ^ k → (2 ^ k - 1) ^^^ x = 2 ^ k - 1 - x := by
  intro k
  induction k with
  | zero =>
    intro x hx
    interval_cases x
    rfl
  | succ k ih =>
    intro x hx
    have h1 : 1 ≤ 2 ^ k := Nat.one_le_two_pow
    have hp : 2 ^ (k+1) = 2 * 2 ^ k := by rw [Nat.pow_succ]; ring
    have hd : x / 2 < 2 ^ k := by omega
    have hih := ih (x / 2) hd
    have hdiv : ((2 ^ (k+1) - 1) ^^^ x) / 2 = 2 ^ k - 1 - x / 2 := by
      rw [Nat.xor_div_two]
      have he : (2 ^ (k+1) - 1) / 2 = 2 ^ k - 1 := by omega
      rw [he, hih]
    have hmod : ((2 ^ (k+1) - 1) ^^^ x) % 2 = (2 ^ (k+1) - 1 + x) % 2 := Nat.xor_mod_two_eq
    omega

theorem usizeCompl_eq {x : Nat} (hx : x < 2 ^ 64) : usizeCompl x = 2 ^ 64 - 1 - x :=
  xor_ones_eq_sub 64 x hx

theorem odd_decomp : ∀ c, 1 ≤ c → ∃ A o l, 1 ≤ o ∧ A % 2 = 0 ∧
    c = (A * 2 ^ o + (2 ^ o - 1)) * 2 ^ l := by
  intro c
  induction c using Nat.strong_induction_on with
  | _ c ih =>
    intro hc
    rcases Nat.mod_two_eq_zero_or_one c with he | ho
    · obtain ⟨A, o, l, h1, h2, h3⟩ := ih (c / 2) (by omega) (by omega)
      refine ⟨A, o, l + 1, h1, h2, ?_⟩
      have e2 : 2 ^ (l + 1) = 2 ^ l * 2 := by rw [Nat.pow_succ]
      rw [e2]
      have hce : c = 2 * (c / 2) := by omega
      rw [hce, h3]
      ring
    · rcases Nat.eq_or_lt_of_le hc with h1 | h1
      · refine ⟨0, 1, 0, by omega, by omega, by omega⟩
      · rcases Nat.mod_two_eq_zero_or_one (c / 2) with hde | hdo
        · refine ⟨c / 2, 1, 0, by omega, hde, by omega⟩
        · obtain ⟨A, o, l, hh1, hh2, hh3⟩ := ih (c / 2) (by omega) (by omega)
          have hl0 : l = 0 := by
            by_contra hl
            have e2 : 2 ^ l = 2 * 2 ^ (l - 1) := by
              rw [show (2:Nat) * 2 ^ (l-1) = 2 ^ (l-1) * 2 by ring, ← Nat.pow_succ]
              congr 1
              omega
            have e3 : c / 2 = 2 * ((A * 2 ^ o + (2 ^ o - 1)) * 2 ^ (l - 1)) := by
              rw [hh3, e2]
              ring
            omega
          subst hl0
          refine ⟨A, o + 1, 0, by omega, hh2, ?_⟩
          have h2o : 1 ≤ 2 ^ o := Nat.one_le_two_pow
          have hpo : 2 ^ (o + 1) = 2 * 2 ^ o := by rw [Nat.pow_succ]; ring
          have hX : A * 2 ^ (o + 1) = 2 * (A * 2 ^ o) := by rw [hpo]; ring
          have hY : c / 2 = A * 2 ^ o + (2 ^ o - 1) := by rw [hh3]; ring
          have hZ : (A * 2 ^ (o+1) + (2 ^ (o+1) - 1)) * 2 ^ 0
              = A * 2 ^ (o+1) + (2 ^ (o+1) - 1) := by ring
          rw [hZ, hX, hpo]
          omega


theorem testBit_block {M l r b : Nat} (hr : r < 2 ^ l) :
    (M * 2 ^ l + r).testBit b = if b < l then r.testBit b else M.testBit (b - l) := by
  rw [show M * 2 ^ l + r = 2 ^ l * M + r by ring]
  exact Nat.testBit_mul_pow_two_add M hr b

theorem testBit_gosper_c {A o l : Nat} (b : Nat) :
    ((A * 2 ^ o + (2 ^ o - 1)) * 2 ^ l).testBit b =
      if b < l then false else if b - l < o then true else A.testBit (b - l - o) := by
  have h2o : 1 ≤ 2 ^ o := Nat.one_le_two_pow
  have h0 : (A * 2 ^ o + (2 ^ o - 1)) * 2 ^ l = (A * 2 ^ o + (2 ^ o - 1)) * 2 ^ l + 0 := by ring
  rw [h0, testBit_block (Nat.pos_pow_of_pos _ (by norm_num)),
      testBit_block (show 2 ^ o - 1 < 2 ^ o by omega)]
  by_cases hb : b < l
  · rw [if_pos hb, if_pos hb, Nat.zero_testBit]
  · rw [if_neg hb, if_neg hb]
    by_cases hbo : b - l < o
    · rw [if_pos hbo, if_pos hbo, Nat.testBit_two_pow_sub_one]
      simp [hbo]
    · rw [if_neg hbo, if_neg hbo]

theorem testBit_gosper_s {B o l : Nat} (ho : 1 ≤ o) (b : Nat) :
    ((B * 2 ^ o + 1) * 2 ^ l).testBit b =
      if b < l then false
      else if b - l < o then decide (b - l = 0)
      else B.testBit (b - l - o) := by
  have h2o : 2 ≤ 2 ^ o := by
    calc (2:Nat) = 2 ^ 1 := by norm_num
      _ ≤ 2 ^ o := Nat.pow_le_pow_right (by norm_num) ho
  have h0 : (B * 2 ^ o + 1) * 2 ^ l = (B * 2 ^ o + 1) * 2 ^ l + 0 := by ring
  rw [h0, testBit_block (Nat.pos_pow_of_pos _ (by norm_num)),
      testBit_block (show (1:Nat) < 2 ^ o by omega)]
  by_cases hb : b < l
  · rw [if_pos hb, if_pos hb, Nat.zero_testBit]
  · rw [if_neg hb, if_neg hb]
    by_cases hbo : b - l < o
    · rw [if_pos hbo, if_pos hbo]
      rcases Nat.eq_zero_or_pos (b - l) with h0' | h0'
      · rw [h0']
        simp
      · have h1t : (1 : Nat).testBit (b - l) = false := by
          rw [show (1:Nat) = 2 ^ 0 by norm_num, Nat.testBit_two_pow]
          simp
          omega
        rw [h1t]
        simp
        omega
    · rw [if_neg hbo, if_neg hbo]

theorem testBit_gosper_compl {C w : Nat} (b : Nat) :
    (C * 2 ^ w + (2 ^ w - 1)).testBit b = if b < w then true else C.testBit (b - w) := by
  have h2w : 1 ≤ 2 ^ w := Nat.one_le_two_pow
  rw [testBit_block (show 2 ^ w - 1 < 2 ^ w by omega)]
  by_cases hb : b < w
  · rw [if_pos hb, if_pos hb, Nat.testBit_two_pow_sub_one]
    simp [hb]
  · rw [if_neg hb, if_neg hb]

theorem testBit_ones_block {o l b : Nat} :
    ((2 ^ o - 1) * 2 ^ l).testBit b = if b < l then false else decide (b - l < o) := by
  have h0 : (2 ^ o - 1) * 2 ^ l = (2 ^ o - 1) * 2 ^ l + 0 := by ring
  rw [h0, testBit_block (Nat.pos_pow_of_pos _ (by norm_num))]
  by_cases hb : b < l
  · rw [if_pos hb, if_pos hb, Nat.zero_testBit]
  · rw [if_neg hb, if_neg hb, Nat.testBit_two_pow_sub_one]

theorem testBit_succ_even {A : Nat} (hA : A % 2 = 0) (j : Nat) :
    (A + 1).testBit j = (A.testBit j || decide (j = 0)) := by
  have h0 : A.testBit 0 = false := by
    rw [Nat.testBit_zero]
    simp [hA]
  have hx : A ^^^ 1 = A + 1 := by
    have := xor_two_pow_of_testBit_false h0
    simpa using this
  rw [← hx, Nat.testBit_xor]
  have h1 : (1 : Nat).testBit j = decide (j = 0) := by
    rw [show (1:Nat) = 2 ^ 0 by norm_num, Nat.testBit_two_pow]
    simp [eq_comm]
  rw [h1]
  rcases j with _ | j
  · simp [h0]
  · simp

theorem testBit_lt_exp {A j t : Nat} (hA : A < 2 ^ t) (h : A.testBit j = true) : j < t := by
  have h1 := two_pow_le_of_testBit h
  by_contra hj
  have h2 : 2 ^ t ≤ 2 ^ j := Nat.pow_le_pow_right (by norm_num) (by omega)
  omega

theorem testBit_even_zero {A : Nat} (hA : A % 2 = 0) : A.testBit 0 = false := by
  rw [Nat.testBit_zero]
  simp [hA]


theorem weight_succ_even {A : Nat} (hA : A % 2 = 0) : weight (A + 1) = weight A + 1 := by
  have h2 : A + 1 = 2 * (A / 2) + 1 := by omega
  have h3 : A = 2 * (A / 2) := by omega
  rw [h2, weight_two_mul_add_one]
  conv_rhs => rw [h3, weight_two_mul]

theorem gosper_step {nn : Nat} (hn : nn ≤ 63) {c : Nat} (hc1 : 1 ≤ c) (hlt : c < 2 ^ nn) :
    ∃ c', BinComb.next { cur := c, n := nn } = .ok (some (c, { cur := c', n := nn })) ∧
      c < c' ∧ weight c' = weight c ∧ ∀ m, c < m → m < c' → weight m ≠ weight c := by
  obtain ⟨A, o, l, ho, hA, hM⟩ := odd_decomp c hc1
  have h2o1 : 1 ≤ 2 ^ o := Nat.one_le_two_pow
  have h2o2 : 2 ≤ 2 ^ o := by
    calc (2:Nat) = 2 ^ 1 := by norm_num
      _ ≤ 2 ^ o := Nat.pow_le_pow_right (by norm_num) ho
  have h2l1 : 1 ≤ 2 ^ l := Nat.one_le_two_pow
  have hlo : 2 ^ (l + o) = 2 ^ o * 2 ^ l := by rw [pow_add]; ring
  have hc_eq : c = A * 2 ^ (l + o) + (2 ^ o - 1) * 2 ^ l := by
    rw [hM, hlo]
    have hexp : (A * 2 ^ o + (2 ^ o - 1)) * 2 ^ l
        = A * 2 ^ o * 2 ^ l + (2 ^ o - 1) * 2 ^ l := by
      rw [Nat.add_mul]
    have hAc : A * (2 ^ o * 2 ^ l) = A * 2 ^ o * 2 ^ l := by ring
    rw [hexp, hAc]
  have hc63 : c < 2 ^ 63 := by
    have h1 : (2:Nat) ^ nn ≤ 2 ^ 63 := Nat.pow_le_pow_right (by norm_num) hn
    omega
  have hc64 : c < 2 ^ 64 := by
    have h1 : (2:Nat) ^ 63 ≤ 2 ^ 64 := Nat.pow_le_pow_right (by norm_num) (by norm_num)
    omega
  have hblock_lt : (2 ^ o - 1) * 2 ^ l < 2 ^ (l + o) := by
    rw [hlo]
    exact (Nat.mul_lt_mul_right (show 0 < 2 ^ l by omega)).mpr (by omega)
  have hwblock : weight ((2 ^ o - 1) * 2 ^ l) = o := by
    have h0 : (2 ^ o - 1) * 2 ^ l = (2 ^ o - 1) * 2 ^ l + 0 := by ring
    rw [h0, weight_mul_two_pow_add (2 ^ o - 1) l 0 (by omega), weight_two_pow_sub_one,
        weight_zero]
    omega
  have hwc : weight c = weight A + o := by
    rw [hc_eq, weight_mul_two_pow_add A (l+o) _ hblock_lt, hwblock]
  have h2lo_le : 2 ^ (l + o) ≤ 2 * c := by
    have h1 : 2 * ((2 ^ o - 1) * 2 ^ l) = (2 * (2 ^ o - 1)) * 2 ^ l := by ring
    have h2 : 2 ^ o * 2 ^ l ≤ (2 * (2 ^ o - 1)) * 2 ^ l :=
      Nat.mul_le_mul_right _ (by omega)
    have h3 : (2 ^ o - 1) * 2 ^ l ≤ c := by
      rw [hc_eq]
      omega
    rw [hlo]
    omega
  have hlo_lt64 : l + o < 64 := by
    by_contra hcon
    have h1 : (2:Nat) ^ 64 ≤ 2 ^ (l + o) := Nat.pow_le_pow_right (by norm_num) (by omega)
    omega
  set t := 64 - (l + o) with ht
  have ht64 : (2:Nat) ^ 64 = 2 ^ t * 2 ^ (l + o) := by
    rw [← pow_add]
    congr 1
    omega
  have hA_lt : A < 2 ^ t := by
    by_contra hcon
    have h1 : 2 ^ t * 2 ^ (l + o) ≤ A * 2 ^ (l + o) :=
      Nat.mul_le_mul_right _ (by omega)
    have h2 : A * 2 ^ (l + o) ≤ c := by
      rw [hc_eq]
      omega
    omega
  have hA1_lt : A + 1 < 2 ^ t := by
    have ht1 : 1 ≤ t := by omega
    have h2t : 2 ≤ 2 ^ t := by
      calc (2:Nat) = 2 ^ 1 := by norm_num
        _ ≤ 2 ^ t := Nat.pow_le_pow_right (by norm_num) ht1
    have h2t_even : 2 ^ t % 2 = 0 := by
      have he : (2:Nat) ^ t = 2 ^ (t - 1) * 2 := by
        rw [← Nat.pow_succ]
        congr 1
        omega
      omega
    omega
  have hguard : ¬ (c ≥ 1 <<< nn) := by
    rw [Nat.shiftLeft_eq, one_mul]
    omega
  have hcompl1 : usizeCompl (c - 1) = 2 ^ 64 - c := by
    rw [usizeCompl_eq (by omega)]
    omega
  set B := (2 ^ t - 1) ^^^ A with hB
  have hBval : B = 2 ^ t - 1 - A := xor_ones_eq_sub t A hA_lt
  have hsub : 2 ^ 64 - c = (B * 2 ^ o + 1) * 2 ^ l := by
    have e0 : (B * 2 ^ o + 1) * 2 ^ l = B * 2 ^ (l + o) + 2 ^ l := by
      rw [hlo]
      ring
    rw [e0, hBval]
    have e1 : (2 ^ t - 1 - A) * 2 ^ (l+o)
        = 2 ^ t * 2 ^ (l+o) - 2 ^ (l+o) - A * 2 ^ (l+o) := by
      rw [Nat.sub_mul, Nat.sub_mul, one_mul]
    have e2 : (2 ^ o - 1) * 2 ^ l = 2 ^ o * 2 ^ l - 2 ^ l := by rw [Nat.sub_mul, one_mul]
    have e5 : A * 2 ^ (l+o) + 2 ^ (l+o) ≤ 2 ^ t * 2 ^ (l+o) := by
      have h1 : (A + 1) * 2 ^ (l + o) ≤ 2 ^ t * 2 ^ (l + o) :=
        Nat.mul_le_mul_right _ (by omega)
      have hadd : (A + 1) * 2 ^ (l + o) = A * 2 ^ (l+o) + 2 ^ (l+o) := by ring
      omega
    have hce : c = A * 2 ^ (l + o) + (2 ^ o * 2 ^ l - 2 ^ l) := by
      rw [hc_eq, e2]
    have hll : 2 ^ l ≤ 2 ^ o * 2 ^ l := Nat.le_mul_of_pos_left _ (by omega)
    rw [e1, ht64, hce, ← hlo]
    omega
  have hlowbit : c &&& usizeCompl (c - 1) = 2 ^ l := by
    rw [hcompl1, hsub]
    apply Nat.eq_of_testBit_eq
    intro b
    rw [Nat.testBit_and, hM, testBit_gosper_c, testBit_gosper_s ho, Nat.testBit_two_pow]
    by_cases hbl : b < l
    · rw [if_pos hbl, if_pos hbl]
      have hlb : ¬ (l = b) := by omega
      simp [hlb]
    · rw [if_neg hbl, if_neg hbl]
      by_cases hbo : b - l < o
      · rw [if_pos hbo, if_pos hbo]
        by_cases hb0 : b - l = 0
        · have hlb : l = b := by omega
          simp [hb0, hlb]
        · have hlb : ¬ (l = b) := by omega
          simp [hb0, hlb]
      · rw [if_neg hbo, if_neg hbo, hB, Nat.testBit_xor, Nat.testBit_two_pow_sub_one]
        have hlb : ¬ (l = b) := by omega
        by_cases hAb : A.testBit (b - l - o) = true
        · have hjt : b - l - o < t := testBit_lt_exp hA_lt hAb
          simp [hAb, hjt, hlb]
        · simp only [Bool.not_eq_true] at hAb
          simp [hAb, hlb]
  have hclow : c + 2 ^ l = (A + 1) * 2 ^ (l + o) := by
    have e2 : (2 ^ o - 1) * 2 ^ l = 2 ^ o * 2 ^ l - 2 ^ l := by rw [Nat.sub_mul, one_mul]
    have hadd : (A + 1) * 2 ^ (l + o) = A * 2 ^ (l+o) + 2 ^ (l+o) := by ring
    have hll : 2 ^ l ≤ 2 ^ o * 2 ^ l := Nat.le_mul_of_pos_left _ (by omega)
    rw [hc_eq, e2, hadd, hlo]
    omega
  set C := (2 ^ t - 1) ^^^ (A + 1) with hC
  have hCval : C = 2 ^ t - 1 - (A + 1) := xor_ones_eq_sub t (A+1) hA1_lt
  have hcomplCA : usizeCompl ((A + 1) * 2 ^ (l + o)) = C * 2 ^ (l + o) + (2 ^ (l + o) - 1) := by
    have hlt64 : (A + 1) * 2 ^ (l + o) < 2 ^ 64 := by
      rw [ht64]
      exact (Nat.mul_lt_mul_right (show 0 < 2 ^ (l + o) from
        Nat.pos_pow_of_pos _ (by norm_num))).mpr hA1_lt
    rw [usizeCompl_eq hlt64, hCval]
    have e1 : (2 ^ t - 1 - (A+1)) * 2 ^ (l+o)
        = 2 ^ t * 2 ^ (l+o) - 2 ^ (l+o) - (A+1) * 2 ^ (l+o) := by
      rw [Nat.sub_mul, Nat.sub_mul, one_mul]
    have e5 : (A + 1) * 2 ^ (l+o) + 2 ^ (l+o) ≤ 2 ^ t * 2 ^ (l+o) := by
      have h1 : (A + 2) * 2 ^ (l + o) ≤ 2 ^ t * 2 ^ (l + o) :=
        Nat.mul_le_mul_right _ (by omega)
      have hadd : (A + 2) * 2 ^ (l + o) = (A+1) * 2 ^ (l+o) + 2 ^ (l+o) := by ring
      omega
    have h2lo : 1 ≤ 2 ^ (l + o) := Nat.one_le_two_pow
    rw [e1, ht64]
    omega
  have hones : c &&& usizeCompl (c + 2 ^ l) = (2 ^ o - 1) * 2 ^ l := by
    rw [hclow, hcomplCA]
    apply Nat.eq_of_testBit_eq
    intro b
    rw [Nat.testBit_and, hM, testBit_gosper_c, testBit_gosper_compl, testBit_ones_block]
    by_cases hbl : b < l
    · rw [if_pos hbl, if_pos hbl]
      simp
    · rw [if_neg hbl, if_neg hbl]
      by_cases hbo : b - l < o
      · rw [if_pos hbo]
        have hblo : b < l + o := by omega
        rw [if_pos hblo]
        simp [hbo]
      · rw [if_neg hbo]
        have hblo : ¬ (b < l + o) := by omega
        rw [if_neg hblo]
        have hbe : b - (l + o) = b - l - o := by omega
        rw [hbe, hC, Nat.testBit_xor, Nat.testBit_two_pow_sub_one, testBit_succ_even hA]
        by_cases hAb : A.testBit (b - l - o) = true
        · have hjt : b - l - o < t := testBit_lt_exp hA_lt hAb
          have hj1 : ¬ (b - l - o = 0) := by
            intro h0'
            rw [h0', testBit_even_zero hA] at hAb
            exact absurd hAb (by simp)
          simp [hAb, hjt, hj1, hbo]
        · simp only [Bool.not_eq_true] at hAb
          simp [hAb, hbo]
  have hdiv : (2 ^ o - 1) * 2 ^ l / 2 ^ l = 2 ^ o - 1 :=
    Nat.mul_div_cancel _ (by omega)
  have hshift : (2 ^ o - 1) >>> 1 = 2 ^ (o - 1) - 1 := by
    rw [Nat.shiftRight_eq_div_pow, pow_one]
    have he : (2:Nat) ^ o = 2 ^ (o - 1) * 2 := by
      rw [← Nat.pow_succ]
      congr 1
      omega
    omega
  have hnext : BinComb.next { cur := c, n := nn } =
      .ok (some (c, { cur := (A + 1) * 2 ^ (l + o) + (2 ^ (o - 1) - 1), n := nn })) := by
    simp only [BinComb.next]
    rw [if_neg hguard]
    simp only [hlowbit]
    rw [if_neg (by omega : ¬ ((2:Nat) ^ l = 0))]
    have hones2 : c &&& usizeCompl ((A + 1) * 2 ^ (l + o)) = (2 ^ o - 1) * 2 ^ l := by
      rw [← hclow]
      exact hones
    simp only [hclow, hones2, hdiv, hshift]
  refine ⟨(A + 1) * 2 ^ (l + o) + (2 ^ (o - 1) - 1), hnext, ?_, ?_, ?_⟩
  · have h1 : c + 2 ^ l ≤ (A+1) * 2 ^ (l+o) := le_of_eq hclow
    omega
  · have hsmall : 2 ^ (o - 1) - 1 < 2 ^ (l + o) := by
      have h1 : (2:Nat) ^ (o - 1) ≤ 2 ^ (l + o) := Nat.pow_le_pow_right (by norm_num) (by omega)
      omega
    rw [weight_mul_two_pow_add (A+1) (l+o) _ hsmall, weight_two_pow_sub_one,
        weight_succ_even hA, hwc]
    omega
  · intro m hm1 hm2 hwm
    rw [hwc] at hwm
    rcases Nat.lt_or_ge m ((A + 1) * 2 ^ (l + o)) with hcase | hcase
    · have hge : A * 2 ^ (l + o) ≤ m := by
        have h1 : A * 2 ^ (l + o) ≤ c := by
          rw [hc_eq]
          omega
        omega
      set r := m - A * 2 ^ (l + o) with hr
      have hadd : (A + 1) * 2 ^ (l + o) = A * 2 ^ (l+o) + 2 ^ (l+o) := by ring
      have hrlt : r < 2 ^ (l + o) := by omega
      have hm_eq : m = A * 2 ^ (l + o) + r := by omega
      have hwm2 : weight A + weight r = weight A + o := by
        rw [← weight_mul_two_pow_add A (l+o) r hrlt, ← hm_eq]
        exact hwm
      have hwr : weight r = o := by omega
      have hrle := le_shifted_ones_of_weight (show o ≤ l + o by omega) hrlt hwr
      have he : 2 ^ (l + o) - 2 ^ (l + o - o) = (2 ^ o - 1) * 2 ^ l := by
        have h1 : l + o - o = l := by omega
        rw [h1, Nat.sub_mul, one_mul, ← hlo]
      rw [he] at hrle
      have hgt : (2 ^ o - 1) * 2 ^ l < r := by
        rw [hc_eq] at hm1
        omega
      omega
    · set r := m - (A + 1) * 2 ^ (l + o) with hr
      have hrlt : r < 2 ^ (o - 1) - 1 := by omega
      have hrlt2 : r < 2 ^ (l + o) := by
        have h1 : (2:Nat) ^ (o - 1) ≤ 2 ^ (l + o) := Nat.pow_le_pow_right (by norm_num) (by omega)
        omega
      have hm_eq : m = (A + 1) * 2 ^ (l + o) + r := by omega
      have hwm2 : weight (A + 1) + weight r = weight A + o := by
        rw [← weight_mul_two_pow_add (A+1) (l+o) r hrlt2, ← hm_eq]
        exact hwm
      have hA1 : weight (A + 1) = weight A + 1 := weight_succ_even hA
      have hwr : weight r = o - 1 := by omega
      have hle := weight_le_of_lt_pred hrlt
      omega


theorem range'_cons (a n : Nat) : List.range' a (n+1) = a :: List.range' (a+1) n :=
  List.range'_succ a n 1

theorem range'_split (a m n : Nat) :
    List.range' a (m + n) = List.range' a m ++ List.range' (a + m) n := by
  have h := List.range'_append a m n 1
  rw [one_mul] at h
  rw [Nat.add_comm n m] at h
  exact h.symm

theorem filter_range'_nil {p : Nat → Bool} :
    ∀ (len a : Nat), (∀ m, a ≤ m → m < a + len → p m = false) →
      (List.range' a len).filter p = [] := by
  intro len
  induction len with
  | zero =>
    intro a _
    rfl
  | succ len ih =>
    intro a h
    rw [range'_cons, List.filter_cons, if_neg (by rw [h a le_rfl (by omega)]; simp)]
    exact ih (a+1) (fun m h1 h2 => h m (by omega) (by omega))

theorem binComb_runAux_spec (nn k : Nat) (hn : nn ≤ 63) :
    ∀ fuel c, weight c = k → 1 ≤ c → 1 ≤ fuel → 2 ^ nn + 1 ≤ fuel + c →
      BinComb.runAux fuel { cur := c, n := nn } =
        .ok ((List.range' c (2 ^ nn - c)).filter (fun m => weight m = k)) := by
  intro fuel
  induction fuel with
  | zero =>
    intro c _ _ hf _
    exact absurd hf (by omega)
  | succ fuel ih =>
    intro c hwck hc1 _ hfc
    rcases Nat.lt_or_ge c (2 ^ nn) with hlt | hge
    · obtain ⟨c', hnext, hcc', hwc', hmin⟩ := gosper_step hn hc1 hlt
      have hfuel1 : 1 ≤ fuel := by omega
      have hred : BinComb.runAux (fuel+1) { cur := c, n := nn } =
          (BinComb.runAux fuel { cur := c', n := nn }).map (fun l => c :: l) := by
        rw [BinComb.runAux, hnext]
      have hlist : (List.range' c (2 ^ nn - c)).filter (fun m => weight m = k) =
          c :: (List.range' c' (2 ^ nn - c')).filter (fun m => weight m = k) := by
        rw [show 2 ^ nn - c = (2 ^ nn - c - 1) + 1 by omega, range'_cons, List.filter_cons,
            if_pos (by simp [hwck])]
        congr 1
        rcases Nat.lt_or_ge c' (2 ^ nn) with hc'lt | hc'ge
        · rw [show 2 ^ nn - c - 1 = (c' - (c+1)) + (2 ^ nn - c') by omega, range'_split,
              List.filter_append, show c + 1 + (c' - (c + 1)) = c' by omega,
              filter_range'_nil (c' - (c+1)) (c+1) ?_, List.nil_append]
          intro m hm1 hm2
          simp only [decide_eq_false_iff_not]
          intro hwm
          exact hmin m (by omega) (by omega) (by rw [hwck]; exact hwm)
        · rw [show 2 ^ nn - c' = 0 by omega,
              filter_range'_nil (2 ^ nn - c - 1) (c+1) ?_]
          · rfl
          · intro m hm1 hm2
            simp only [decide_eq_false_iff_not]
            intro hwm
            exact hmin m (by omega) (by omega) (by rw [hwck]; exact hwm)
      rw [hred, ih c' (by rw [hwc', hwck]) (by omega) hfuel1 (by omega), hlist]
      rfl
    · have hnone : BinComb.next { cur := c, n := nn } = .ok none := by
        simp only [BinComb.next]
        rw [if_pos (by rw [Nat.shiftLeft_eq, one_mul]; omega)]
      rw [BinComb.runAux, hnone, show 2 ^ nn - c = 0 by omega]
      rfl

theorem filter_range_weight_split {nn k : Nat} (hk1 : 1 ≤ k) (hkn : k ≤ nn) :
    (List.range (2 ^ nn)).filter (fun m => weight m = k)
      = (List.range' (2 ^ k - 1) (2 ^ nn - (2 ^ k - 1))).filter (fun m => weight m = k) := by
  have h2k : 2 ≤ 2 ^ k := by
    calc (2:Nat) = 2 ^ 1 := by norm_num
      _ ≤ 2 ^ k := Nat.pow_le_pow_right (by norm_num) hk1
  have h2kn : 2 ^ k ≤ 2 ^ nn := Nat.pow_le_pow_right (by norm_num) hkn
  have hsplit : List.range' 0 (2 ^ nn)
      = List.range' 0 (2 ^ k - 1) ++ List.range' (2 ^ k - 1) (2 ^ nn - (2 ^ k - 1)) := by
    have h := range'_split 0 (2 ^ k - 1) (2 ^ nn - (2 ^ k - 1))
    rw [Nat.zero_add] at h
    rw [← h]
    congr 1
    omega
  rw [List.range_eq_range', hsplit, List.filter_append,
      filter_range'_nil (2 ^ k - 1) 0 ?_, List.nil_append]
  intro m _ hm2
  simp only [decide_eq_false_iff_not]
  intro hwm
  have := weight_le_of_lt_pred (show m < 2 ^ k - 1 by omega)
  omega

theorem binComb_run_spec {nn k : Nat} (hn : nn ≤ 63) (hk1 : 1 ≤ k) (hkn : k ≤ nn) :
    BinComb.run nn k = .ok ((List.range (2 ^ nn)).filter (fun m => weight m = k)) := by
  have h2k : 2 ≤ 2 ^ k := by
    calc (2:Nat) = 2 ^ 1 := by norm_num
      _ ≤ 2 ^ k := Nat.pow_le_pow_right (by norm_num) hk1
  have h2kn : 2 ^ k ≤ 2 ^ nn := Nat.pow_le_pow_right (by norm_num) hkn
  have hstart : (1 <<< k) - 1 = 2 ^ k - 1 := by rw [Nat.shiftLeft_eq, one_mul]
  rw [BinComb.run, BinComb.new, hstart,
      binComb_runAux_spec nn k hn (2 ^ nn + 1) (2 ^ k - 1)
        (weight_two_pow_sub_one k) (by omega) (by omega) (by omega),
      filter_range_weight_split hk1 hkn]


theorem count_weight_filter : ∀ (n k : Nat),
    ((List.range (2 ^ n)).filter (fun m => weight m = k)).length = Nat.choose n k := by
  intro n
  induction n with
  | zero =>
    intro k
    rcases Nat.eq_zero_or_pos k with rfl | hk
    · rfl
    · obtain ⟨k', rfl⟩ : ∃ k', k = k' + 1 := ⟨k - 1, by omega⟩
      rfl
  | succ n ih =>
    intro k
    have hsplit : (2:Nat) ^ (n+1) = 2 ^ n + 2 ^ n := by
      rw [Nat.pow_succ]
      ring
    rw [hsplit, List.range_add, List.filter_append, List.length_append, ih k]
    have hmap : (((List.range (2 ^ n)).map (fun x => 2 ^ n + x)).filter
        (fun m => decide (weight m = k))).length
        = ((List.range (2 ^ n)).filter (fun x => decide (weight (2 ^ n + x) = k))).length := by
      rw [← List.countP_eq_length_filter, ← List.countP_eq_length_filter, List.countP_map]
      rfl
    have hcong : (List.range (2 ^ n)).filter (fun x => decide (weight (2 ^ n + x) = k))
        = (List.range (2 ^ n)).filter (fun x => decide (weight x + 1 = k)) := by
      apply List.filter_congr
      intro x hx
      rw [List.mem_range] at hx
      have h1 : weight (2 ^ n + x) = 1 + weight x := by
        have h2 := weight_mul_two_pow_add 1 n x hx
        rw [one_mul] at h2
        rw [h2]
        rfl
      rw [h1]
      congr 1
      rw [Nat.add_comm]
    rcases Nat.eq_zero_or_pos k with rfl | hk
    · have hnil : (List.range (2 ^ n)).filter (fun x => decide (weight x + 1 = 0)) = [] := by
        rw [List.range_eq_range']
        apply filter_range'_nil
        intro m _ _
        simp
      rw [hmap, hcong, hnil]
      simp
    · obtain ⟨k', rfl⟩ : ∃ k', k = k' + 1 := ⟨k - 1, by omega⟩
      have hcong2 : (List.range (2 ^ n)).filter (fun x => decide (weight x + 1 = k' + 1))
          = (List.range (2 ^ n)).filter (fun x => decide (weight x = k')) := by
        apply List.filter_congr
        intro x _
        congr 1
        simp
      rw [hmap, hcong, hcong2, ih k', Nat.choose_succ_succ]
      simp only [Nat.succ_eq_add_one]
      omega

theorem comb_fold (n r : Nat) : ∀ j, j ≤ r → r ≤ n →
    (List.range j).foldl (fun ans i => ans * (n - r + (i + 1)) / (i + 1)) 1
      = Nat.choose (n - r + j) j := by
  intro j
  induction j with
  | zero =>
    intro _ _
    simp
  | succ j ih =>
    intro hj hr
    rw [List.range_succ, List.foldl_append, List.foldl_cons, List.foldl_nil,
        ih (by omega) hr]
    have he : n - r + (j + 1) = (n - r + j) + 1 := by omega
    rw [he]
    have hs := Nat.succ_mul_choose_eq (n - r + j) j
    have hcomm : Nat.choose (n - r + j) j * ((n - r + j) + 1)
        = ((n - r + j) + 1) * Nat.choose (n - r + j) j := by ring
    rw [hcomm, hs, Nat.mul_div_cancel _ (by omega)]

theorem comb_eq_choose {n r : Nat} (hr : r ≤ n) : comb n r = Nat.choose n r := by
  by_cases hcase : r > n - r
  · have hR : comb n r = (List.range (n - r)).foldl
        (fun ans i => ans * (n - (n - r) + (i + 1)) / (i + 1)) 1 := by
      simp only [comb]
      rw [if_pos hcase]
    rw [hR, comb_fold n (n - r) (n - r) le_rfl (by omega),
        show n - (n - r) + (n - r) = n by omega]
    exact Nat.choose_symm hr
  · have hR : comb n r = (List.range r).foldl
        (fun ans i => ans * (n - r + (i + 1)) / (i + 1)) 1 := by
      simp only [comb]
      rw [if_neg hcase]
    rw [hR, comb_fold n r r le_rfl hr, show n - r + r = n by omega]


theorem filter_weight_head {nn k : Nat} (hk1 : 1 ≤ k) (hkn : k ≤ nn) :
    ((List.range (2 ^ nn)).filter (fun m => weight m = k)).getD 0 0 = 2 ^ k - 1 := by
  have h2k : 2 ≤ 2 ^ k := by
    calc (2:Nat) = 2 ^ 1 := by norm_num
      _ ≤ 2 ^ k := Nat.pow_le_pow_right (by norm_num) hk1
  have h2kn : 2 ^ k ≤ 2 ^ nn := Nat.pow_le_pow_right (by norm_num) hkn
  rw [filter_range_weight_split hk1 hkn,
      show 2 ^ nn - (2 ^ k - 1) = (2 ^ nn - (2 ^ k - 1) - 1) + 1 by omega, range'_cons,
      List.filter_cons, if_pos (by simp [weight_two_pow_sub_one])]
  rfl

/-- Counterexample to C5 as stated for every `n` and `k`: at `k = 0` the
enumerator's first `next()` call has `cur = 0`, the computed lowest set bit is
`0`, and `ones / lowbit` divides by zero (in a debug build `cur - 1` already
underflows); the embedding models the panic as an error, while `C(5, 0) = 1`
masks were claimed. -/
theorem C5_counterexample :
    BinComb.run 5 0 = .error "attempt to divide by zero" ∧ Nat.choose 5 0 = 1 :=
  ⟨rfl, rfl⟩

/-- C5 (amended): for `1 ≤ k ≤ n ≤ 63`, `BinComb::new(n, k)` yields exactly the
strictly increasing enumeration of all `n`-bit masks of popcount `k`: exactly
`C(n, k)` masks, pairwise increasing (hence distinct), each `< 2^n` with
popcount `k`, every such mask occurring, starting at `2^k - 1`; and
`comb(n, r) = C(n, r)` for all `r ≤ n`. -/
theorem C5_bincomb_comb (n k : Nat) (hk1 : 1 ≤ k) (hkn : k ≤ n) (hn : n ≤ 63) :
    ∃ L, BinComb.run n k = .ok L ∧
      L.length = Nat.choose n k ∧
      List.Pairwise (· < ·) L ∧
      (∀ m ∈ L, m < 2 ^ n ∧ weight m = k) ∧
      (∀ m, m < 2 ^ n → weight m = k → m ∈ L) ∧
      L.getD 0 0 = 2 ^ k - 1 ∧
      (∀ r, r ≤ n → comb n r = Nat.choose n r) := by
  refine ⟨(List.range (2 ^ n)).filter (fun m => weight m = k),
    binComb_run_spec hn hk1 hkn, count_weight_filter n k, ?_, ?_, ?_,
    filter_weight_head hk1 hkn, fun r hr => comb_eq_choose hr⟩
  · exact (List.pairwise_lt_range _).sublist (List.filter_sublist _)
  · intro m hm
    rw [List.mem_filter] at hm
    refine ⟨List.mem_range.mp hm.1, by simpa using hm.2⟩
  · intro m hm hw
    rw [List.mem_filter]
    exact ⟨List.mem_range.mpr hm, by simp [hw]⟩

/-- Witness for C5 at `n = 5`, `k = 2`. -/
theorem C5_witness :
    ∃ L, BinComb.run 5 2 = .ok L ∧
      L.length = Nat.choose 5 2 ∧
      List.Pairwise (· < ·) L ∧
      (∀ m ∈ L, m < 2 ^ 5 ∧ weight m = 2) ∧
      (∀ m, m < 2 ^ 5 → weight m = 2 → m ∈ L) ∧
      L.getD 0 0 = 2 ^ 2 - 1 ∧
      (∀ r, r ≤ 5 → comb 5 r = Nat.choose 5 r) :=
  C5_bincomb_comb 5 2 (by decide) (by decide) (by decide)


/-! ### C3: the Walsh–Hadamard spectrum length and coefficient at `0` -/

theorem walsh_fold_length (is : List Nat) : ∀ (v : List Int),
    (is.foldl (fun v i => whStep (2 ^ i) v) v).length = v.length := by
  induction is with
  | nil =>
    intro v
    rfl
  | cons i is ih =>
    intro v
    rw [List.foldl_cons, ih, whStep_length]

def blockSum (v : List Int) (t m : Nat) : Int :=
  ((List.range (2 ^ m)).map (fun y => v.getD (t + y) 0)).sum

theorem blockSum_succ (v : List Int) (t m : Nat) :
    blockSum v t (m+1) = blockSum v t m + blockSum v (t + 2 ^ m) m := by
  have h : (2:Nat) ^ (m+1) = 2 ^ m + 2 ^ m := by
    rw [Nat.pow_succ]
    ring
  rw [blockSum, blockSum, blockSum, h, List.range_add, List.map_append, List.sum_append]
  congr 1
  rw [List.map_map]
  apply congrArg
  apply List.map_congr_left
  intro y _
  simp only [Function.comp_apply]
  apply congrArg (fun z => List.getD v z 0) ?_
  omega

theorem walsh_fold_blockSum (n : Nat) (cv : List Int) (hlen : cv.length = 2 ^ n) :
    ∀ m, m ≤ n → ∀ t, t < 2 ^ n → 2 ^ m ∣ t →
      ((List.range m).foldl (fun v i => whStep (2 ^ i) v) cv).getD t 0 = blockSum cv t m := by
  intro m
  induction m with
  | zero =>
    intro _ t _ _
    rw [List.range_zero, List.foldl_nil, blockSum, pow_zero,
        show List.range 1 = [0] from rfl,
        List.map_cons, List.map_nil, List.sum_cons, List.sum_nil, Nat.add_zero, add_zero]
  | succ m ih =>
    intro hm t ht hdvd
    rw [List.range_succ, List.foldl_append, List.foldl_cons, List.foldl_nil]
    set W := (List.range m).foldl (fun v i => whStep (2 ^ i) v) cv with hW
    have hWlen : W.length = 2 ^ n := by
      rw [hW, walsh_fold_length, hlen]
    have hmn : m < n := by omega
    rw [whStep_getD m n hmn W hWlen t (by rw [hWlen]; omega)]
    have hps : (2:Nat) ^ (m+1) = 2 ^ m * 2 := pow_succ 2 m
    have hpar : (t / 2 ^ m) % 2 = 0 := by
      obtain ⟨q, rfl⟩ := hdvd
      have h1 : 2 ^ (m+1) * q = 2 ^ m * (2 * q) := by
        rw [hps]
        ring
      rw [h1, Nat.mul_div_cancel_left _ (Nat.pos_pow_of_pos _ (by norm_num))]
      omega
    rw [if_neg (by omega)]
    have hd1 : (2:Nat) ^ m ∣ t := dvd_trans (pow_dvd_pow 2 (by omega)) hdvd
    have h1 := ih (by omega) t ht hd1
    have ht2 : t + 2 ^ m < 2 ^ n := by
      obtain ⟨q, hq⟩ := hdvd
      have hql : q < 2 ^ (n - (m+1)) := by
        by_contra hc
        have h2 : 2 ^ (m+1) * 2 ^ (n - (m+1)) ≤ 2 ^ (m+1) * q :=
          Nat.mul_le_mul_left _ (by omega)
        rw [← pow_add] at h2
        rw [show m + 1 + (n - (m+1)) = n by omega] at h2
        omega
      have h2 : 2 ^ (m+1) * (q+1) ≤ 2 ^ (m+1) * 2 ^ (n - (m+1)) :=
        Nat.mul_le_mul_left _ (by omega)
      rw [← pow_add, show m + 1 + (n - (m+1)) = n by omega] at h2
      have hmul : 2 ^ (m+1) * (q+1) = 2 ^ (m+1) * q + 2 ^ (m+1) := by ring
      omega
    have hd2 : (2:Nat) ^ m ∣ t + 2 ^ m := dvd_add hd1 (dvd_refl _)
    have h2 := ih (by omega) (t + 2 ^ m) ht2 hd2
    rw [h1, h2, ← blockSum_succ]

theorem sum_bits_weight : ∀ (B v : Nat), v < 2 ^ B →
    ((List.range B).map (fun b => (v >>> b) &&& 1)).sum = weight v := by
  intro B
  induction B with
  | zero =>
    intro v hv
    interval_cases v
    rfl
  | succ B ih =>
    intro v hv
    rw [show B + 1 = 1 + B by omega, List.range_add, List.map_append, List.sum_append,
        List.map_map]
    have h1 : ((List.range 1).map (fun b => (v >>> b) &&& 1)).sum = v % 2 := by
      rw [show List.range 1 = [0] from rfl, List.map_cons, List.map_nil, List.sum_cons,
          List.sum_nil, Nat.shiftRight_zero, Nat.and_one_is_mod, Nat.add_zero]
    have h2 : ((List.range B).map ((fun b => (v >>> b) &&& 1) ∘ (fun x => 1 + x))).sum
        = ((List.range B).map (fun b => ((v / 2) >>> b) &&& 1)).sum := by
      apply congrArg
      apply List.map_congr_left
      intro b _
      simp only [Function.comp_apply]
      rw [Nat.shiftRight_add, Nat.shiftRight_one]
    have hd : v / 2 < 2 ^ B := by
      have hp : (2:Nat) ^ (B+1) = 2 ^ B * 2 := pow_succ 2 B
      omega
    rw [h1, h2, ih (v/2) hd, weight_div2 v]
    omega


theorem eval_zero_or_one (f : BF) (x : Nat) : f.eval x = 0 ∨ f.eval x = 1 := by
  rw [BF.eval, Nat.and_one_is_mod]
  omega

theorem evalSum_lane (f : BF) (hwf : Wf f) (q : Nat) :
    ((List.range (2 ^ 7)).map (fun b => f.eval (q * 2 ^ 7 + b))).sum
      = weight (f.values.getD q 0) := by
  have hW2 : W2 = 2 ^ 2 ^ 7 := rfl
  have hcong : ((List.range (2 ^ 7)).map (fun b => f.eval (q * 2 ^ 7 + b)))
      = ((List.range (2 ^ 7)).map (fun b => (f.values.getD q 0 >>> b) &&& 1)) := by
    apply List.map_congr_left
    intro b hb
    rw [List.mem_range] at hb
    rw [BF.eval, div_ws_eq, mod_ws_eq, show (q * 2 ^ 7 + b) / 2 ^ 7 = q by omega,
        show (q * 2 ^ 7 + b) % 2 ^ 7 = b by omega]
  rw [hcong]
  exact sum_bits_weight (2 ^ 7) _ (hW2 ▸ hwf.lanesLt q)

theorem evalSum_lanes (f : BF) (hwf : Wf f) : ∀ q, q ≤ f.values.length →
    ((List.range (q * 2 ^ 7)).map f.eval).sum = ((f.values.take q).map weight).sum := by
  intro q
  induction q with
  | zero =>
    intro _
    simp
  | succ q ih =>
    intro hq
    have hlt : q < f.values.length := by omega
    have hsplit : (q+1) * 2 ^ 7 = q * 2 ^ 7 + 2 ^ 7 := by ring
    rw [hsplit, List.range_add, List.map_append, List.sum_append, ih (by omega), List.map_map]
    have hinner : ((List.range (2 ^ 7)).map (f.eval ∘ (fun x => q * 2 ^ 7 + x))).sum
        = weight (f.values.getD q 0) := evalSum_lane f hwf q
    have htake : f.values.take (q+1) = f.values.take q ++ [f.values.get ⟨q, hlt⟩] := by
      rw [List.take_succ, List.getElem?_eq_getElem hlt]
      rfl
    rw [hinner, htake, List.map_append, List.sum_append, List.map_cons, List.map_nil,
        List.sum_cons, List.sum_nil]
    have hg : f.values.getD q 0 = f.values.get ⟨q, hlt⟩ := List.getD_eq_getElem f.values 0 hlt
    rw [hg]
    omega

theorem evalSum_eq_weight (f : BF) (hwf : Wf f) :
    ((List.range (2 ^ f.args_amount)).map f.eval).sum = BF.weight f := by
  have hlen := hwf.2.1
  rw [BF.weight, foldl_weight_eq_sum]
  rcases Nat.lt_or_ge f.args_amount 7 with h7 | h7
  · have hlen1 : f.values.length = 1 := by
      rw [hlen, div_ws_ceil_pow2_of_lt _ h7]
    have hlane : f.values.getD 0 0 < 2 ^ 2 ^ f.args_amount := by
      apply Nat.lt_pow_two_of_testBit
      intro i hi
      rcases Nat.lt_or_ge i (2 ^ 7) with hi7 | hi7
      · have hp := hwf.padding i (by rw [pow2_eq]; omega)
        rw [evalBit, show i / 2 ^ 7 = 0 by omega, show i % 2 ^ 7 = i by omega] at hp
        exact hp
      · apply Nat.testBit_lt_two_pow
        have hW := hwf.lanesLt 0
        have h2 : W2 ≤ 2 ^ i := by
          rw [show W2 = 2 ^ 128 from rfl]
          exact Nat.pow_le_pow_right (by norm_num) (by omega)
        omega
    have hcong : (List.range (2 ^ f.args_amount)).map f.eval
        = (List.range (2 ^ f.args_amount)).map (fun b => (f.values.getD 0 0 >>> b) &&& 1) := by
      apply List.map_congr_left
      intro b hb
      rw [List.mem_range] at hb
      have hb128 : b < 2 ^ 7 := by
        have h1 : (2:Nat) ^ f.args_amount ≤ 2 ^ 7 := Nat.pow_le_pow_right (by norm_num) (by omega)
        omega
      rw [BF.eval, div_ws_eq, mod_ws_eq, show b / 2 ^ 7 = 0 by omega,
          show b % 2 ^ 7 = b by omega]
    rw [hcong, sum_bits_weight _ _ hlane]
    obtain ⟨v, hv⟩ := List.length_eq_one.mp hlen1
    rw [hv]
    simp
  · have hlenL : f.values.length = 2 ^ (f.args_amount - 7) := by
      rw [hlen, div_ws_ceil_pow2_of_ge _ h7]
    have hfull : f.values.length * 2 ^ 7 = 2 ^ f.args_amount := by
      rw [hlenL, Nat.mul_comm]
      exact pow_sub_seven _ h7
    have h := evalSum_lanes f hwf f.values.length le_rfl
    rw [hfull] at h
    rw [h, List.take_length]

theorem sum_one_sub_two (g : Nat → Nat) : ∀ (L : List Nat),
    (L.map (fun y => (1 : Int) - 2 * (g y : Int))).sum
      = (L.length : Int) - 2 * ((L.map g).sum : Int) := by
  intro L
  induction L with
  | nil => simp
  | cons a L ih =>
    rw [List.map_cons, List.sum_cons, ih, List.map_cons, List.sum_cons, List.length_cons]
    push_cast
    ring

theorem walsh_pow2_fold :
    (fun (v : List Int) (i : Nat) => whStep (pow2 i) v) = (fun v i => whStep (2 ^ i) v) := by
  funext v i
  rw [pow2_eq]

theorem walsh_length (f : BF) : (BF.walsh_adamar f).length = 2 ^ f.args_amount := by
  simp only [BF.walsh_adamar]
  rw [walsh_pow2_fold, walsh_fold_length, List.length_map, List.length_range, pow2_eq]

theorem walsh_getD_zero (f : BF) (hwf : Wf f) :
    (BF.walsh_adamar f).getD 0 0 = (2 ^ f.args_amount : Int) - 2 * (BF.weight f : Int) := by
  simp only [BF.walsh_adamar]
  rw [walsh_pow2_fold]
  set cv := (List.range (pow2 f.args_amount)).map
    (fun arg => match f.eval arg with
      | 0 => (1 : Int)
      | _ => -1) with hcv
  have hcvlen : cv.length = 2 ^ f.args_amount := by
    rw [hcv, List.length_map, List.length_range, pow2_eq]
  rw [walsh_fold_blockSum f.args_amount cv hcvlen f.args_amount le_rfl 0
      (Nat.pos_pow_of_pos _ (by norm_num)) (dvd_zero _)]
  have hcv_getD : ∀ y, y < 2 ^ f.args_amount → cv.getD y 0 = 1 - 2 * (f.eval y : Int) := by
    intro y hy
    rw [hcv, List.getD_eq_getElem?_getD, List.getElem?_map,
        List.getElem?_range (by rw [pow2_eq]; exact hy)]
    show (match f.eval y with
      | 0 => (1 : Int)
      | _ => -1) = 1 - 2 * (f.eval y : Int)
    rcases eval_zero_or_one f y with h | h
    · simp only [h]
      norm_num
    · simp only [h]
      norm_num
  rw [blockSum]
  have hcong : (List.range (2 ^ f.args_amount)).map (fun y => cv.getD (0 + y) 0)
      = (List.range (2 ^ f.args_amount)).map (fun y => (1 : Int) - 2 * (f.eval y : Int)) := by
    apply List.map_congr_left
    intro y hy
    rw [List.mem_range] at hy
    rw [Nat.zero_add, hcv_getD y hy]
  rw [hcong, sum_one_sub_two f.eval, evalSum_eq_weight f hwf, List.length_range]
  push_cast
  ring


/-- C3: `walsh_adamar` returns a signed vector of length `2^n` whose
coefficient at index `0` is `2^n - 2 * weight f`; in particular
`parse "0110"` gives `[0, 0, 0, 4]` and `one 3` gives `[-8, 0, ..., 0]`. -/
theorem C3_walsh_adamar (f : BF) (hwf : Wf f) :
    (BF.walsh_adamar f).length = 2 ^ f.args_amount ∧
    (BF.walsh_adamar f).getD 0 0 = (2 ^ f.args_amount : Int) - 2 * (BF.weight f : Int) ∧
    (BF.from_str ['0','1','1','0']).map BF.walsh_adamar = .ok [0, 0, 0, 4] ∧
    (BF.one 3).map BF.walsh_adamar = .ok [-8, 0, 0, 0, 0, 0, 0, 0] :=
  ⟨walsh_length f, walsh_getD_zero f hwf, by rfl, by rfl⟩

/-- Witness for C3 at the function parsed from `0110` (lane `6`, two
arguments). -/
theorem C3_witness :
    (BF.walsh_adamar { values := [6], args_amount := 2 }).length =
        2 ^ ({ values := [6], args_amount := 2 } : BF).args_amount ∧
    (BF.walsh_adamar { values := [6], args_amount := 2 }).getD 0 0 =
        (2 ^ ({ values := [6], args_amount := 2 } : BF).args_amount : Int) -
          2 * (BF.weight { values := [6], args_amount := 2 } : Int) ∧
    (BF.from_str ['0','1','1','0']).map BF.walsh_adamar = .ok [0, 0, 0, 4] ∧
    (BF.one 3).map BF.walsh_adamar = .ok [-8, 0, 0, 0, 0, 0, 0, 0] :=
  C3_walsh_adamar { values := [6], args_amount := 2 } (by decide)


/-! ### C6: the correlation-immunity order -/

theorem getD_replicate_int {c : Nat} {a : Int} {q : Nat} :
    (List.replicate c a).getD q 0 = if q < c then a else 0 := by
  rcases Nat.lt_or_ge q c with hq | hq
  · rw [List.getD_eq_getElem?_getD, List.getElem?_replicate, if_pos hq, if_pos hq]
    rfl
  · rw [List.getD_eq_getElem?_getD, List.getElem?_eq_none (by simpa using hq),
        if_neg (by omega)]
    rfl

theorem walsh_fold_const (n : Nat) (c : Int) : ∀ m, m ≤ n → ∀ x, x < 2 ^ n →
    ((List.range m).foldl (fun v i => whStep (2 ^ i) v) (List.replicate (2 ^ n) c)).getD x 0
      = if 2 ^ m ∣ x then c * 2 ^ m else 0 := by
  intro m
  induction m with
  | zero =>
    intro _ x hx
    rw [List.range_zero, List.foldl_nil,
        if_pos (show (2:Nat) ^ 0 ∣ x by rw [pow_zero]; exact one_dvd x)]
    rw [getD_replicate_int, if_pos hx, pow_zero, mul_one]
  | succ m ih =>
    intro hm x hx
    rw [List.range_succ, List.foldl_append, List.foldl_cons, List.foldl_nil]
    set W := (List.range m).foldl (fun v i => whStep (2 ^ i) v) (List.replicate (2 ^ n) c)
      with hW
    have hWlen : W.length = 2 ^ n := by
      rw [hW, walsh_fold_length, List.length_replicate]
    have hmn : m < n := by omega
    have hWval := ih (by omega)
    rw [whStep_getD m n hmn W hWlen x (by rw [hWlen]; exact hx)]
    have hps : (2:Nat) ^ (m+1) = 2 ^ m * 2 := pow_succ 2 m
    have h2m : 0 < (2:Nat) ^ m := Nat.pos_pow_of_pos _ (by norm_num)
    by_cases hpar : (x / 2 ^ m) % 2 = 1
    · rw [if_pos hpar]
      by_cases hdvd : 2 ^ m ∣ x
      · obtain ⟨q, rfl⟩ := hdvd
        have hq : q % 2 = 1 := by
          rw [Nat.mul_div_cancel_left _ h2m] at hpar
          exact hpar
        have h1 : 2 ^ m * q = 2 ^ m * (q - 1) + 2 ^ m := by
          have h3 : q = (q - 1) + 1 := by omega
          calc 2 ^ m * q = 2 ^ m * ((q - 1) + 1) := by rw [← h3]
            _ = 2 ^ m * (q - 1) + 2 ^ m := by ring
        have hxs : 2 ^ m * q - 2 ^ m = 2 ^ m * (q - 1) := by omega
        have hlt2 : 2 ^ m * (q - 1) < 2 ^ n := by omega
        rw [hxs, hWval (2 ^ m * (q - 1)) hlt2, hWval (2 ^ m * q) hx,
            if_pos (Dvd.intro q rfl), if_pos (Dvd.intro (q-1) rfl), if_neg ?_]
        · ring
        · rintro ⟨r, hr⟩
          rw [hps] at hr
          have hqe : q = 2 * r := by
            have h2 : 2 ^ m * q = 2 ^ m * (2 * r) := by
              rw [hr]
              ring
            exact Nat.eq_of_mul_eq_mul_left h2m h2
          omega
      · have hxge : 2 ^ m ≤ x := by
          by_contra hcon
          rw [Nat.div_eq_of_lt (by omega)] at hpar
          omega
        have hnd2 : ¬ 2 ^ m ∣ x - 2 ^ m := by
          intro hd
          apply hdvd
          obtain ⟨r, hr⟩ := hd
          refine ⟨r + 1, ?_⟩
          have h2 : 2 ^ m * (r + 1) = 2 ^ m * r + 2 ^ m := by ring
          omega
        rw [hWval (x - 2 ^ m) (by omega), hWval x hx, if_neg hnd2, if_neg hdvd, if_neg ?_]
        · ring
        · intro hd
          exact hdvd (dvd_trans (pow_dvd_pow 2 (by omega)) hd)
    · rw [if_neg hpar]
      have hpar0 : (x / 2 ^ m) % 2 = 0 := by omega
      have hDlt : x / 2 ^ m < 2 ^ (n - m) := by
        by_contra hcon
        have h2 : 2 ^ m * 2 ^ (n - m) ≤ 2 ^ m * (x / 2 ^ m) :=
          Nat.mul_le_mul_left _ (by omega)
        rw [← pow_add, show m + (n - m) = n by omega] at h2
        have h3 : x / 2 ^ m * 2 ^ m ≤ x := Nat.div_mul_le_self x (2 ^ m)
        have h4 : 2 ^ m * (x / 2 ^ m) = x / 2 ^ m * 2 ^ m := by ring
        omega
      have heven : 2 ^ (n - m) % 2 = 0 := by
        have h1 : (2:Nat) ^ (n - m) = 2 ^ (n - m - 1) * 2 := by
          rw [← Nat.pow_succ]
          congr 1
          omega
        omega
      have hmod := Nat.div_add_mod x (2 ^ m)
      have hmlt : x % 2 ^ m < 2 ^ m := Nat.mod_lt _ h2m
      have hD2 : x / 2 ^ m + 2 ≤ 2 ^ (n - m) := by omega
      have hlt2 : x + 2 ^ m < 2 ^ n := by
        have h4 : 2 ^ m * (x / 2 ^ m + 2) ≤ 2 ^ m * 2 ^ (n - m) :=
          Nat.mul_le_mul_left _ hD2
        rw [← pow_add, show m + (n - m) = n by omega] at h4
        have h5 : 2 ^ m * (x / 2 ^ m + 2) = 2 ^ m * (x / 2 ^ m) + 2 ^ m + 2 ^ m := by ring
        omega
      by_cases hdvd : 2 ^ m ∣ x
      · obtain ⟨q, rfl⟩ := hdvd
        have hq : q % 2 = 0 := by
          rw [Nat.mul_div_cancel_left _ h2m] at hpar0
          exact hpar0
        have hsum : 2 ^ m * q + 2 ^ m = 2 ^ m * (q + 1) := by ring
        rw [hsum, hWval (2 ^ m * q) hx, hWval (2 ^ m * (q + 1)) (by omega),
            if_pos (Dvd.intro q rfl), if_pos (Dvd.intro (q+1) rfl), if_pos ?_]
        · ring
        · obtain ⟨r, hr⟩ : ∃ r, q = 2 * r := ⟨q / 2, by omega⟩
          refine ⟨r, ?_⟩
          rw [hr, hps]
          ring
      · have hnd2 : ¬ 2 ^ m ∣ x + 2 ^ m := by
          intro hd
          apply hdvd
          obtain ⟨r, hr⟩ := hd
          have hrpos : 1 ≤ r := by
            by_contra hcon
            have hr0 : r = 0 := by omega
            rw [hr0] at hr
            omega
          refine ⟨r - 1, ?_⟩
          have h2 : 2 ^ m * r = 2 ^ m * (r - 1) + 2 ^ m := by
            have h3 : r = (r - 1) + 1 := by omega
            calc 2 ^ m * r = 2 ^ m * ((r - 1) + 1) := by rw [← h3]
              _ = 2 ^ m * (r - 1) + 2 ^ m := by ring
          omega
        rw [hWval x hx, hWval (x + 2 ^ m) hlt2, if_neg hdvd, if_neg hnd2, if_neg ?_]
        · ring
        · intro hd
          exact hdvd (dvd_trans (pow_dvd_pow 2 (by omega)) hd)

theorem walsh_getD_const (f : BF) (c0 : Int)
    (hcv : (List.range (pow2 f.args_amount)).map
        (fun arg => match f.eval arg with
          | 0 => (1 : Int)
          | _ => -1) = List.replicate (2 ^ f.args_amount) c0) :
    ∀ x, x < 2 ^ f.args_amount →
      (BF.walsh_adamar f).getD x 0 =
        if 2 ^ f.args_amount ∣ x then c0 * 2 ^ f.args_amount else 0 := by
  intro x hx
  simp only [BF.walsh_adamar]
  rw [walsh_pow2_fold, hcv]
  exact walsh_fold_const f.args_amount c0 f.args_amount le_rfl x hx


theorem one_eval {n : Nat} (h1 : 1 ≤ n) {f : BF} (hok : BF.one n = .ok f) :
    ∀ x, x < 2 ^ n → f.eval x = 1 := by
  intro x hx
  rcases Nat.lt_or_ge n 7 with h7 | h7
  · rw [one_ok_lt n h1 h7] at hok
    cases hok
    have hx128 : x < 2 ^ 7 := by
      have h2 : (2:Nat) ^ n ≤ 2 ^ 7 := Nat.pow_le_pow_right (by norm_num) (by omega)
      omega
    rw [eval_eq_evalBit]
    show (if evalBit [2 ^ 2 ^ n - 1] x then 1 else 0) = 1
    rw [evalBit, show x / 2 ^ 7 = 0 by omega, show x % 2 ^ 7 = x by omega]
    show (if ((2:Nat) ^ 2 ^ n - 1).testBit x then 1 else 0) = 1
    rw [Nat.testBit_two_pow_sub_one]
    simp [hx]
  · rw [one_ok_ge n h7] at hok
    cases hok
    have hlanes : x / 2 ^ 7 < 2 ^ (n - 7) := by
      by_contra hcon
      have h2 : 2 ^ 7 * 2 ^ (n - 7) ≤ 2 ^ 7 * (x / 2 ^ 7) := Nat.mul_le_mul_left _ (by omega)
      rw [pow_sub_seven n h7] at h2
      have h3 : x / 2 ^ 7 * 2 ^ 7 ≤ x := Nat.div_mul_le_self x (2 ^ 7)
      have h4 : 2 ^ 7 * (x / 2 ^ 7) = x / 2 ^ 7 * 2 ^ 7 := by ring
      omega
    rw [eval_eq_evalBit]
    show (if evalBit (List.replicate (2 ^ (n - 7)) (W2 - 1)) x then 1 else 0) = 1
    rw [evalBit, getD_replicate, if_pos hlanes]
    show (if ((2:Nat) ^ 128 - 1).testBit (x % 2 ^ 7) then 1 else 0) = 1
    rw [Nat.testBit_two_pow_sub_one, if_pos (by rw [decide_eq_true_eq]; omega)]

theorem one_char_vec {n : Nat} (h1 : 1 ≤ n) {f : BF} (hok : BF.one n = .ok f) :
    (List.range (pow2 f.args_amount)).map
        (fun arg => match f.eval arg with
          | 0 => (1 : Int)
          | _ => -1) = List.replicate (2 ^ f.args_amount) (-1) := by
  have hargs : f.args_amount = n := by
    rcases Nat.lt_or_ge n 7 with h7 | h7
    · rw [one_ok_lt n h1 h7] at hok
      cases hok
      rfl
    · rw [one_ok_ge n h7] at hok
      cases hok
      rfl
  apply List.eq_replicate.mpr
  constructor
  · rw [List.length_map, List.length_range, pow2_eq]
  · intro b hb
    rw [List.mem_map] at hb
    obtain ⟨arg, harg, hbe⟩ := hb
    rw [List.mem_range, pow2_eq, hargs] at harg
    rw [← hbe, one_eval h1 hok arg harg]

theorem zero_char_vec {n : Nat} (h1 : 1 ≤ n) {f : BF} (hok : BF.zero n = .ok f) :
    (List.range (pow2 f.args_amount)).map
        (fun arg => match f.eval arg with
          | 0 => (1 : Int)
          | _ => -1) = List.replicate (2 ^ f.args_amount) 1 := by
  rw [zero_ok n h1] at hok
  cases hok
  apply List.eq_replicate.mpr
  constructor
  · rw [List.length_map, List.length_range, pow2_eq]
  · intro b hb
    rw [List.mem_map] at hb
    obtain ⟨arg, _, hbe⟩ := hb
    simp only [eval_replicate_zero] at hbe
    exact hbe.symm

theorem corAux_cons (wac : List Int) (nn k : Nat) (ks : List Nat) (L : List Nat)
    (hrun : BinComb.run nn k = .ok L) :
    corAux wac nn (k :: ks) =
      if L.any (fun c => wac.getD c 0 ≠ 0) then .ok (k - 1) else corAux wac nn ks := by
  rw [corAux, hrun]

theorem corAux_spec (wac : List Int) (nn : Nat) (hn : nn ≤ 63) :
    ∀ len k0, 1 ≤ k0 → k0 + len = nn + 1 →
      ∃ r, corAux wac nn (List.range' k0 len) = .ok r ∧
        ((r = nn ∧ ∀ k, k0 ≤ k → k ≤ nn →
            ∀ c, c < 2 ^ nn → weight c = k → wac.getD c 0 = 0) ∨
         (k0 ≤ r + 1 ∧ r + 1 ≤ nn ∧
            (∃ c, c < 2 ^ nn ∧ weight c = r + 1 ∧ wac.getD c 0 ≠ 0) ∧
            ∀ k, k0 ≤ k → k ≤ r →
              ∀ c, c < 2 ^ nn → weight c = k → wac.getD c 0 = 0)) := by
  intro len
  induction len with
  | zero =>
    intro k0 hk0 hsum
    refine ⟨nn, rfl, Or.inl ⟨rfl, ?_⟩⟩
    intro k hk1 hk2
    exfalso
    omega
  | succ len ih =>
    intro k0 hk0 hsum
    have hk0n : k0 ≤ nn := by omega
    rw [range'_cons, corAux_cons wac nn k0 _ _ (binComb_run_spec hn hk0 hk0n)]
    by_cases hany : ((List.range (2 ^ nn)).filter (fun m => weight m = k0)).any
        (fun c => wac.getD c 0 ≠ 0)
    · rw [if_pos hany]
      rw [List.any_eq_true] at hany
      obtain ⟨c, hc, hcp⟩ := hany
      rw [List.mem_filter, List.mem_range] at hc
      refine ⟨k0 - 1, rfl, Or.inr ⟨by omega, by omega, ⟨c, hc.1, ?_, ?_⟩, ?_⟩⟩
      · have := hc.2
        simp only [decide_eq_true_eq] at this
        omega
      · simp only [decide_eq_true_eq] at hcp
        exact hcp
      · intro k hka hkb
        exfalso
        omega
    · rw [if_neg hany]
      obtain ⟨r, hres, hcase⟩ := ih (k0 + 1) (by omega) (by omega)
      have hlow : ∀ c, c < 2 ^ nn → weight c = k0 → wac.getD c 0 = 0 := by
        intro c hc hw
        by_contra hcon
        apply hany
        rw [List.any_eq_true]
        refine ⟨c, ?_, by simp only [decide_eq_true_eq]; exact hcon⟩
        rw [List.mem_filter, List.mem_range]
        exact ⟨hc, by simp only [decide_eq_true_eq]; exact hw⟩
      refine ⟨r, hres, ?_⟩
      rcases hcase with ⟨hr, hall⟩ | ⟨hra, hrb, hex, hall⟩
      · refine Or.inl ⟨hr, ?_⟩
        intro k hka hkb c hc hw
        rcases Nat.eq_or_lt_of_le hka with he | hlt
        · exact hlow c hc (by omega)
        · exact hall k (by omega) hkb c hc hw
      · refine Or.inr ⟨by omega, hrb, hex, ?_⟩
        intro k hka hkb c hc hw
        rcases Nat.eq_or_lt_of_le hka with he | hlt
        · exact hlow c hc (by omega)
        · exact hall k (by omega) hkb c hc hw


theorem one_args {n : Nat} (h1 : 1 ≤ n) {f : BF} (hok : BF.one n = .ok f) :
    f.args_amount = n := by
  rcases Nat.lt_or_ge n 7 with h7 | h7
  · rw [one_ok_lt n h1 h7] at hok
    cases hok
    rfl
  · rw [one_ok_ge n h7] at hok
    cases hok
    rfl

theorem zero_args {n : Nat} (h1 : 1 ≤ n) {f : BF} (hok : BF.zero n = .ok f) :
    f.args_amount = n := by
  rw [zero_ok n h1] at hok
  cases hok
  rfl

theorem cor_one {n : Nat} (h1 : 1 ≤ n) (h63 : n ≤ 63) {g : BF} (hok : BF.one n = .ok g) :
    BF.cor g = .ok n := by
  have hargs : g.args_amount = n := one_args h1 hok
  obtain ⟨r, hres, hcase⟩ := corAux_spec g.walsh_adamar g.args_amount (by omega)
    g.args_amount 1 (by norm_num) (by omega)
  rw [BF.cor]
  rcases hcase with ⟨hr, _⟩ | ⟨_, hrb, ⟨c, hc, hwc, hne⟩, _⟩
  · rw [hres, hr, hargs]
  · exfalso
    apply hne
    have hc0 : c ≠ 0 := by
      intro h0
      rw [h0, weight_zero] at hwc
      omega
    have hnd : ¬ (2 ^ g.args_amount ∣ c) := by
      intro hd
      have := Nat.le_of_dvd (by omega) hd
      omega
    rw [walsh_getD_const g (-1) (one_char_vec h1 hok) c hc, if_neg hnd]

theorem cor_zero {n : Nat} (h1 : 1 ≤ n) (h63 : n ≤ 63) {g : BF} (hok : BF.zero n = .ok g) :
    BF.cor g = .ok n := by
  have hargs : g.args_amount = n := zero_args h1 hok
  obtain ⟨r, hres, hcase⟩ := corAux_spec g.walsh_adamar g.args_amount (by omega)
    g.args_amount 1 (by norm_num) (by omega)
  rw [BF.cor]
  rcases hcase with ⟨hr, _⟩ | ⟨_, hrb, ⟨c, hc, hwc, hne⟩, _⟩
  · rw [hres, hr, hargs]
  · exfalso
    apply hne
    have hc0 : c ≠ 0 := by
      intro h0
      rw [h0, weight_zero] at hwc
      omega
    have hnd : ¬ (2 ^ g.args_amount ∣ c) := by
      intro hd
      have := Nat.le_of_dvd (by omega) hd
      omega
    rw [walsh_getD_const g 1 (zero_char_vec h1 hok) c hc, if_neg hnd]

/-- C6: `cor` returns `k - 1` for the smallest `k ∈ 1..=n` such that some
`n`-bit mask of popcount `k` has a nonzero Walsh coefficient, and `n` when no
such `k` exists; `one(n).cor = n`, `zero(n).cor = n`, and
`parse("01101001").cor = 2`.  The bound `n ≤ 63` reflects the 64-bit `usize`
arithmetic of the mask enumerator. -/
theorem C6_cor (f : BF) (hwf : Wf f) (h63 : f.args_amount ≤ 63) :
    (∃ r, BF.cor f = .ok r ∧ r ≤ f.args_amount ∧
      (∀ k, 1 ≤ k → k ≤ r → ∀ c, c < 2 ^ f.args_amount → weight c = k →
        (BF.walsh_adamar f).getD c 0 = 0) ∧
      (r < f.args_amount → ∃ c, c < 2 ^ f.args_amount ∧ weight c = r + 1 ∧
        (BF.walsh_adamar f).getD c 0 ≠ 0)) ∧
    (∀ n, 1 ≤ n → n ≤ 63 → ∀ g, BF.one n = .ok g → BF.cor g = .ok n) ∧
    (∀ n, 1 ≤ n → n ≤ 63 → ∀ g, BF.zero n = .ok g → BF.cor g = .ok n) ∧
    (BF.from_str ['0','1','1','0','1','0','0','1']).map BF.cor = .ok (.ok 2) := by
  have hn := hwf.1
  refine ⟨?_, fun n a b g hok => cor_one a b hok, fun n a b g hok => cor_zero a b hok, by rfl⟩
  obtain ⟨r, hres, hcase⟩ := corAux_spec f.walsh_adamar f.args_amount h63
    f.args_amount 1 (by norm_num) (by omega)
  refine ⟨r, ?_, ?_, ?_, ?_⟩
  · rw [BF.cor]
    exact hres
  · rcases hcase with ⟨hr, _⟩ | ⟨_, hrb, _, _⟩ <;> omega
  · intro k hk1 hk2 c hc hw
    rcases hcase with ⟨hr, hall⟩ | ⟨hra, hrb, hex, hall⟩
    · exact hall k hk1 (by omega) c hc hw
    · exact hall k hk1 hk2 c hc hw
  · intro hrlt
    rcases hcase with ⟨hr, hall⟩ | ⟨hra, hrb, hex, hall⟩
    · exact absurd hrlt (by omega)
    · exact hex

/-- Witness for C6 at the one-argument zero function. -/
theorem C6_witness :
    (∃ r, BF.cor { values := [0], args_amount := 1 } = .ok r ∧
      r ≤ ({ values := [0], args_amount := 1 } : BF).args_amount ∧
      (∀ k, 1 ≤ k → k ≤ r →
        ∀ c, c < 2 ^ ({ values := [0], args_amount := 1 } : BF).args_amount → weight c = k →
        (BF.walsh_adamar { values := [0], args_amount := 1 }).getD c 0 = 0) ∧
      (r < ({ values := [0], args_amount := 1 } : BF).args_amount →
        ∃ c, c < 2 ^ ({ values := [0], args_amount := 1 } : BF).args_amount ∧
          weight c = r + 1 ∧
          (BF.walsh_adamar { values := [0], args_amount := 1 }).getD c 0 ≠ 0)) ∧
    (∀ n, 1 ≤ n → n ≤ 63 → ∀ g, BF.one n = .ok g → BF.cor g = .ok n) ∧
    (∀ n, 1 ≤ n → n ≤ 63 → ∀ g, BF.zero n = .ok g → BF.cor g = .ok n) ∧
    (BF.from_str ['0','1','1','0','1','0','0','1']).map BF.cor = .ok (.ok 2) :=
  C6_cor { values := [0], args_amount := 1 } (by decide) (by decide)


/-! ### C8: the variable numbering of rendered ANF monomials -/

theorem str_empty_append (s : String) : "" ++ s = s := by
  cases s
  rfl

/-- The monomial rendering as the specification words it: a set bit `i`
(0-indexed from least significant) becomes variable `x_(i+1)`, the variables
listed in descending numbering (highest bit first). -/
def monomialStringClaim (args : Nat) : String :=
  String.join (((((List.range WORD_BIT_SIZE).filter
      (fun i => (args >>> i) &&& 1 = 1)).reverse).map
        (fun i => "x" ++ toString (i + 1))).intersperse "&")

theorem filter_shift_eq_testBit (m : Nat) :
    (fun b => decide ((m >>> b) &&& 1 = 1)) = (fun b => m.testBit b) := by
  funext b
  rw [Nat.and_one_is_mod, Nat.shiftRight_eq_div_pow, Nat.testBit_to_div_mod]

theorem filter_testBit_single {i R : Nat} (hi : i < R) :
    (List.range R).filter (fun b => (2 ^ i).testBit b) = [i] := by
  have e1 : List.range' 0 R = List.range' 0 i ++ List.range' i (R - i) := by
    have h := range'_split 0 i (R - i)
    rw [Nat.zero_add] at h
    rw [← h]
    congr 1
    omega
  have e2 : List.range' i (R - i) = List.range' i 1 ++ List.range' (i+1) (R - i - 1) := by
    have h := range'_split i 1 (R - i - 1)
    rw [← h]
    congr 1
    omega
  rw [List.range_eq_range', e1, e2, List.filter_append, List.filter_append]
  rw [filter_range'_nil i 0 (fun m _ hm => by
    rw [Nat.testBit_two_pow]
    simp only [decide_eq_false_iff_not]
    omega)]
  rw [filter_range'_nil (R - i - 1) (i+1) (fun m hm _ => by
    rw [Nat.testBit_two_pow]
    simp only [decide_eq_false_iff_not]
    omega)]
  rw [show List.range' i 1 = [i] from rfl, List.filter_cons,
      if_pos (by rw [Nat.testBit_two_pow]; simp)]
  rfl

theorem testBit_two_sum {i j : Nat} (hij : i < j) (b : Nat) :
    ((2:Nat) ^ i + 2 ^ j).testBit b = (decide (b = i) || decide (b = j)) := by
  have hlt : (2:Nat) ^ i < 2 ^ j := Nat.pow_lt_pow_right (by norm_num) hij
  rw [show (2:Nat) ^ i + 2 ^ j = 1 * 2 ^ j + 2 ^ i by ring, testBit_block hlt]
  by_cases hb : b < j
  · rw [if_pos hb, Nat.testBit_two_pow]
    have hbj : ¬ (b = j) := by omega
    by_cases hbi : b = i
    · simp [hbi]
    · have hib : ¬ (i = b) := fun h => hbi h.symm
      simp [hib, hbi, hbj]
  · rw [if_neg hb]
    have hbi : ¬ (b = i) := by omega
    by_cases hbj : b = j
    · rw [hbj, Nat.sub_self]
      simp [hbj, hbi]
    · have h1t : (1 : Nat).testBit (b - j) = false := by
        rw [show (1:Nat) = 2 ^ 0 by norm_num, Nat.testBit_two_pow]
        simp only [decide_eq_false_iff_not]
        omega
      rw [h1t]
      simp [hbi, hbj]

theorem filter_testBit_pair {i j R : Nat} (hij : i < j) (hjR : j < R) :
    (List.range R).filter (fun b => ((2:Nat) ^ i + 2 ^ j).testBit b) = [i, j] := by
  have e1 : List.range' 0 R = List.range' 0 i ++ List.range' i (R - i) := by
    have h := range'_split 0 i (R - i)
    rw [Nat.zero_add] at h
    rw [← h]
    congr 1
    omega
  have e2 : List.range' i (R - i) = List.range' i 1 ++ List.range' (i+1) (R - i - 1) := by
    have h := range'_split i 1 (R - i - 1)
    rw [← h]
    congr 1
    omega
  have e3 : List.range' (i+1) (R - i - 1)
      = List.range' (i+1) (j - i - 1) ++ List.range' j (R - j) := by
    have h := range'_split (i+1) (j - i - 1) (R - j)
    rw [show i + 1 + (j - i - 1) = j by omega] at h
    rw [← h]
    congr 1
    omega
  have e4 : List.range' j (R - j) = List.range' j 1 ++ List.range' (j+1) (R - j - 1) := by
    have h := range'_split j 1 (R - j - 1)
    rw [← h]
    congr 1
    omega
  rw [List.range_eq_range', e1, e2, e3, e4, List.filter_append, List.filter_append,
      List.filter_append, List.filter_append]
  rw [filter_range'_nil i 0 (fun m _ hm => by
    rw [testBit_two_sum hij]
    simp only [Bool.or_eq_false_iff, decide_eq_false_iff_not]
    omega)]
  rw [filter_range'_nil (j - i - 1) (i+1) (fun m hm hm2 => by
    rw [testBit_two_sum hij]
    simp only [Bool.or_eq_false_iff, decide_eq_false_iff_not]
    omega)]
  rw [filter_range'_nil (R - j - 1) (j+1) (fun m hm _ => by
    rw [testBit_two_sum hij]
    simp only [Bool.or_eq_false_iff, decide_eq_false_iff_not]
    omega)]
  rw [show List.range' i 1 = [i] from rfl, show List.range' j 1 = [j] from rfl,
      List.filter_cons, List.filter_cons,
      if_pos (by rw [testBit_two_sum hij]; simp),
      if_pos (by rw [testBit_two_sum hij]; simp)]
  rfl

/-- Counterexample to C8: the code renders set bit `i` as variable
`x_(args_amount - i)`, not `x_(i+1)`: the single monomial `x1` of the mask
`1` on two arguments is rendered `x2`, and `anf(parse("0110"))` is
`"x2 + x1"`, not the `"x1 + x2"` the spec's convention produces. -/
theorem C8_counterexample :
    monomialString 2 1 = "x2" ∧ monomialStringClaim 1 = "x1" ∧
    monomialString 2 1 ≠ monomialStringClaim 1 ∧
    (BF.from_str ['0','1','1','0']).map BF.anf = .ok "x2 + x1" :=
  ⟨rfl, rfl, by decide, rfl⟩

/-- C8 (amended): for set bit `i` the emitted variable is `x_(n - i)`
(`n = args_amount`), so ascending bit positions render as descending
variable numbers: a single-bit mask `2^i` renders `x_(n-i)` and a two-bit
mask `2^i + 2^j` (`i < j`) renders `x_(n-i) & x_(n-j)` with
`n - j < n - i`. -/
theorem C8_anf_numbering (n i j : Nat) (hij : i < j) (hjn : j < n) (hn : n ≤ 128) :
    monomialString n (2 ^ i) = "x" ++ toString (n - i) ∧
    monomialString n (2 ^ i + 2 ^ j)
      = "x" ++ toString (n - i) ++ "&" ++ "x" ++ toString (n - j) ∧
    n - j < n - i := by
  refine ⟨?_, ?_, by omega⟩
  · rw [monomialString, filter_shift_eq_testBit,
        filter_testBit_single (show i < WORD_BIT_SIZE by rw [WBS_eq]; omega),
        List.map_cons, List.map_nil]
    show "" ++ ("x" ++ toString (n - i)) = "x" ++ toString (n - i)
    exact str_empty_append _
  · rw [monomialString, filter_shift_eq_testBit,
        filter_testBit_pair hij (show j < WORD_BIT_SIZE by rw [WBS_eq]; omega),
        List.map_cons, List.map_cons, List.map_nil]
    show (("" ++ ("x" ++ toString (n - i))) ++ "&") ++ ("x" ++ toString (n - j)) = _
    rw [str_empty_append, ← String.append_assoc]

/-- Witness for C8 at `n = 3`, bits `0 < 1`. -/
theorem C8_witness :
    monomialString 3 (2 ^ 0) = "x" ++ toString (3 - 0) ∧
    monomialString 3 (2 ^ 0 + 2 ^ 1)
      = "x" ++ toString (3 - 0) ++ "&" ++ "x" ++ toString (3 - 1) ∧
    3 - 1 < 3 - 0 :=
  C8_anf_numbering 3 0 1 (by decide) (by decide) (by decide)


/-! ### C10: `BM::monomial` panics on the zero function -/

theorem weight_pos_eval (bf : BF) (hwf : Wf bf) (hw : bf.weight ≠ 0) :
    ∃ x, x < 2 ^ bf.args_amount ∧ bf.eval x = 1 := by
  rw [BF.weight, foldl_weight_eq_sum] at hw
  have hex : ∃ w ∈ bf.values.map weight, w ≠ 0 := by
    by_contra hcon
    push_neg at hcon
    exact hw (List.sum_eq_zero hcon)
  obtain ⟨w, hwmem, hwne⟩ := hex
  rw [List.mem_map] at hwmem
  obtain ⟨v, hvmem, rfl⟩ := hwmem
  have hvne : v ≠ 0 := by
    intro h0
    rw [h0] at hwne
    exact hwne weight_zero
  obtain ⟨q, hq, hveq⟩ := List.getElem_of_mem hvmem
  have hbit : ∃ b, v.testBit b = true := by
    by_contra hcon
    push_neg at hcon
    apply hvne
    apply Nat.eq_of_testBit_eq
    intro b
    rw [Nat.zero_testBit]
    simp only [Bool.not_eq_true] at hcon
    exact hcon b
  obtain ⟨b, hb⟩ := hbit
  have hvW : v < W2 := hwf.2.2.1 v hvmem
  have hb128 : b < 128 := by
    have h1 := two_pow_le_of_testBit hb
    by_contra hcon
    have h2 : (2:Nat) ^ 128 ≤ 2 ^ b := Nat.pow_le_pow_right (by norm_num) (by omega)
    have h3 : W2 = 2 ^ 128 := rfl
    omega
  set x := q * 2 ^ 7 + b with hx
  have hgd : bf.values.getD q 0 = v := by
    rw [List.getD_eq_getElem?_getD, List.getElem?_eq_getElem hq]
    exact hveq
  have hevalBit : evalBit bf.values x = true := by
    rw [evalBit, show x / 2 ^ 7 = q by omega, show x % 2 ^ 7 = b by omega, hgd]
    exact hb
  have hxlt : x < 2 ^ bf.args_amount := by
    by_contra hcon
    have hp := hwf.padding x (by rw [pow2_eq]; omega)
    rw [hevalBit] at hp
    exact absurd hp (by simp)
  refine ⟨x, hxlt, ?_⟩
  rw [eval_eq_evalBit, hevalBit]
  rfl

/-- C10: `BM::monomial(bf, deg)` is not total on its stated domain: for every
valid degree `1 ≤ deg ≤ n`, the identically-zero function (`weight = 0`)
makes the internal `BM::zero(0, cols).unwrap()` panic (`ZeroDim`, modelled as
`MonomialResult.crash`), and an `Ok` result is only possible when some
argument evaluates to `1`. -/
theorem C10_monomial_crash (bf : BF) (hwf : Wf bf) (deg : Nat) (hdeg1 : 1 ≤ deg)
    (hdegn : deg ≤ bf.args_amount) :
    (bf.weight = 0 → BM.monomial bf deg = .crash) ∧
    (∀ m, BM.monomial bf deg = .ok m → ∃ x, x < 2 ^ bf.args_amount ∧ bf.eval x = 1) := by
  have hcrash : bf.weight = 0 → BM.monomial bf deg = .crash := by
    intro hw
    simp only [BM.monomial]
    rw [if_neg (by omega)]
    simp only [hw]
    rw [show BM.zero 0 (1 + ((List.range' 1 deg).map (comb bf.args_amount)).sum)
        = .error (.ZeroDim 0 (1 + ((List.range' 1 deg).map (comb bf.args_amount)).sum)) from by
      rw [BM.zero]
      rw [if_pos (Or.inr rfl)]]
  refine ⟨hcrash, ?_⟩
  intro m hok
  by_cases hw : bf.weight = 0
  · rw [hcrash hw] at hok
    exact absurd hok (fun h => MonomialResult.noConfusion h)
  · exact weight_pos_eval bf hwf hw

/-- Witness for C10 at the one-argument zero function with degree `1`. -/
theorem C10_witness :
    (({ values := [0], args_amount := 1 } : BF).weight = 0 →
      BM.monomial { values := [0], args_amount := 1 } 1 = .crash) ∧
    (∀ m, BM.monomial { values := [0], args_amount := 1 } 1 = .ok m →
      ∃ x, x < 2 ^ ({ values := [0], args_amount := 1 } : BF).args_amount ∧
        BF.eval { values := [0], args_amount := 1 } x = 1) :=
  C10_monomial_crash { values := [0], args_amount := 1 } (by decide) 1 (by decide) (by decide)


/-! ### C7: bit-level behaviour of the `BM` accessors -/

/-- Well-formedness of a `BM`: the lane vector has exactly the capacity that
`BM::zero` allocates for the dimensions. -/
def BMWf (m : BM) : Prop := m.mat.length = div_ws_ceil (m.rows * m.cols)

instance BMWf.dec (m : BM) : Decidable (BMWf m) := Nat.decEq _ _

theorem shift_and_one (x b : Nat) : (x >>> b) &&& 1 = if x.testBit b then 1 else 0 := by
  rw [Nat.and_one_is_mod, Nat.shiftRight_eq_div_pow, Nat.testBit_to_div_mod]
  rcases Nat.mod_two_eq_zero_or_one (x / 2 ^ b) with h | h <;> simp [h]

/-- Linear-index bit view of a `BM`, mirroring `evalBit` for `BF`. -/
def bmBit (m : BM) (i : Nat) : Bool :=
  (m.mat.getD (div_ws i) 0).testBit (mod_ws i)

theorem get_eq_bmBit (m : BM) (r c : Nat) :
    m.get r c = if bmBit m (r * m.cols + c) then 1 else 0 := by
  rw [BM.get, bmBit, shift_and_one]

theorem get_le_one (m : BM) (r c : Nat) : m.get r c ≤ 1 := by
  rw [get_eq_bmBit]
  split <;> omega

theorem get_eq_zero_or_one (m : BM) (r c : Nat) : m.get r c = 0 ∨ m.get r c = 1 := by
  have := get_le_one m r c
  omega

theorem xor_le_one {a b : Nat} (ha : a ≤ 1) (hb : b ≤ 1) : a ^^^ b ≤ 1 := by
  interval_cases a <;> interval_cases b <;> decide

theorem bm_idx_lt {r c R C : Nat} (hr : r < R) (hc : c < C) : r * C + c < R * C := by
  have h1 : (r + 1) * C ≤ R * C := Nat.mul_le_mul_right C (by omega)
  have h2 : (r + 1) * C = r * C + C := by ring
  omega

theorem bm_idx_inj {r c r' c' C : Nat} (hc : c < C) (hc' : c' < C)
    (h : r * C + c = r' * C + c') : r = r' ∧ c = c' := by
  have hC : 0 < C := by omega
  have d1 : (r * C + c) / C = r := by
    rw [show r * C + c = C * r + c by ring, Nat.mul_add_div hC, Nat.div_eq_of_lt hc]
    omega
  have d2 : (r' * C + c') / C = r' := by
    rw [show r' * C + c' = C * r' + c' by ring, Nat.mul_add_div hC, Nat.div_eq_of_lt hc']
    omega
  have m1 : (r * C + c) % C = c := by
    rw [show r * C + c = C * r + c by ring, Nat.mul_add_mod, Nat.mod_eq_of_lt hc]
  have m2 : (r' * C + c') % C = c' := by
    rw [show r' * C + c' = C * r' + c' by ring, Nat.mul_add_mod, Nat.mod_eq_of_lt hc']
  constructor
  · rw [← d1, ← d2, h]
  · rw [← m1, ← m2, h]

theorem idx_cap (m : BM) (hwf : BMWf m) {r c : Nat} (hr : r < m.rows) (hc : c < m.cols) :
    div_ws (r * m.cols + c) < m.mat.length := by
  have h1 : r * m.cols + c < m.rows * m.cols := bm_idx_lt hr hc
  rw [div_ws_eq, hwf, div_ws_ceil_eq]
  have h2 : (r * m.cols + c + 2 ^ 7) / 2 ^ 7 = (r * m.cols + c) / 2 ^ 7 + 1 :=
    Nat.add_div_right _ (by norm_num)
  have h3 : (r * m.cols + c + 2 ^ 7) / 2 ^ 7 ≤ (m.rows * m.cols + 127) / 2 ^ 7 :=
    Nat.div_le_div_right (by omega)
  omega

theorem set_rows (m : BM) (r c : Nat) : (m.set r c).rows = m.rows := rfl

theorem set_cols (m : BM) (r c : Nat) : (m.set r c).cols = m.cols := rfl

theorem set_matLength (m : BM) (r c : Nat) : (m.set r c).mat.length = m.mat.length := by
  rw [BM.set]
  exact m.mat.length_set _ _

theorem unset_rows (m : BM) (r c : Nat) : (m.unset r c).rows = m.rows := rfl

theorem unset_cols (m : BM) (r c : Nat) : (m.unset r c).cols = m.cols := rfl

theorem unset_matLength (m : BM) (r c : Nat) : (m.unset r c).mat.length = m.mat.length := by
  rw [BM.unset]
  exact m.mat.length_set _ _

theorem putBit_rows (m : BM) (r c v : Nat) : (m.putBit r c v).rows = m.rows := by
  rw [BM.putBit]
  split <;> rfl

theorem putBit_cols (m : BM) (r c v : Nat) : (m.putBit r c v).cols = m.cols := by
  rw [BM.putBit]
  split <;> rfl

theorem putBit_matLength (m : BM) (r c v : Nat) :
    (m.putBit r c v).mat.length = m.mat.length := by
  rw [BM.putBit]
  split
  · exact unset_matLength m r c
  · exact set_matLength m r c

theorem putBit_Wf (m : BM) (r c v : Nat) (hwf : BMWf m) : BMWf (m.putBit r c v) := by
  rw [BMWf, putBit_matLength, putBit_rows, putBit_cols]
  exact hwf

theorem div_mod_ws_inj {i j : Nat} (hd : div_ws i = div_ws j) (hm : mod_ws i = mod_ws j) :
    i = j := by
  rw [div_ws_eq, div_ws_eq] at hd
  rw [mod_ws_eq, mod_ws_eq] at hm
  have hi := Nat.div_add_mod i (2 ^ 7)
  have hj := Nat.div_add_mod j (2 ^ 7)
  omega

theorem bmBit_set (m : BM) (r c : Nat) (hcap : div_ws (r * m.cols + c) < m.mat.length)
    (i : Nat) :
    bmBit (m.set r c) i = (bmBit m i || decide (i = r * m.cols + c)) := by
  rw [BM.set, bmBit, bmBit]
  simp only
  by_cases hd : div_ws i = div_ws (r * m.cols + c)
  · rw [hd, getD_set_self _ _ _ _ hcap]
    rw [Nat.shiftLeft_eq, one_mul, Nat.testBit_or]
    rw [Nat.testBit_two_pow]
    by_cases hi : i = r * m.cols + c
    · subst hi
      simp
    · have hm : mod_ws (r * m.cols + c) ≠ mod_ws i := by
        intro hmm
        exact hi (div_mod_ws_inj hd hmm.symm)
      simp [hm, hi]
  · rw [getD_set_ne _ _ _ (fun h => hd (by rw [h]))]
    have hi : i ≠ r * m.cols + c := by
      intro h
      exact hd (by rw [h])
    simp [hi]

theorem bmBit_unset (m : BM) (r c : Nat) (hcap : div_ws (r * m.cols + c) < m.mat.length)
    (i : Nat) :
    bmBit (m.unset r c) i = (bmBit m i && ! decide (i = r * m.cols + c)) := by
  rw [BM.unset, bmBit, bmBit]
  simp only
  have hmlt : mod_ws i < 128 := by
    rw [mod_ws_eq]
    exact Nat.mod_lt _ (by norm_num)
  by_cases hd : div_ws i = div_ws (r * m.cols + c)
  · rw [hd, getD_set_self _ _ _ _ hcap]
    rw [Nat.shiftLeft_eq, one_mul, Nat.testBit_and, Nat.testBit_xor]
    have hW : W2 - 1 = 2 ^ 128 - 1 := rfl
    rw [hW, Nat.testBit_two_pow_sub_one, Nat.testBit_two_pow]
    rw [decide_eq_true hmlt]
    by_cases hi : i = r * m.cols + c
    · subst hi
      simp
    · have hm : mod_ws (r * m.cols + c) ≠ mod_ws i := by
        intro hmm
        exact hi (div_mod_ws_inj hd hmm.symm)
      simp [hm, hi]
  · rw [getD_set_ne _ _ _ (fun h => hd (by rw [h]))]
    have hi : i ≠ r * m.cols + c := by
      intro h
      exact hd (by rw [h])
    simp [hi]

theorem bmBit_putBit (m : BM) (r c v : Nat) (hcap : div_ws (r * m.cols + c) < m.mat.length)
    (i : Nat) :
    bmBit (m.putBit r c v) i =
      if i = r * m.cols + c then decide (v ≠ 0) else bmBit m i := by
  rw [BM.putBit]
  by_cases hv : v = 0
  · rw [if_pos hv, bmBit_unset m r c hcap]
    by_cases hi : i = r * m.cols + c
    · simp [hi, hv]
    · simp [hi]
  · rw [if_neg hv, bmBit_set m r c hcap]
    by_cases hi : i = r * m.cols + c
    · simp [hi, hv]
    · simp [hi]

theorem get_putBit (m : BM) (hwf : BMWf m) {r c v r' c' : Nat}
    (hr : r < m.rows) (hc : c < m.cols) (hc' : c' < m.cols) (hv : v ≤ 1) :
    (m.putBit r c v).get r' c' = if r' = r ∧ c' = c then v else m.get r' c' := by
  have hcap : div_ws (r * m.cols + c) < m.mat.length := idx_cap m hwf hr hc
  rw [get_eq_bmBit, putBit_cols, bmBit_putBit m r c v hcap]
  by_cases hrc : r' = r ∧ c' = c
  · obtain ⟨h1, h2⟩ := hrc
    subst h1
    subst h2
    rw [if_pos rfl, if_pos (And.intro rfl rfl)]
    interval_cases v
    · simp
    · simp
  · have hi : r' * m.cols + c' ≠ r * m.cols + c := by
      intro h
      exact hrc (bm_idx_inj hc' hc h)
    rw [if_neg hi, if_neg hrc, ← get_eq_bmBit]


/-! ### C7: effect of the three passes of `gaussian_elimination` on `get` -/

/-- Prefix of the `swapRows` column loop (first `k` columns). -/
def swapFoldK (m : BM) (a b k : Nat) : BM :=
  (List.range k).foldl
    (fun mm col =>
      let to_pivot := mm.get a col
      let to_row := mm.get b col
      (mm.putBit b col to_pivot).putBit a col to_row)
    m

theorem swapFoldK_spec (m : BM) (hwf : BMWf m) {a b : Nat} (ha : a < m.rows)
    (hb : b < m.rows) :
    ∀ k, k ≤ m.cols →
      (swapFoldK m a b k).rows = m.rows ∧ (swapFoldK m a b k).cols = m.cols ∧
      BMWf (swapFoldK m a b k) ∧
      ∀ r' c', c' < m.cols →
        (swapFoldK m a b k).get r' c' =
          if c' < k then
            if r' = b then m.get a c' else if r' = a then m.get b c' else m.get r' c'
          else m.get r' c' := by
  intro k
  induction k with
  | zero =>
    intro _
    refine ⟨rfl, rfl, hwf, fun r' c' _ => ?_⟩
    rw [if_neg (by omega)]
    rfl
  | succ k ih =>
    intro hk
    obtain ⟨hrows, hcols, hwfk, hget⟩ := ih (by omega)
    have hk1 : k < m.cols := by omega
    have hstep : swapFoldK m a b (k + 1) =
        ((swapFoldK m a b k).putBit b k ((swapFoldK m a b k).get a k)).putBit a k
          ((swapFoldK m a b k).get b k) := by
      rw [swapFoldK, swapFoldK, List.range_succ, List.foldl_append]
      rfl
    have hak : (swapFoldK m a b k).get a k = m.get a k := by
      rw [hget a k hk1, if_neg (by omega)]
    have hbk : (swapFoldK m a b k).get b k = m.get b k := by
      rw [hget b k hk1, if_neg (by omega)]
    have hmidwf : BMWf ((swapFoldK m a b k).putBit b k (m.get a k)) :=
      putBit_Wf _ _ _ _ hwfk
    refine ⟨?_, ?_, ?_, ?_⟩
    · rw [hstep, putBit_rows, putBit_rows, hrows]
    · rw [hstep, putBit_cols, putBit_cols, hcols]
    · rw [hstep, hak, hbk]
      exact putBit_Wf _ _ _ _ hmidwf
    · intro r' c' hc'
      rw [hstep, hak, hbk]
      rw [get_putBit _ hmidwf (by rw [putBit_rows, hrows]; exact ha)
        (by rw [putBit_cols, hcols]; exact hk1)
        (by rw [putBit_cols, hcols]; exact hc') (get_le_one m b k)]
      rw [get_putBit _ hwfk (by rw [hrows]; exact hb) (by rw [hcols]; exact hk1)
        (by rw [hcols]; exact hc') (get_le_one m a k)]
      rw [hget r' c' hc']
      by_cases hck : c' = k
      · subst hck
        rw [if_pos (show c' < c' + 1 by omega)]
        by_cases hra : r' = a
        · rw [if_pos (And.intro hra rfl)]
          by_cases hrb : r' = b
          · rw [if_pos hrb]
            have hab : a = b := by rw [← hra, hrb]
            rw [hab]
          · rw [if_neg hrb, if_pos hra]
        · rw [if_neg (fun hh => hra hh.1)]
          by_cases hrb : r' = b
          · rw [if_pos (And.intro hrb rfl), if_pos hrb]
          · rw [if_neg (fun hh => hrb hh.1), if_neg hrb, if_neg hra,
              if_neg (lt_irrefl c')]
      · rw [if_neg (fun hh => hck hh.2), if_neg (fun hh => hck hh.2)]
        by_cases hlt : c' < k
        · rw [if_pos hlt, if_pos (show c' < k + 1 by omega)]
        · rw [if_neg hlt, if_neg (show ¬ c' < k + 1 by omega)]

theorem swapRows_get (m : BM) (hwf : BMWf m) {a b : Nat} (ha : a < m.rows)
    (hb : b < m.rows) :
    (m.swapRows a b).rows = m.rows ∧ (m.swapRows a b).cols = m.cols ∧
    BMWf (m.swapRows a b) ∧
    ∀ r' c', c' < m.cols →
      (m.swapRows a b).get r' c' =
        if r' = b then m.get a c' else if r' = a then m.get b c' else m.get r' c' := by
  obtain ⟨h1, h2, h3, h4⟩ := swapFoldK_spec m hwf ha hb m.cols le_rfl
  have he : m.swapRows a b = swapFoldK m a b m.cols := rfl
  rw [he]
  exact ⟨h1, h2, h3, fun r' c' hc' => by rw [h4 r' c' hc', if_pos hc']⟩

/-- Prefix of the `xorRow` column loop (first `k` columns). -/
def xorFoldK (m : BM) (a b k : Nat) : BM :=
  (List.range k).foldl (fun mm col => mm.putBit b col (mm.get a col ^^^ mm.get b col)) m

theorem xorFoldK_spec (m : BM) (hwf : BMWf m) {a b : Nat} (ha : a < m.rows)
    (hb : b < m.rows) (hab : a ≠ b) :
    ∀ k, k ≤ m.cols →
      (xorFoldK m a b k).rows = m.rows ∧ (xorFoldK m a b k).cols = m.cols ∧
      BMWf (xorFoldK m a b k) ∧
      ∀ r' c', c' < m.cols →
        (xorFoldK m a b k).get r' c' =
          if r' = b ∧ c' < k then m.get a c' ^^^ m.get b c' else m.get r' c' := by
  intro k
  induction k with
  | zero =>
    intro _
    refine ⟨rfl, rfl, hwf, fun r' c' _ => ?_⟩
    rw [if_neg (fun hh => by omega)]
    rfl
  | succ k ih =>
    intro hk
    obtain ⟨hrows, hcols, hwfk, hget⟩ := ih (by omega)
    have hk1 : k < m.cols := by omega
    have hstep : xorFoldK m a b (k + 1) =
        (xorFoldK m a b k).putBit b k
          ((xorFoldK m a b k).get a k ^^^ (xorFoldK m a b k).get b k) := by
      rw [xorFoldK, xorFoldK, List.range_succ, List.foldl_append]
      rfl
    have hak : (xorFoldK m a b k).get a k = m.get a k := by
      rw [hget a k hk1, if_neg (fun hh => hab hh.1)]
    have hbk : (xorFoldK m a b k).get b k = m.get b k := by
      rw [hget b k hk1, if_neg (fun hh => by omega)]
    refine ⟨?_, ?_, ?_, ?_⟩
    · rw [hstep, putBit_rows, hrows]
    · rw [hstep, putBit_cols, hcols]
    · rw [hstep]
      exact putBit_Wf _ _ _ _ hwfk
    · intro r' c' hc'
      rw [hstep, hak, hbk]
      rw [get_putBit _ hwfk (by rw [hrows]; exact hb) (by rw [hcols]; exact hk1)
        (by rw [hcols]; exact hc')
        (xor_le_one (get_le_one m a k) (get_le_one m b k))]
      rw [hget r' c' hc']
      by_cases hrb : r' = b
      · by_cases hck : c' = k
        · subst hrb
          subst hck
          rw [if_pos (And.intro rfl rfl), if_pos (And.intro rfl (by omega))]
        · rw [if_neg (fun hh => hck hh.2)]
          by_cases hlt : c' < k
          · rw [if_pos (And.intro hrb hlt), if_pos (And.intro hrb (show c' < k + 1 by omega))]
          · rw [if_neg (fun hh => hlt hh.2), if_neg (fun hh => hlt (by omega))]
      · rw [if_neg (fun hh => hrb hh.1), if_neg (fun hh => hrb hh.1),
          if_neg (fun hh => hrb hh.1)]

theorem xorRow_get (m : BM) (hwf : BMWf m) {a b : Nat} (ha : a < m.rows)
    (hb : b < m.rows) (hab : a ≠ b) :
    (m.xorRow a b).rows = m.rows ∧ (m.xorRow a b).cols = m.cols ∧ BMWf (m.xorRow a b) ∧
    ∀ r' c', c' < m.cols →
      (m.xorRow a b).get r' c' =
        if r' = b then m.get a c' ^^^ m.get b c' else m.get r' c' := by
  obtain ⟨h1, h2, h3, h4⟩ := xorFoldK_spec m hwf ha hb hab m.cols le_rfl
  have he : m.xorRow a b = xorFoldK m a b m.cols := rfl
  rw [he]
  refine ⟨h1, h2, h3, fun r' c' hc' => ?_⟩
  rw [h4 r' c' hc']
  by_cases hrb : r' = b
  · rw [if_pos (And.intro hrb hc'), if_pos hrb]
  · rw [if_neg (fun hh => hrb hh.1), if_neg hrb]

/-- The elimination pass over an explicit list of target rows. -/
def elimFoldL (m : BM) (cur_row cur_col : Nat) (l : List Nat) : BM :=
  l.foldl (fun mm row => if mm.get row cur_col = 0 then mm else mm.xorRow cur_row row) m

theorem elimFoldL_spec (cur_row cur_col : Nat) :
    ∀ (l : List Nat) (m : BM), BMWf m → cur_row < m.rows → cur_col < m.cols →
      (∀ x ∈ l, cur_row < x ∧ x < m.rows) → l.Nodup →
      (elimFoldL m cur_row cur_col l).rows = m.rows ∧
      (elimFoldL m cur_row cur_col l).cols = m.cols ∧
      BMWf (elimFoldL m cur_row cur_col l) ∧
      ∀ r' c', c' < m.cols →
        (elimFoldL m cur_row cur_col l).get r' c' =
          if r' ∈ l ∧ m.get r' cur_col = 1 then m.get cur_row c' ^^^ m.get r' c'
          else m.get r' c' := by
  intro l
  induction l with
  | nil =>
    intro m hwf hr hc _ _
    refine ⟨rfl, rfl, hwf, fun r' c' _ => ?_⟩
    rw [if_neg (fun hh => by exact absurd hh.1 (List.not_mem_nil r'))]
    rfl
  | cons x t ih =>
    intro m hwf hr hc hmem hnd
    obtain ⟨hax, hxR⟩ := hmem x (List.mem_cons_self x t)
    have hxt : x ∉ t := (List.nodup_cons.mp hnd).1
    have hndt : t.Nodup := (List.nodup_cons.mp hnd).2
    by_cases h0 : m.get x cur_col = 0
    · have hstep : elimFoldL m cur_row cur_col (x :: t) = elimFoldL m cur_row cur_col t := by
        rw [elimFoldL, elimFoldL, List.foldl_cons, if_pos h0]
      obtain ⟨h1, h2, h3, h4⟩ := ih m hwf hr hc (fun y hy => hmem y (List.mem_cons_of_mem x hy)) hndt
      rw [hstep]
      refine ⟨h1, h2, h3, fun r' c' hc' => ?_⟩
      rw [h4 r' c' hc']
      by_cases hrx : r' = x
      · subst hrx
        rw [if_neg (fun hh => hxt hh.1), if_neg (fun hh => by rw [h0] at hh; omega)]
      · by_cases hrt : r' ∈ t
        · by_cases hg : m.get r' cur_col = 1
          · rw [if_pos (And.intro hrt hg), if_pos (And.intro (List.mem_cons_of_mem x hrt) hg)]
          · rw [if_neg (fun hh => hg hh.2), if_neg (fun hh => hg hh.2)]
        · rw [if_neg (fun hh => hrt hh.1),
            if_neg (fun hh => by rcases List.mem_cons.mp hh.1 with h | h; exact hrx h; exact hrt h)]
    · have h1v : m.get x cur_col = 1 := by
        have := get_le_one m x cur_col
        omega
      have hne : cur_row ≠ x := by omega
      obtain ⟨hxr1, hxr2, hxr3, hxr4⟩ := xorRow_get m hwf hr hxR hne
      have hstep : elimFoldL m cur_row cur_col (x :: t) =
          elimFoldL (m.xorRow cur_row x) cur_row cur_col t := by
        rw [elimFoldL, elimFoldL, List.foldl_cons, if_neg h0]
      obtain ⟨h1, h2, h3, h4⟩ := ih (m.xorRow cur_row x) hxr3 (by rw [hxr1]; exact hr)
        (by rw [hxr2]; exact hc)
        (fun y hy => by
          rw [hxr1]
          exact hmem y (List.mem_cons_of_mem x hy)) hndt
      rw [hstep]
      refine ⟨by rw [h1, hxr1], by rw [h2, hxr2], h3, fun r' c' hc' => ?_⟩
      rw [h4 r' c' (by rw [hxr2]; exact hc')]
      have hgetrow : ∀ cc, cc < m.cols → (m.xorRow cur_row x).get cur_row cc = m.get cur_row cc := by
        intro cc hcc
        rw [hxr4 cur_row cc hcc, if_neg hne]
      by_cases hrx : r' = x
      · subst hrx
        rw [if_neg (fun hh => hxt hh.1)]
        rw [hxr4 r' c' hc', if_pos rfl]
        rw [if_pos (And.intro (List.mem_cons_self r' t) h1v)]
      · have hrkeep : ∀ cc, cc < m.cols → (m.xorRow cur_row x).get r' cc = m.get r' cc := by
          intro cc hcc
          rw [hxr4 r' cc hcc, if_neg hrx]
        rw [hgetrow c' hc', hrkeep c' hc', hrkeep cur_col hc]
        by_cases hrt : r' ∈ t
        · by_cases hg : m.get r' cur_col = 1
          · rw [if_pos (And.intro hrt hg), if_pos (And.intro (List.mem_cons_of_mem x hrt) hg)]
          · rw [if_neg (fun hh => hg hh.2), if_neg (fun hh => hg hh.2)]
        · rw [if_neg (fun hh => hrt hh.1),
            if_neg (fun hh => by rcases List.mem_cons.mp hh.1 with h | h; exact hrx h; exact hrt h)]

theorem elimBelow_get (m : BM) (hwf : BMWf m) {a c : Nat} (ha : a < m.rows)
    (hc : c < m.cols) :
    (m.elimBelow a c).rows = m.rows ∧ (m.elimBelow a c).cols = m.cols ∧
    BMWf (m.elimBelow a c) ∧
    ∀ r' c', r' < m.rows → c' < m.cols →
      (m.elimBelow a c).get r' c' =
        if a < r' ∧ m.get r' c = 1 then m.get a c' ^^^ m.get r' c' else m.get r' c' := by
  have he : m.elimBelow a c = elimFoldL m a c (List.range' (a + 1) (m.rows - (a + 1))) := rfl
  obtain ⟨h1, h2, h3, h4⟩ := elimFoldL_spec a c (List.range' (a + 1) (m.rows - (a + 1))) m hwf ha hc
    (fun x hx => by
      rw [List.mem_range'_1] at hx
      omega)
    (List.nodup_range' _ _)
  rw [he]
  refine ⟨h1, h2, h3, fun r' c' hr' hc' => ?_⟩
  rw [h4 r' c' hc']
  have hmem : r' ∈ List.range' (a + 1) (m.rows - (a + 1)) ↔ a < r' := by
    rw [List.mem_range'_1]
    omega
  by_cases hcond : a < r' ∧ m.get r' c = 1
  · rw [if_pos (And.intro (hmem.mpr hcond.1) hcond.2), if_pos hcond]
  · rw [if_neg (fun hh => hcond (And.intro (hmem.mp hh.1) hh.2)), if_neg hcond]


/-! ### C7: row spans over GF(2) and invariance under the passes -/

/-- Row `i` of a `BM`, read through `get`, as a GF(2) vector of width `C`. -/
def rowVec (m : BM) (C : Nat) (i : Nat) : Fin C → ZMod 2 :=
  fun j => (m.get i j : ZMod 2)

/-- The GF(2) span of the first `R` rows of a `BM`, as width-`C` vectors. -/
def rowSpan (m : BM) (R C : Nat) : Submodule (ZMod 2) (Fin C → ZMod 2) :=
  Submodule.span (ZMod 2) (Set.range (fun i : Fin R => rowVec m C i))

theorem rowVec_mem_rowSpan (m : BM) {R C : Nat} (i : Fin R) :
    rowVec m C i ∈ rowSpan m R C :=
  Submodule.subset_span ⟨i, rfl⟩

theorem rowSpan_le_of_mem {m1 m2 : BM} {R C : Nat}
    (h : ∀ i : Fin R, rowVec m2 C i ∈ rowSpan m1 R C) :
    rowSpan m2 R C ≤ rowSpan m1 R C := by
  rw [rowSpan, Submodule.span_le]
  rintro x ⟨i, rfl⟩
  exact h i

theorem rowSpan_eq_of_mem {m1 m2 : BM} {R C : Nat}
    (h12 : ∀ i : Fin R, rowVec m2 C i ∈ rowSpan m1 R C)
    (h21 : ∀ i : Fin R, rowVec m1 C i ∈ rowSpan m2 R C) :
    rowSpan m2 R C = rowSpan m1 R C :=
  le_antisymm (rowSpan_le_of_mem h12) (rowSpan_le_of_mem h21)

theorem cast_xor_zmod {a b : Nat} (ha : a ≤ 1) (hb : b ≤ 1) :
    ((a ^^^ b : Nat) : ZMod 2) = (a : ZMod 2) + (b : ZMod 2) := by
  interval_cases a <;> interval_cases b <;> decide

theorem swapRows_rowSpan (m : BM) (hwf : BMWf m) {a b : Nat} (ha : a < m.rows)
    (hb : b < m.rows) :
    rowSpan (m.swapRows a b) m.rows m.cols = rowSpan m m.rows m.cols := by
  obtain ⟨h1, h2, h3, h4⟩ := swapRows_get m hwf ha hb
  apply rowSpan_eq_of_mem
  · intro i
    have hvec : rowVec (m.swapRows a b) m.cols i =
        rowVec m m.cols (if (i : Nat) = b then a else if (i : Nat) = a then b else i) := by
      funext j
      simp only [rowVec]
      rw [h4 i j j.2]
      by_cases hib : (i : Nat) = b
      · rw [if_pos hib, if_pos hib]
      · rw [if_neg hib, if_neg hib]
        by_cases hia : (i : Nat) = a
        · rw [if_pos hia, if_pos hia]
        · rw [if_neg hia, if_neg hia]
    rw [hvec]
    have hlt : (if (i : Nat) = b then a else if (i : Nat) = a then b else (i : Nat)) < m.rows := by
      split_ifs
      · exact ha
      · exact hb
      · exact i.2
    exact rowVec_mem_rowSpan m ⟨_, hlt⟩
  · intro i
    have hvec : rowVec m m.cols i =
        rowVec (m.swapRows a b) m.cols
          (if (i : Nat) = a then b else if (i : Nat) = b then a else i) := by
      funext j
      by_cases hia : (i : Nat) = a
      · rw [if_pos hia]
        simp only [rowVec]
        rw [h4 b j j.2, if_pos rfl, hia]
      · rw [if_neg hia]
        by_cases hib : (i : Nat) = b
        · rw [if_pos hib]
          simp only [rowVec]
          rw [h4 a j j.2]
          by_cases hab2 : a = b
          · rw [if_pos hab2, hib, hab2]
          · rw [if_neg hab2, if_pos rfl, hib]
        · rw [if_neg hib]
          simp only [rowVec]
          rw [h4 i j j.2, if_neg hib, if_neg hia]
    rw [hvec]
    have hlt : (if (i : Nat) = a then b else if (i : Nat) = b then a else (i : Nat)) < m.rows := by
      split_ifs
      · exact hb
      · exact ha
      · exact i.2
    exact rowVec_mem_rowSpan _ ⟨_, hlt⟩

theorem elimBelow_rowSpan (m : BM) (hwf : BMWf m) {a c : Nat} (ha : a < m.rows)
    (hc : c < m.cols) :
    rowSpan (m.elimBelow a c) m.rows m.cols = rowSpan m m.rows m.cols := by
  obtain ⟨h1, h2, h3, h4⟩ := elimBelow_get m hwf ha hc
  have hvec : ∀ i : Fin m.rows, rowVec (m.elimBelow a c) m.cols i =
      if a < (i : Nat) ∧ m.get i c = 1 then rowVec m m.cols a + rowVec m m.cols i
      else rowVec m m.cols i := by
    intro i
    by_cases hcond : a < (i : Nat) ∧ m.get i c = 1
    · rw [if_pos hcond]
      funext j
      simp only [rowVec]
      rw [h4 i j i.2 j.2, if_pos hcond]
      rw [cast_xor_zmod (get_le_one _ _ _) (get_le_one _ _ _)]
      rfl
    · rw [if_neg hcond]
      funext j
      simp only [rowVec]
      rw [h4 i j i.2 j.2, if_neg hcond]
  apply rowSpan_eq_of_mem
  · intro i
    rw [hvec i]
    by_cases hcond : a < (i : Nat) ∧ m.get i c = 1
    · rw [if_pos hcond]
      exact Submodule.add_mem _ (rowVec_mem_rowSpan m ⟨a, ha⟩) (rowVec_mem_rowSpan m i)
    · rw [if_neg hcond]
      exact rowVec_mem_rowSpan m i
  · intro i
    have hrowa : rowVec m m.cols a = rowVec (m.elimBelow a c) m.cols a := by
      funext j
      simp only [rowVec]
      rw [h4 a j ha j.2, if_neg (fun hh => lt_irrefl a hh.1)]
    by_cases hcond : a < (i : Nat) ∧ m.get i c = 1
    · have hkey : rowVec m m.cols i =
          rowVec (m.elimBelow a c) m.cols i - rowVec (m.elimBelow a c) m.cols a := by
        rw [hvec i, if_pos hcond, ← hrowa]
        rw [add_sub_cancel_left]
      rw [hkey]
      exact Submodule.sub_mem _ (rowVec_mem_rowSpan _ i) (rowVec_mem_rowSpan _ ⟨a, ha⟩)
    · have hkey : rowVec m m.cols i = rowVec (m.elimBelow a c) m.cols i := by
        rw [hvec i, if_neg hcond]
      rw [hkey]
      exact rowVec_mem_rowSpan _ i

/-! ### C7: the staircase invariant of `gaussAux` -/

/-- Pivot structure: the stored pivot columns (all below `c`) carry a `1` in
their own row and `0` in every row strictly below it. -/
def PivOK (m : BM) (c : Nat) (pivs : List Nat) : Prop :=
  (∀ p ∈ pivs, p < c) ∧
  ∀ i, ∀ h : i < pivs.length,
    m.get i (pivs.get ⟨i, h⟩) = 1 ∧
    ∀ i', i < i' → i' < m.rows → m.get i' (pivs.get ⟨i, h⟩) = 0

/-- Rows from `r` on are zero in all columns below `c`. -/
def ZeroBelow (m : BM) (r c : Nat) : Prop :=
  ∀ i' cc, r ≤ i' → i' < m.rows → cc < c → m.get i' cc = 0

theorem PivOK_mono {m : BM} {c c' : Nat} {pivs : List Nat} (hcc : c ≤ c')
    (h : PivOK m c pivs) : PivOK m c' pivs :=
  ⟨fun p hp => lt_of_lt_of_le (h.1 p hp) hcc, h.2⟩

theorem gaussAux_step_none (fuel : Nat) (m : BM) (r c : Nat)
    (hg : r < m.rows ∧ c < m.cols)
    (hfind : (List.range' r (m.rows - r)).find? (fun row => m.get row c = 1) = none)
    (h0 : m.get r c = 0) :
    BM.gaussAux (fuel + 1) m r c = BM.gaussAux fuel m r (c + 1) := by
  rw [BM.gaussAux, if_pos hg, hfind]
  exact if_pos h0

theorem gaussAux_step_some (fuel : Nat) (m : BM) (r c p : Nat)
    (hg : r < m.rows ∧ c < m.cols)
    (hfind : (List.range' r (m.rows - r)).find? (fun row => m.get row c = 1) = some p)
    (h1 : m.get p c ≠ 0) :
    BM.gaussAux (fuel + 1) m r c =
      BM.gaussAux fuel ((m.swapRows r p).elimBelow r c) (r + 1) (c + 1) := by
  rw [BM.gaussAux, if_pos hg, hfind]
  exact if_neg h1


theorem gaussAux_inv (fuel : Nat) : ∀ (m : BM) (r c : Nat) (pivs : List Nat),
    BMWf m → r ≤ m.rows → c ≤ m.cols → m.cols ≤ c + fuel →
    pivs.length = r → PivOK m c pivs → ZeroBelow m r c →
    (BM.gaussAux fuel m r c).rows = m.rows ∧
    (BM.gaussAux fuel m r c).cols = m.cols ∧
    BMWf (BM.gaussAux fuel m r c) ∧
    rowSpan (BM.gaussAux fuel m r c) m.rows m.cols = rowSpan m m.rows m.cols ∧
    ∃ r' pivs', r ≤ r' ∧ r' ≤ m.rows ∧ pivs'.length = r' ∧
      PivOK (BM.gaussAux fuel m r c) m.cols pivs' ∧
      ZeroBelow (BM.gaussAux fuel m r c) r' m.cols := by
  induction fuel with
  | zero =>
    intro m r c pivs hwf hr hc hfuel hlen hpiv hzb
    have hcc : c = m.cols := by omega
    subst hcc
    exact ⟨rfl, rfl, hwf, rfl, r, pivs, le_rfl, hr, hlen, hpiv, hzb⟩
  | succ fuel ih =>
    intro m r c pivs hwf hr hc hfuel hlen hpiv hzb
    by_cases hg : r < m.rows ∧ c < m.cols
    case neg =>
      have hgauss : BM.gaussAux (fuel + 1) m r c = m := by
        rw [BM.gaussAux, if_neg hg]
      rw [hgauss]
      refine ⟨rfl, rfl, hwf, rfl, r, pivs, le_rfl, hr, hlen, PivOK_mono hc hpiv, ?_⟩
      rcases not_and_or.mp hg with h | h
      · intro i' cc hi1 hi2 hcc
        omega
      · intro i' cc hi1 hi2 hcc
        exact hzb i' cc hi1 hi2 (by omega)
    case pos =>
      obtain ⟨hrlt, hclt⟩ := hg
      cases hfind : (List.range' r (m.rows - r)).find? (fun row => m.get row c = 1) with
      | none =>
        have h0 : m.get r c = 0 := by
          have hmem : r ∈ List.range' r (m.rows - r) := by
            rw [List.mem_range'_1]
            omega
          have hnp := List.find?_eq_none.mp hfind r hmem
          simp only [decide_eq_true_eq] at hnp
          have := get_le_one m r c
          omega
        rw [gaussAux_step_none fuel m r c ⟨hrlt, hclt⟩ hfind h0]
        have hzb' : ZeroBelow m r (c + 1) := by
          intro i' cc hi1 hi2 hcc
          by_cases hcceq : cc = c
          · subst hcceq
            have hmem : i' ∈ List.range' r (m.rows - r) := by
              rw [List.mem_range'_1]
              omega
            have hnp := List.find?_eq_none.mp hfind i' hmem
            simp only [decide_eq_true_eq] at hnp
            have := get_le_one m i' cc
            omega
          · exact hzb i' cc hi1 hi2 (by omega)
        exact ih m r (c + 1) pivs hwf hr (by omega) (by omega) hlen
          (PivOK_mono (by omega) hpiv) hzb'
      | some p =>
        have hpmem := List.mem_of_find?_eq_some hfind
        rw [List.mem_range'_1] at hpmem
        have hp2 : p < m.rows := by omega
        have hp1 : m.get p c = 1 := by
          have := List.find?_some hfind
          simpa using this
        rw [gaussAux_step_some fuel m r c p ⟨hrlt, hclt⟩ hfind
          (by rw [hp1]; exact one_ne_zero)]
        obtain ⟨hs1, hs2, hs3, hs4⟩ := swapRows_get m hwf hrlt hp2
        obtain ⟨he1, he2, he3, he4⟩ := elimBelow_get (m.swapRows r p) hs3
          (show r < (m.swapRows r p).rows by rw [hs1]; exact hrlt)
          (show c < (m.swapRows r p).cols by rw [hs2]; exact hclt)
        set m1 := m.swapRows r p with hm1def
        set m2 := m1.elimBelow r c with hm2def
        have hm2rows : m2.rows = m.rows := by rw [he1, hs1]
        have hm2cols : m2.cols = m.cols := by rw [he2, hs2]
        have hm1r : ∀ c', c' < m.cols → m1.get r c' = m.get p c' := by
          intro c' hc'
          rw [hs4 r c' hc']
          by_cases hrp : r = p
          · rw [if_pos hrp, hrp]
          · rw [if_neg hrp, if_pos rfl]
        have hm1low : ∀ i', r ≤ i' → i' < m.rows → ∀ cc, cc < c → m1.get i' cc = 0 := by
          intro i' hi1 hi2 cc hcc
          rw [hs4 i' cc (by omega)]
          split_ifs
          · exact hzb r cc le_rfl hrlt hcc
          · exact hzb p cc (by omega) hp2 hcc
          · exact hzb i' cc hi1 hi2 hcc
        have hm1keep : ∀ i', i' < r → ∀ c', c' < m.cols → m1.get i' c' = m.get i' c' := by
          intro i' hi' c' hc'
          rw [hs4 i' c' hc', if_neg (by omega), if_neg (by omega)]
        have hm2get : ∀ r' c', r' < m.rows → c' < m.cols → m2.get r' c' =
            if r < r' ∧ m1.get r' c = 1 then m1.get r c' ^^^ m1.get r' c'
            else m1.get r' c' := by
          intro r' c' hr' hc'
          exact he4 r' c' (by rw [hs1]; exact hr') (by rw [hs2]; exact hc')
        have hm2keep_r : ∀ c', c' < m.cols → m2.get r c' = m.get p c' := by
          intro c' hc'
          rw [hm2get r c' hrlt hc', if_neg (fun hh => lt_irrefl r hh.1), hm1r c' hc']
        have hm2keep_low : ∀ i', i' < r → ∀ c', c' < m.cols → m2.get i' c' = m.get i' c' := by
          intro i' hi' c' hc'
          rw [hm2get i' c' (by omega) hc', if_neg (fun hh => absurd hh.1 (by omega)),
            hm1keep i' hi' c' hc']
        have hm2zlow : ∀ i', r ≤ i' → i' < m.rows → ∀ cc, cc < c → m2.get i' cc = 0 := by
          intro i' hi1 hi2 cc hcc
          rw [hm2get i' cc hi2 (by omega)]
          by_cases hcond : r < i' ∧ m1.get i' c = 1
          · rw [if_pos hcond, hm1low r le_rfl hrlt cc hcc, hm1low i' hi1 hi2 cc hcc]
            rfl
          · rw [if_neg hcond]
            exact hm1low i' hi1 hi2 cc hcc
        have hm2pivcol : ∀ i', r < i' → i' < m.rows → m2.get i' c = 0 := by
          intro i' hi1 hi2
          rw [hm2get i' c hi2 hclt]
          by_cases hcond : r < i' ∧ m1.get i' c = 1
          · rw [if_pos hcond, hm1r c hclt, hp1, hcond.2, Nat.xor_self]
          · rw [if_neg hcond]
            have := get_le_one m1 i' c
            have hne1 : m1.get i' c ≠ 1 := fun hh => hcond ⟨hi1, hh⟩
            omega
        have hm2rc : m2.get r c = 1 := by
          rw [hm2keep_r c hclt, hp1]
        have hsp1 : rowSpan m1 m.rows m.cols = rowSpan m m.rows m.cols := by
          rw [hm1def]
          exact swapRows_rowSpan m hwf hrlt hp2
        have hsp2 : rowSpan m2 m.rows m.cols = rowSpan m1 m.rows m.cols := by
          rw [hm2def]
          have hel := elimBelow_rowSpan m1 hs3 (show r < m1.rows by rw [hs1]; exact hrlt)
            (show c < m1.cols by rw [hs2]; exact hclt)
          rw [hs1, hs2] at hel
          exact hel
        have hlen2 : (pivs ++ [c]).length = r + 1 := by
          rw [List.length_append, hlen]
          rfl
        have hpiv2 : PivOK m2 (c + 1) (pivs ++ [c]) := by
          constructor
          · intro q hq
            rcases List.mem_append.mp hq with h | h
            · have := hpiv.1 q h
              omega
            · have : q = c := by simpa using h
              omega
          · intro i hi
            by_cases hir : i < pivs.length
            · have hgi : (pivs ++ [c]).get ⟨i, hi⟩ = pivs.get ⟨i, hir⟩ :=
                List.get_append i hir
              rw [hgi]
              obtain ⟨hp1i, hp0i⟩ := hpiv.2 i hir
              have hplt : pivs.get ⟨i, hir⟩ < c := by
                apply hpiv.1
                rw [List.get_eq_getElem]
                exact List.getElem_mem hir
              have hilt : i < r := by omega
              constructor
              · rw [hm2keep_low i hilt _ (by omega)]
                exact hp1i
              · intro i' hii' hi'R
                rw [hm2rows] at hi'R
                by_cases hi'r : i' < r
                · rw [hm2keep_low i' hi'r _ (by omega)]
                  exact hp0i i' hii' hi'R
                · exact hm2zlow i' (by omega) hi'R _ (by omega)
            · have hsum : i < pivs.length + 1 := by
                have := hi
                rw [List.length_append] at this
                simpa using this
              have hieq : i = pivs.length := by omega
              have hgi : (pivs ++ [c]).get ⟨i, hi⟩ = c := by
                rw [List.get_eq_getElem]
                exact List.getElem_concat_length pivs c i hieq _
              rw [hgi]
              have hirr : i = r := by omega
              subst hirr
              constructor
              · exact hm2rc
              · intro i' hii' hi'R
                rw [hm2rows] at hi'R
                exact hm2pivcol i' hii' hi'R
        have hzb2 : ZeroBelow m2 (r + 1) (c + 1) := by
          intro i' cc hi1 hi2 hcc
          rw [hm2rows] at hi2
          by_cases hcceq : cc = c
          · subst hcceq
            exact hm2pivcol i' (by omega) hi2
          · exact hm2zlow i' (by omega) hi2 cc (by omega)
        obtain ⟨hg1, hg2, hg3, hg4, r', pivs', hrr', hr'le, hlenF, hpivF, hzbF⟩ :=
          ih m2 (r + 1) (c + 1) (pivs ++ [c]) he3 (by rw [hm2rows]; omega)
            (by rw [hm2cols]; omega) (by rw [hm2cols]; omega) hlen2 hpiv2 hzb2
        rw [hm2rows, hm2cols] at hg4
        rw [hm2rows] at hr'le
        rw [hm2cols] at hpivF
        rw [hm2cols] at hzbF
        refine ⟨?_, ?_, hg3, ?_, r', pivs', by omega, hr'le, hlenF, hpivF, hzbF⟩
        · rw [hg1, hm2rows]
        · rw [hg2, hm2cols]
        · rw [hg4, hsp2, hsp1]


theorem gaussian_elimination_inv (m : BM) (hwf : BMWf m) :
    (BM.gaussian_elimination m).rows = m.rows ∧
    (BM.gaussian_elimination m).cols = m.cols ∧
    BMWf (BM.gaussian_elimination m) ∧
    rowSpan (BM.gaussian_elimination m) m.rows m.cols = rowSpan m m.rows m.cols ∧
    ∃ r' pivs', r' ≤ m.rows ∧ pivs'.length = r' ∧
      PivOK (BM.gaussian_elimination m) m.cols pivs' ∧
      ZeroBelow (BM.gaussian_elimination m) r' m.cols := by
  have h := gaussAux_inv (m.rows + m.cols) m 0 0 [] hwf (by omega) (by omega) (by omega) rfl
    ⟨fun p hp => absurd hp (List.not_mem_nil p), fun i hi => absurd hi (Nat.not_lt_zero i)⟩
    (fun i' cc _ _ hcc => absurd hcc (by omega))
  obtain ⟨h1, h2, h3, h4, r', pivs', _, hb, hc2, hd, he⟩ := h
  exact ⟨h1, h2, h3, h4, r', pivs', hb, hc2, hd, he⟩

theorem find_rev_some (p : Nat → Bool) (R k : Nat) (hk : k < R) (hpk : p k = true)
    (habove : ∀ i, k < i → i < R → p i = false) :
    (List.range R).reverse.find? p = some k := by
  induction R with
  | zero => omega
  | succ n ih =>
    rw [List.range_succ, List.reverse_append]
    simp only [List.reverse_cons, List.reverse_nil, List.nil_append, List.singleton_append]
    by_cases hkn : k = n
    · subst hkn
      rw [List.find?_cons, hpk]
    · have hpn : p n = false := habove n (by omega) (by omega)
      rw [List.find?_cons, hpn]
      exact ih (by omega) (fun i hi1 hi2 => habove i hi1 (by omega))

theorem find_rev_none (p : Nat → Bool) (R : Nat) (h : ∀ i, i < R → p i = false) :
    (List.range R).reverse.find? p = none := by
  rw [List.find?_eq_none]
  intro a ha
  rw [List.mem_reverse, List.mem_range] at ha
  rw [h a ha]
  exact Bool.false_ne_true

theorem rank_eq_pivlen (m : BM) (hwf : BMWf m) :
    ∃ r' pivs', BM.rank m = r' ∧ r' ≤ m.rows ∧ pivs'.length = r' ∧
      PivOK (BM.gaussian_elimination m) m.cols pivs' ∧
      ZeroBelow (BM.gaussian_elimination m) r' m.cols ∧
      (BM.gaussian_elimination m).rows = m.rows ∧
      (BM.gaussian_elimination m).cols = m.cols ∧
      rowSpan (BM.gaussian_elimination m) m.rows m.cols = rowSpan m m.rows m.cols := by
  obtain ⟨h1, h2, h3, h4, r', pivs', hb, hlen, hpiv, hzb⟩ := gaussian_elimination_inv m hwf
  refine ⟨r', pivs', ?_, hb, hlen, hpiv, hzb, h1, h2, h4⟩
  have hrank : BM.rank m = match (List.range m.rows).reverse.find?
      (fun row => (List.range m.cols).any
        (fun col => (BM.gaussian_elimination m).get row col ≠ 0)) with
    | some row => row + 1
    | none => 0 := rfl
  rw [hrank]
  rcases Nat.eq_zero_or_pos r' with h0 | hpos
  · subst h0
    have hfind := find_rev_none
      (fun row => (List.range m.cols).any
        (fun col => (BM.gaussian_elimination m).get row col ≠ 0)) m.rows ?_
    · rw [hfind]
    · intro i hi
      rw [List.any_eq_false]
      intro x hx
      rw [List.mem_range] at hx
      intro hcontra
      simp only [decide_eq_true_eq] at hcontra
      exact hcontra (hzb i x (by omega) (by rw [h1]; exact hi) hx)
  · have hilen : r' - 1 < pivs'.length := by rw [hlen]; omega
    obtain ⟨hp1i, _⟩ := hpiv.2 (r' - 1) hilen
    have hpclt : pivs'.get ⟨r' - 1, hilen⟩ < m.cols := by
      apply hpiv.1
      rw [List.get_eq_getElem]
      exact List.getElem_mem hilen
    have hfind := find_rev_some
      (fun row => (List.range m.cols).any
        (fun col => (BM.gaussian_elimination m).get row col ≠ 0)) m.rows (r' - 1)
      (by omega) ?_ ?_
    · rw [hfind]
      show r' - 1 + 1 = r'
      omega
    · rw [List.any_eq_true]
      refine ⟨pivs'.get ⟨r' - 1, hilen⟩, List.mem_range.mpr hpclt, ?_⟩
      simp only [decide_eq_true_eq]
      rw [hp1i]
      exact one_ne_zero
    · intro i hi1 hi2
      rw [List.any_eq_false]
      intro x hx
      rw [List.mem_range] at hx
      intro hcontra
      simp only [decide_eq_true_eq] at hcontra
      exact hcontra (hzb i x (by omega) (by rw [h1]; exact hi2) hx)

theorem pivRows_linearIndependent (g : BM) {C r' : Nat} (pivs' : List Nat)
    (hlen : pivs'.length = r') (hR : r' ≤ g.rows) (hpiv : PivOK g C pivs') :
    LinearIndependent (ZMod 2) (fun i : Fin r' => rowVec g C (i : Nat)) := by
  haveI : Fact (Nat.Prime 2) := ⟨Nat.prime_two⟩
  rw [linearIndependent_iff']
  intro s a hsum i hi
  suffices hkey : ∀ n : Nat, ∀ i : Fin r', i ∈ s → (i : Nat) = n → a i = 0 by
    exact hkey i.1 i hi rfl
  intro n
  induction n using Nat.strong_induction_on with
  | _ n ihn =>
    intro i hiS hin
    have hilen : (i : Nat) < pivs'.length := by rw [hlen]; exact i.2
    obtain ⟨hp1i, hp0i⟩ := hpiv.2 i hilen
    have hplt : pivs'.get ⟨(i : Nat), hilen⟩ < C := by
      apply hpiv.1
      rw [List.get_eq_getElem]
      exact List.getElem_mem hilen
    have hev : (∑ j in s, a j • rowVec g C (j : Nat)) ⟨pivs'.get ⟨(i : Nat), hilen⟩, hplt⟩
        = 0 := by
      rw [hsum]
      rfl
    rw [Finset.sum_apply] at hev
    simp only [Pi.smul_apply, smul_eq_mul] at hev
    have hsingle : ∑ j in s,
        a j * rowVec g C (j : Nat) ⟨pivs'.get ⟨(i : Nat), hilen⟩, hplt⟩ =
        a i * rowVec g C (i : Nat) ⟨pivs'.get ⟨(i : Nat), hilen⟩, hplt⟩ := by
      apply Finset.sum_eq_single i
      · intro j hjS hji
        rcases Nat.lt_or_ge (j : Nat) (i : Nat) with hlt | hge
        · rw [ihn j.1 (by omega) j hjS rfl, zero_mul]
        · have hgt : (i : Nat) < (j : Nat) := by
            rcases Nat.eq_or_lt_of_le hge with heq | hlt2
            · exact absurd (Fin.ext heq.symm) hji
            · exact hlt2
          have hj0 : rowVec g C (j : Nat) ⟨pivs'.get ⟨(i : Nat), hilen⟩, hplt⟩ = 0 := by
            show ((g.get j (pivs'.get ⟨(i : Nat), hilen⟩) : Nat) : ZMod 2) = 0
            rw [hp0i j.1 hgt (by omega)]
            exact Nat.cast_zero
          rw [hj0, mul_zero]
      · intro hiS'
        exact absurd hiS hiS'
    rw [hsingle] at hev
    have hone : rowVec g C (i : Nat) ⟨pivs'.get ⟨(i : Nat), hilen⟩, hplt⟩ = 1 := by
      show ((g.get i (pivs'.get ⟨(i : Nat), hilen⟩) : Nat) : ZMod 2) = 1
      rw [hp1i]
      exact Nat.cast_one
    rw [hone, mul_one] at hev
    exact hev

theorem rowSpan_eq_span_trunc (g : BM) {R C r' : Nat} (hr' : r' ≤ R)
    (hzero : ∀ i, r' ≤ i → i < R → rowVec g C i = 0) :
    rowSpan g R C = Submodule.span (ZMod 2)
      (Set.range (fun i : Fin r' => rowVec g C (i : Nat))) := by
  apply le_antisymm
  · rw [rowSpan, Submodule.span_le]
    rintro x ⟨i, rfl⟩
    by_cases hi : (i : Nat) < r'
    · exact Submodule.subset_span ⟨⟨i, hi⟩, rfl⟩
    · show rowVec g C (i : Nat) ∈ _
      rw [hzero i.1 (by omega) i.2]
      exact Submodule.zero_mem _
  · rw [Submodule.span_le]
    rintro x ⟨i, rfl⟩
    exact Submodule.subset_span ⟨⟨i.1, lt_of_lt_of_le i.2 hr'⟩, rfl⟩

theorem finrank_rowSpan_eq (g : BM) (r' : Nat) (pivs' : List Nat) (hlen : pivs'.length = r')
    (hr' : r' ≤ g.rows) (hpiv : PivOK g g.cols pivs') (hzb : ZeroBelow g r' g.cols) :
    Module.finrank (ZMod 2) (rowSpan g g.rows g.cols) = r' := by
  haveI : Fact (Nat.Prime 2) := ⟨Nat.prime_two⟩
  have hzero : ∀ i, r' ≤ i → i < g.rows → rowVec g g.cols i = 0 := by
    intro i hi1 hi2
    funext j
    show ((g.get i j : Nat) : ZMod 2) = 0
    rw [hzb i j hi1 hi2 j.2]
    exact Nat.cast_zero
  rw [rowSpan_eq_span_trunc g hr' hzero]
  rw [finrank_span_eq_card (pivRows_linearIndependent g pivs' hlen hr' hpiv)]
  exact Fintype.card_fin r'

/-- The `BM` as a GF(2) matrix (spec-side view used to state the rank claim). -/
def toMatrix (m : BM) : Matrix (Fin m.rows) (Fin m.cols) (ZMod 2) :=
  Matrix.of (fun i j => (m.get i j : ZMod 2))

theorem toMatrix_rank_eq (m : BM) :
    (toMatrix m).rank = Module.finrank (ZMod 2) (rowSpan m m.rows m.cols) := by
  haveI : Fact (Nat.Prime 2) := ⟨Nat.prime_two⟩
  rw [← Matrix.rank_transpose (toMatrix m), Matrix.rank_eq_finrank_span_cols,
    Matrix.transpose_transpose]
  rfl


/-- C7: `BM::rank` — the embedding is purely functional, so the receiver is
read-only by construction (the source eliminates on a clone); `rank` returns
the index plus one of the bottom-most row of the eliminated matrix containing
a nonzero entry (`0` if all rows are zero), and this equals the GF(2) rank of
the matrix (the dimension of its row space, equivalently `Matrix.rank` over
`ZMod 2`); in particular `rank(parse("0110\n1101\n1111\n1111")) = 3` and
`rank(parse("1")) = 1`. -/
theorem C7_rank (m : BM) (hwf : BMWf m) :
    BM.rank m = Module.finrank (ZMod 2) (rowSpan m m.rows m.cols) ∧
    BM.rank m = (toMatrix m).rank ∧
    ((BM.rank m = 0 ∧ ∀ i c, i < m.rows → c < m.cols →
        (BM.gaussian_elimination m).get i c = 0) ∨
      (1 ≤ BM.rank m ∧
        (∃ c, c < m.cols ∧ (BM.gaussian_elimination m).get (BM.rank m - 1) c ≠ 0) ∧
        ∀ i c, BM.rank m ≤ i → i < m.rows → c < m.cols →
          (BM.gaussian_elimination m).get i c = 0)) ∧
    (BM.from_str ['0','1','1','0','\n','1','1','0','1','\n','1','1','1','1','\n',
      '1','1','1','1']).map BM.rank = .ok 3 ∧
    (BM.from_str ['1']).map BM.rank = .ok 1 := by
  obtain ⟨r', pivs', hrank, hr'R, hlen, hpiv, hzb, h1, h2, h4⟩ := rank_eq_pivlen m hwf
  have hfin : Module.finrank (ZMod 2) (rowSpan m m.rows m.cols) = r' := by
    rw [← h4, ← h1, ← h2]
    refine finrank_rowSpan_eq (BM.gaussian_elimination m) r' pivs' hlen
      (by rw [h1]; exact hr'R) ?_ ?_
    · rw [h2]
      exact hpiv
    · rw [h2]
      exact hzb
  refine ⟨?_, ?_, ?_, by decide, by decide⟩
  · rw [hrank, hfin]
  · rw [hrank, toMatrix_rank_eq m, hfin]
  · rcases Nat.eq_zero_or_pos r' with h0 | hpos
    · left
      subst h0
      refine ⟨hrank, ?_⟩
      intro i c hi hc
      exact hzb i c (by omega) (by rw [h1]; exact hi) hc
    · right
      refine ⟨by rw [hrank]; omega, ?_, ?_⟩
      · have hilen : r' - 1 < pivs'.length := by rw [hlen]; omega
        obtain ⟨hp1i, _⟩ := hpiv.2 (r' - 1) hilen
        refine ⟨pivs'.get ⟨r' - 1, hilen⟩, ?_, ?_⟩
        · apply hpiv.1
          rw [List.get_eq_getElem]
          exact List.getElem_mem hilen
        · rw [hrank, hp1i]
          exact one_ne_zero
      · intro i c hi hc1 hc2
        rw [hrank] at hi
        exact hzb i c hi (by rw [h1]; exact hc1) hc2

/-- Witness for C7 at the 1-by-1 identity matrix. -/
theorem C7_witness :
    BMWf ({ mat := [1], rows := 1, cols := 1 } : BM) ∧
    BM.rank { mat := [1], rows := 1, cols := 1 } =
      Module.finrank (ZMod 2)
        (rowSpan { mat := [1], rows := 1, cols := 1 }
          ({ mat := [1], rows := 1, cols := 1 } : BM).rows
          ({ mat := [1], rows := 1, cols := 1 } : BM).cols) :=
  ⟨by decide, (C7_rank { mat := [1], rows := 1, cols := 1 } (by decide)).1⟩


end BoolFunc
